import Mathlib

/-!
Verification development for the Eulerian-Path skeleton-to-stroke pipeline.

The Python sources are shallowly embedded here:
  * `src/graph_builder.py`   — `GraphBuilder.build_graph`, `merge_close_nodes`, `prune_graph`
  * `src/eulerian_logic.py`  — `EulerianPathFinder.count_odd_nodes/analyze/make_eulerian`
  * `src/eulerian_walker.py` — `AngularWalker.find_path/_greedy_walk`
  * `src/path_generator.py`  — `PathGenerator.generate_path`
  * `src/geometry_utils.py`  — `get_path_tangent`, `calculate_angle_score`

Modelling conventions:
  * A networkx `MultiGraph` is a list of nodes and a list of edges, both in
    insertion order (Python dicts preserve insertion order).  Each edge stores
    its two endpoints, its integer multi-edge key and its attribute record.
  * Pixels / node labels are integer pairs `(row, col)`.
  * Python exceptions (IndexError, KeyError, unbounded loops) are modelled with
    `Option` / explicit result constructors; `while` loops are modelled with a
    fuel parameter large enough to cover every terminating run.
  * Floating-point angular scores are modelled exactly: the code compares
    `dot(u/|u|, b/|b|)` values for candidate tangent vectors `b` (integer
    vectors, differences of pixel coordinates) against a running best and the
    sentinel `-2.0`.  The factor `1/|u|` is common to all candidates of one
    step, every genuine score lies in `[-1, 1]` (Cauchy-Schwarz) and hence
    beats the sentinel, so the comparison order is captured exactly by the
    integer representation `(A, S) ↦ A / (|u| * sqrt S)` implemented in
    `scoreGtB` below (signs plus cross-multiplied squares).
-/

/-- A pixel coordinate `(row, col)`, also used as a node label. -/
abbrev Pix : Type := Int × Int

/-- Componentwise difference of two pixels (used for tangent vectors). -/
def psub (a b : Pix) : Int × Int := (a.1 - b.1, a.2 - b.2)

/-- Squared Euclidean distance between two pixels, as used by
`np.sum((p - q)**2)` in `_greedy_walk`. -/
def sqDist (a b : Pix) : Int := (a.1 - b.1) ^ 2 + (a.2 - b.2) ^ 2

/-- Python tuple comparison `u < v` on `(row, col)` pairs (lexicographic). -/
def pixLt (a b : Pix) : Bool := a.1 < b.1 || (a.1 = b.1 && a.2 < b.2)

/-- Attribute record of a multigraph edge.  `build_graph` stores `weight` and
`path`; `make_eulerian` additionally stamps `type`.  Absent attributes are
`none` (Python `dict.get` returning `None`). -/
structure EdgeData where
  weight : Option Int := none
  chain : Option (List Pix) := none
  etype : Option String := none
deriving Repr, DecidableEq

/-- One multigraph edge: endpoints in insertion orientation, the networkx
multi-edge key, and the attribute record. -/
structure E where
  u : Pix
  v : Pix
  key : Nat
  data : EdgeData
deriving Repr, DecidableEq

/-- A networkx `MultiGraph`: nodes and edges in insertion order. -/
structure MG where
  nodes : List Pix := []
  edges : List E := []
deriving Repr, DecidableEq

/-- Canonical identity of an undirected edge, as used by the walker's
`_is_visited`/`_mark_visited`: endpoints sorted by Python tuple order,
plus the multi-edge key. -/
def canonKey (u v : Pix) (k : Nat) : Pix × Pix × Nat :=
  if pixLt v u then (v, u, k) else (u, v, k)

/-- Canonical identity of an edge record. -/
def canonE (e : E) : Pix × Pix × Nat := canonKey e.u e.v e.key

/-- Whether an edge is incident to a node. -/
def incid (e : E) (x : Pix) : Bool := e.u = x || e.v = x

/-- The endpoint of `e` opposite to `x` (for a self-loop this is `x` itself). -/
def otherEnd (e : E) (x : Pix) : Pix := if e.u = x then e.v else e.u

/-- Contribution of one edge to the networkx degree of a node
(a self-loop counts twice). -/
def contrib (e : E) (x : Pix) : Nat :=
  if e.u = x && e.v = x then 2 else if e.u = x || e.v = x then 1 else 0

/-- The networkx `MultiGraph.degree` of a node. -/
def degree (g : MG) (x : Pix) : Nat := (g.edges.map (fun e => contrib e x)).sum

/-- Whether two edges connect the same unordered node pair. -/
def joinsPair (e : E) (x y : Pix) : Bool :=
  (e.u = x && e.v = y) || (e.u = y && e.v = x)

/-- Helper for first-occurrence deduplication: drop elements already seen. -/
def dedupGo (seen : List Pix) : List Pix → List Pix
  | [] => []
  | x :: r => if x ∈ seen then dedupGo seen r else x :: dedupGo (x :: seen) r

/-- First-occurrence deduplication (Python `dict` key order). -/
def dedupF (l : List Pix) : List Pix := dedupGo [] l

/-- The edges between `x` and `v`, in insertion order, as `(key, data)` pairs:
the inner dict `G[x][v]` of the networkx adjacency structure. -/
def keysBetween (g : MG) (x v : Pix) : List (Nat × EdgeData) :=
  (g.edges.filter (fun e => joinsPair e x v)).map (fun e => (e.key, e.data))

/-- The neighbours of `x` in networkx adjacency (first-contact) order:
iteration order of `G[x]`. -/
def nbrsOf (g : MG) (x : Pix) : List Pix :=
  dedupF ((g.edges.filter (fun e => incid e x)).map (fun e => otherEnd e x))

/-- Full adjacency iteration `for nbr in G[x]: for key, data in G[x][nbr]`:
entries `(nbr, key, data)`. -/
def adjEntries (g : MG) (x : Pix) : List (Pix × Nat × EdgeData) :=
  (nbrsOf g x).flatMap (fun v => (keysBetween g x v).map (fun kd => (v, kd.1, kd.2)))

/-- Scan for the first key `≥ k` not in `used` (fuelled). -/
def freshFrom (used : List Nat) : Nat → Nat → Nat
  | 0, k => k
  | fuel + 1, k => if k ∈ used then freshFrom used fuel (k + 1) else k

/-- The fresh multi-edge key networkx assigns for a new parallel edge between
`u` and `v` (`MultiGraph.new_edge_key`): start at the number of existing
parallel edges and skip over used keys. -/
def newEdgeKey (g : MG) (u v : Pix) : Nat :=
  let used := (keysBetween g u v).map (fun kd => kd.1)
  freshFrom used (used.length + 1) used.length

/-- Add a node if absent (`MultiGraph.add_node` without attributes). -/
def nxAddNode (g : MG) (x : Pix) : MG :=
  if x ∈ g.nodes then g else { g with nodes := g.nodes ++ [x] }

/-- The networkx `MultiGraph.add_edge(u, v, **data)` with automatic key
assignment; missing endpoints are added as nodes. -/
def nxAddEdge (g : MG) (u v : Pix) (d : EdgeData) : MG :=
  let g1 := nxAddNode (nxAddNode g u) v
  { g1 with edges := g1.edges ++ [⟨u, v, newEdgeKey g1 u v, d⟩] }

/-- Well-formedness every graph built through the networkx API satisfies:
nodes are distinct, edge endpoints are nodes, and the canonical edge
identities (endpoint pair plus key) are pairwise distinct. -/
def WFG (g : MG) : Prop :=
  g.nodes.Nodup ∧ (∀ e ∈ g.edges, e.u ∈ g.nodes ∧ e.v ∈ g.nodes) ∧
    (g.edges.map canonE).Nodup

instance (g : MG) : Decidable (WFG g) := by unfold WFG; infer_instance

/-! ## Connectivity (networkx `is_connected`: BFS over the adjacency) -/

/-- One BFS expansion step: the frontier set together with every neighbour of
one of its members. -/
def expandR (g : MG) (s : List Pix) : List Pix :=
  dedupF (s ++ s.flatMap (fun x => nbrsOf g x))

/-- All nodes reachable from `x` (iterating the expansion `|nodes|` times
saturates every path). -/
def reachList (g : MG) (x : Pix) : List Pix :=
  (expandR g)^[g.nodes.length] [x]

/-- The networkx `is_connected` on a non-null graph: every node is reachable
from the first node; `is_connected` of the null graph raises, which callers
model separately. -/
def connectedB (g : MG) : Bool :=
  match g.nodes with
  | [] => false
  | h :: _ => g.nodes.all (fun v => v ∈ reachList g h)

/-! ## Eulerian Transformer (`src/eulerian_logic.py`) -/

/-- The node positions of odd degree, in node order
(`EulerianPathFinder.count_odd_nodes`). -/
def count_odd_nodes (g : MG) : Nat × List Pix :=
  let odd := g.nodes.filter (fun v => degree g v % 2 = 1)
  (odd.length, odd)

/-- The classification `EulerianPathFinder.analyze`. -/
def analyze (g : MG) : String :=
  if (count_odd_nodes g).1 = 0 then "circuit"
  else if (count_odd_nodes g).1 = 2 then "path"
  else "non-eulerian"

/-- Python `copy.deepcopy` on a graph: produces an independent object with the
same value; under value semantics it is the identity on the value. -/
def deepcopyMG (g : MG) : MG := ⟨g.nodes, g.edges⟩

/-- The body of the double-wall loop: add one parallel duplicate of `e`
carrying a deep copy of its data with `type` overwritten to `'double_wall'`. -/
def addDoubleWall (acc : MG) (e : E) : MG :=
  nxAddEdge acc e.u e.v { e.data with etype := some "double_wall" }

/-- `EulerianPathFinder.make_eulerian`: if the analysis is `non-eulerian` or
`force_double_wall` is set, duplicate every existing edge (snapshot of the
edge list); otherwise return the graph unchanged. -/
def make_eulerian (g : MG) (force_double_wall : Bool) : MG :=
  if analyze g = "non-eulerian" || force_double_wall then
    g.edges.foldl addDoubleWall g
  else g

/-- A whole `EulerianPathFinder` session as the caller sees it:
`EulerianPathFinder(graph)` deep-copies the argument, `make_eulerian` mutates
only that private copy; the pair is (caller's graph after the call, returned
graph). -/
def epfSession (g : MG) (force : Bool) : MG × MG :=
  (g, make_eulerian (deepcopyMG g) force)

/-- The networkx `is_eulerian` on a non-null undirected graph:
all degrees even and connected. -/
def isEulerianB (g : MG) : Bool :=
  g.nodes.all (fun v => degree g v % 2 = 0) && connectedB g

/-- The networkx `has_eulerian_path` (undirected, no source):
Eulerian, or exactly two odd nodes and connected. -/
def hasEulerianPathB (g : MG) : Bool :=
  isEulerianB g || ((count_odd_nodes g).1 = 2 && connectedB g)

/-- The networkx `is_semieulerian`. -/
def isSemieulerianB (g : MG) : Bool :=
  hasEulerianPathB g && !isEulerianB g

/-! ## Geometry utilities (`src/geometry_utils.py`)

`get_path_tangent(path, num_points=5)` returns the *normalized* vector from
`path[0]` to `path[min(len-1, 5)]` (zero vector for short or degenerate
chains).  Normalization only rescales by a positive factor, so for the
walker's comparisons it suffices to carry the raw integer vector; the exact
value of `calculate_angle_score` (the dot product of the two normalized
vectors) is represented by the pair `(A, S)` with value `A / (|u| * sqrt S)`,
see `scoreGtB`. -/

/-- The unnormalized tangent vector `path[min(len-1,5)] - path[0]`
(`get_path_tangent` before normalization; `(0,0)` for chains of length `< 2`,
matching the zero vector the source returns). -/
def tangentRaw (c : List Pix) : Int × Int :=
  match c with
  | [] => (0, 0)
  | p :: _ => psub (c.getD (min (c.length - 1) 5) p) p

/-- Negation of an integer vector (`-exit_tangent` in `_greedy_walk`). -/
def negV (v : Int × Int) : Int × Int := (-v.1, -v.2)

/-- Exact representation of a candidate's angular score in one greedy step.
`cv` is the raw incoming vector (`None` on the first step of a walk, where the
source forces the score `0.0`), `b` the candidate's raw outgoing tangent.
The represented real score is `A / (|u| * sqrt S)` (with the convention that
a zero tangent gives score `0`, as `get_path_tangent` then returns the zero
vector). -/
def scoreRep (cv : Option (Int × Int)) (b : Int × Int) : Int × Nat :=
  match cv with
  | none => (0, 1)
  | some u =>
    let s : Int := b.1 ^ 2 + b.2 ^ 2
    if s = 0 then (0, 1) else (u.1 * b.1 + u.2 * b.2, s.toNat)

/-- Exact comparison `score₁ > score₂` of two represented scores of the same
greedy step (same incoming vector, hence the same positive factor `1/|u|`):
`A₁/sqrt S₁ > A₂/sqrt S₂` decided by signs and cross-multiplied squares. -/
def scoreGtB (p q : Int × Nat) : Bool :=
  if p.1 > 0 then (if q.1 ≤ 0 then true else p.1 ^ 2 * (q.2 : Int) > q.1 ^ 2 * (p.2 : Int))
  else if p.1 = 0 then q.1 < 0
  else if q.1 ≥ 0 then false
  else p.1 ^ 2 * (q.2 : Int) < q.1 ^ 2 * (p.2 : Int)

/-! ## Angular Walker (`src/eulerian_walker.py`) -/

/-- One committed tour segment `(u, v, key, pixels)`. -/
structure Seg where
  a : Pix
  b : Pix
  key : Nat
  pix : List Pix
deriving Repr, DecidableEq

/-- Canonical edge identity of a segment. -/
def canonSeg (s : Seg) : Pix × Pix × Nat := canonKey s.a s.b s.key

/-- Orientation of a candidate's pixel chain in `_greedy_walk`: reverse the
stored chain when its far end is strictly closer (squared distance) to the
current node; `none` models the `IndexError` on an empty stored chain
(`pixels[0]` / `pixels[-1]`). -/
def orientPix (curr : Pix) (raw : List Pix) : Option (List Pix) :=
  match raw with
  | [] => none
  | p :: _ =>
    let d1 := sqDist p curr
    let d2 := sqDist (raw.getLastD p) curr
    some (if d2 < d1 then raw.reverse else raw)

/-- Evaluation of one unvisited candidate `(nbr, key, data)` at `curr`:
the default chain `[curr, nbr]` when the edge has no `path` attribute, the
orientation step, the raw outgoing tangent and the represented score. -/
def evalCand (curr : Pix) (cv : Option (Int × Int)) :
    Pix × Nat × EdgeData → Option (Pix × Nat × List Pix × (Int × Nat))
  | (v, k, d) => do
    let pixels ← orientPix curr (d.chain.getD [curr, v])
    pure (v, k, pixels, scoreRep cv (tangentRaw pixels))

/-- One comparison of the argmax fold of `_greedy_walk` step 2: the running
best starts at the sentinel score `-2.0` (`none` here), which every genuine
score beats since real scores lie in `[-1, 1]`; afterwards a candidate
replaces the best exactly when its score is strictly greater. -/
def bestStep (acc : Option (Pix × Nat × List Pix × (Int × Nat)))
    (c : Pix × Nat × List Pix × (Int × Nat)) :
    Option (Pix × Nat × List Pix × (Int × Nat)) :=
  match acc with
  | none => some c
  | some b => if scoreGtB c.2.2.2 b.2.2.2 then some c else some b

/-- The argmax fold of `_greedy_walk` step 2. -/
def pickBest (cands : List (Pix × Nat × List Pix × (Int × Nat))) :
    Option (Pix × Nat × List Pix × (Int × Nat)) :=
  cands.foldl bestStep none

/-- The unvisited incident entries at `curr` (`options` in `_greedy_walk`). -/
def walkOptions (g : MG) (vis : List (Pix × Pix × Nat)) (curr : Pix) :
    List (Pix × Nat × EdgeData) :=
  (adjEntries g curr).filter (fun o => canonKey curr o.1 o.2.1 ∉ vis)

/-- `AngularWalker._has_unused_edges`. -/
def has_unused_edges (g : MG) (vis : List (Pix × Pix × Nat)) (x : Pix) : Bool :=
  if x ∈ g.nodes then !(walkOptions g vis x).isEmpty else false

/-- `AngularWalker._greedy_walk`: walk from `curr` with incoming raw vector
`cv`, committing the best-scored unvisited incident edge until none is left
(or the node is missing from the graph).  Returns the segment list and the
updated visited set; `none` models a pixel-chain `IndexError`.  The fuel is
an upper bound on the number of iterations (each commits a fresh edge). -/
def greedy_walk (g : MG) : Nat → Pix → Option (Int × Int) →
    List (Pix × Pix × Nat) → Option (List Seg × List (Pix × Pix × Nat))
  | 0, _, _, vis => some ([], vis)
  | fuel + 1, curr, cv, vis =>
    if curr ∉ g.nodes then some ([], vis)
    else
      match walkOptions g vis curr with
      | [] => some ([], vis)
      | o :: os => do
        let cands ← (o :: os).mapM (evalCand curr cv)
        match pickBest cands with
        | none => none
        | some best =>
          let seg : Seg := ⟨curr, best.1, best.2.1, best.2.2.1⟩
          let vis' := canonKey curr best.1 best.2.1 :: vis
          let next_cv := some (negV (tangentRaw best.2.2.1.reverse))
          let rest ← greedy_walk g fuel best.1 next_cv vis'
          pure (seg :: rest.1, rest.2)

/-- How `find_path`'s splice loop ended. -/
inductive SpliceRes where
  /-- Loop condition failed: every edge is visited. -/
  | done (tour : List Seg) (vis : List (Pix × Pix × Nat))
  /-- `found` stayed false: no candidate node has an unused edge although
  unvisited edges remain; the loop `break`s with the partial tour. -/
  | noCandidate (tour : List Seg) (vis : List (Pix × Pix × Nat))
  /-- `sub_tour` came back empty and the loop `break`s (requires a candidate
  that has unused edges, so this is unreachable). -/
  | emptySub (tour : List Seg) (vis : List (Pix × Pix × Nat))
  /-- `tour[-1]` raised `IndexError` on an empty tour. -/
  | emptyTourCrash
  /-- A pixel-chain `IndexError` inside a greedy walk. -/
  | chainCrash
  /-- Fuel ran out (the model's loop bound; unreachable with the bound
  `find_path` passes, as every iteration visits at least one new edge). -/
  | fuelOut
deriving Repr, DecidableEq

/-- The candidate scan list of the splice loop: the start node of each
segment, then the end node of the last segment. -/
def spliceCandidates (tour : List Seg) (lastSeg : Seg) : List Pix :=
  tour.map (fun s => s.a) ++ [lastSeg.b]

/-- Insertion of the spliced sub-tour (`tour[idx:idx] = sub`, or `extend`
when the index points past the end). -/
def spliceAt (tour sub : List Seg) (idx : Nat) : List Seg :=
  if idx ≥ tour.length then tour ++ sub
  else tour.take idx ++ sub ++ tour.drop idx

/-- The `for idx, node in enumerate(candidates)` scan: the first candidate
with an unused incident edge, together with its index. -/
def scanCands (g : MG) (vis : List (Pix × Pix × Nat)) : List Pix → Option (Nat × Pix)
  | [] => none
  | n :: r =>
    if has_unused_edges g vis n then some (0, n)
    else (scanCands g vis r).map (fun p => (p.1 + 1, p.2))

/-- The splice loop of `AngularWalker.find_path` (step 3). -/
def spliceLoop (g : MG) : Nat → List Seg → List (Pix × Pix × Nat) → SpliceRes
  | 0, tour, vis =>
    if vis.length < g.edges.length then .fuelOut else .done tour vis
  | fuel + 1, tour, vis =>
    if vis.length < g.edges.length then
      match tour.getLast? with
      | none => .emptyTourCrash
      | some lastSeg =>
        match scanCands g vis (spliceCandidates tour lastSeg) with
        | none => .noCandidate tour vis
        | some (idx, spliceNode) =>
          match greedy_walk g (g.edges.length + 1) spliceNode none vis with
          | none => .chainCrash
          | some (sub, vis') =>
            if sub.isEmpty then .emptySub tour vis
            else spliceLoop g fuel (spliceAt tour sub idx) vis'
    else .done tour vis

/-- Pixel assembly (`find_path` step 4): concatenate the segment chains,
dropping a segment's first pixel when it equals the last pixel appended so
far; `none` models the `IndexError` of `full_pixels[-1]` / `pixels[0]` on an
empty list. -/
def assembleFrom (full : List Pix) : List Seg → Option (List Pix)
  | [] => some full
  | s :: r =>
    match full.getLast?, s.pix.head? with
    | some lp, some fp =>
      assembleFrom (if lp = fp then full ++ s.pix.tail else full ++ s.pix) r
    | _, _ => none

/-- Pixel assembly of a whole tour: the first segment is appended whole. -/
def assembleTour : List Seg → Option (List Pix)
  | [] => some []
  | s :: r => assembleFrom s.pix r

/-- The start node `find_path` selects: the first odd-degree node in node
order if any, otherwise the first node; `none` models the `IndexError` of
`list(G.nodes())[0]` on an empty graph. -/
def startNodeOf (g : MG) : Option Pix :=
  match g.nodes.filter (fun v => degree g v % 2 = 1) with
  | o :: _ => some o
  | [] => g.nodes.head?

/-- `AngularWalker.find_path` up to pixel assembly: start-node selection,
the initial greedy walk, and the splice loop. -/
def findPathCore (g : MG) : SpliceRes :=
  match startNodeOf g with
  | none => .emptyTourCrash
  | some s =>
    match greedy_walk g (g.edges.length + 1) s none [] with
    | none => .chainCrash
    | some (tour, vis) => spliceLoop g (g.edges.length + 1) tour vis

/-- `AngularWalker.find_path`: the pixel list it returns, `none` when the
call raises (`IndexError` on an empty graph / empty tour / empty chain). -/
def find_path (g : MG) : Option (List Pix) :=
  match findPathCore g with
  | .done tour _ => assembleTour tour
  | .noCandidate tour _ => assembleTour tour
  | .emptySub tour _ => assembleTour tour
  | _ => none

/-! ## Path Generator (`src/path_generator.py`) -/

/-- Observable outcome of `PathGenerator.generate_path`. -/
inductive GenRes where
  /-- The `ValueError("Graph is not Eulerian/Semi-Eulerian...")`. -/
  | notTraversable
  /-- `NetworkXPointlessConcept` from `is_connected` on the null graph. -/
  | nullGraphError
  /-- An exception escaping the Angular Walker. -/
  | walkerError
  /-- Normal return of the walker's pixel sequence. -/
  | ok (pixels : List Pix)
deriving Repr, DecidableEq

/-- `PathGenerator.generate_path`: raise unless the graph is Eulerian or
semi-Eulerian (networkx checks, which include connectivity and raise on the
null graph), otherwise return the Angular Walker's pixel sequence. -/
def generate_path (g : MG) : GenRes :=
  if g.nodes.isEmpty then .nullGraphError
  else if !isEulerianB g && !isSemieulerianB g then .notTraversable
  else
    match find_path g with
    | some p => .ok p
    | none => .walkerError

/-! ## Skeleton Graph Builder (`src/graph_builder.py`) -/

/-- A skeleton mask: grid shape and the list of foreground pixels in
`np.where` row-major order. -/
structure Mask where
  h : Nat
  w : Nat
  fg : List Pix
deriving Repr, DecidableEq

/-- The 8-neighbourhood offsets in the `dy, dx` loop order of
`GraphBuilder._get_neighbors`. -/
def nbhdOffsets : List (Int × Int) :=
  [(-1, -1), (-1, 0), (-1, 1), (0, -1), (0, 1), (1, -1), (1, 0), (1, 1)]

/-- `GraphBuilder._get_neighbors`: 8-connected in-bounds foreground
neighbours of a pixel. -/
def get_neighbors (m : Mask) (p : Pix) : List Pix :=
  nbhdOffsets.filterMap (fun d =>
    let q : Pix := (p.1 + d.1, p.2 + d.2)
    if 0 ≤ q.1 ∧ q.1 < (m.h : Int) ∧ 0 ≤ q.2 ∧ q.2 < (m.w : Int) ∧ q ∈ m.fg
    then some q else none)

/-- The endpoint pixels (exactly one foreground neighbour). -/
def builderEndpoints (m : Mask) : List Pix :=
  m.fg.filter (fun p => (get_neighbors m p).length = 1)

/-- The junction pixels (more than two foreground neighbours). -/
def builderJunctions (m : Mask) : List Pix :=
  m.fg.filter (fun p => (get_neighbors m p).length > 2)

/-- The node set of `build_graph`: junctions and endpoints; for a non-empty
mask with neither, one arbitrary foreground pixel (the first) is
synthesized as an endpoint. -/
def builderAllNodes (m : Mask) : List Pix :=
  let js := builderJunctions m
  let es := builderEndpoints m
  let es := if js.isEmpty && es.isEmpty && !m.fg.isEmpty then m.fg.take 1 else es
  js ++ es

/-- The tracing loop of `build_graph`: from `cur` (reached from `prev`),
walk through successive non-node pixels, recording each as consumed, until a
node pixel is reached or no unfiltered neighbour remains (dead end).  Returns
the accumulated pixel path, the final pixel, and the consumed set. -/
def traceWalk (m : Mask) (allN : List Pix) : Nat → Pix → Pix → List Pix → List Pix →
    List Pix × Pix × List Pix
  | 0, _, cur, path, vis => (path, cur, vis)
  | fuel + 1, prev, cur, path, vis =>
    if cur ∈ allN then (path, cur, vis)
    else
      let vis' := cur :: vis
      match (get_neighbors m cur).filter (fun n => n ≠ prev) with
      | [] => (path, cur, vis')
      | nxt :: _ => traceWalk m allN fuel cur nxt (path ++ [nxt]) vis'

/-- State of the edge-tracing phase: consumed pixels and the graph so far. -/
structure BState where
  vis : List Pix
  g : MG
deriving Repr, DecidableEq

/-- Fuel bound for one trace (the loop moves through distinct non-node
pixels, so `|fg| + 1` steps always suffice for a terminating run). -/
def buildFuel (m : Mask) : Nat := m.fg.length + 1

/-- One (node, neighbour) iteration of the nested tracing loops: skip a neighbour
already consumed by a prior trace, otherwise trace and — when the walk ended
on a node pixel — add the edge with `weight = len(path)` and the recorded
chain. -/
def processPair (m : Mask) (allN : List Pix) (st : BState) (pr : Pix × Pix) : BState :=
  if pr.2 ∈ st.vis then st
  else
    let r := traceWalk m allN (buildFuel m) pr.1 pr.2 [pr.1, pr.2] st.vis
    if r.2.1 ∈ allN then
      { vis := r.2.2,
        g := nxAddEdge st.g pr.1 r.2.1 ⟨some (r.1.length : Int), some r.1, none⟩ }
    else { st with vis := r.2.2 }

/-- The (node, neighbour) pairs the nested tracing loops enumerate. -/
def builderPairs (m : Mask) (allN : List Pix) : List (Pix × Pix) :=
  allN.flatMap (fun nd => (get_neighbors m nd).map (fun nb => (nd, nb)))

/-- `GraphBuilder.build_graph`: node detection followed by edge tracing. -/
def build_graph (m : Mask) : MG :=
  let allN := builderAllNodes m
  ((builderPairs m allN).foldl (processPair m allN) ⟨[], ⟨allN, []⟩⟩).g

/-! ### `merge_close_nodes` and networkx `contracted_nodes` -/

/-- The float comparison `sqrt d < t` of `merge_close_nodes`, exactly:
`0 < t ∧ d < t²`. -/
def distLtB (u v : Pix) (t : ℚ) : Bool :=
  decide (0 < t ∧ ((sqDist u v : ℚ) < t ^ 2))

/-- The first edge (scan order) whose endpoint positions are closer than the
threshold — the `to_merge` pair. -/
def findShortEdge (g : MG) (t : ℚ) : Option (Pix × Pix) :=
  (g.edges.find? (fun e => distLtB e.u e.v t)).map (fun e => (e.u, e.v))

/-- Python set equality `{a, b} == {c, d}`. -/
def pySetEq2 (a b c d : Pix) : Bool :=
  (a = c || a = d) && (b = c || b = d) && (c = a || c = b) && (d = a || d = b)

/-- Removal of a node and its incident edges (`Graph.remove_node`). -/
def removeNodeMG (g : MG) (x : Pix) : MG :=
  ⟨g.nodes.filter (fun n => n ≠ x), g.edges.filter (fun e => !incid e x)⟩

/-- The edges incident to `v`, remapped onto `u`, skipping those joining
`u` and `v` (the `self_loops=False` filter of `contracted_nodes`). -/
def remapEdges (g : MG) (u v : Pix) : List (Pix × Pix × EdgeData) :=
  (g.edges.filter (fun e => incid e v)).filterMap (fun e =>
    if pySetEq2 e.u e.v u v then none
    else some ((if e.u = v then u else e.u), (if e.v = v then u else e.v), e.data))

/-- `contracted_nodes` before the final attribute update: remove `v` and its
incident edges, then re-add the remapped edges. -/
def contractedCore (g : MG) (u v : Pix) : MG :=
  (remapEdges g u v).foldl (fun acc t => nxAddEdge acc t.1 t.2.1 t.2.2)
    (removeNodeMG g v)

/-- The networkx `contracted_nodes(G, u, v, self_loops=False)` on a
multigraph: collect `v`'s incident edges remapped to `u` (dropping those
joining `u` and `v`), remove `v`, re-add the remapped edges, then update the
`contraction` attribute of `H.nodes[u]` — a `KeyError` (modelled `none`) when
`u` is no longer present (contracting a node that had only self-loops). -/
def contracted_nodes (g : MG) (u v : Pix) : Option MG :=
  if v ∉ g.nodes then none
  else if u ∈ (contractedCore g u v).nodes then some (contractedCore g u v)
  else none

/-- Observable outcome of `merge_close_nodes`. -/
inductive MergeRes where
  /-- Normal exit: no edge below the threshold remains. -/
  | ok (g : MG)
  /-- A `KeyError` escaping `contracted_nodes`. -/
  | keyError
  /-- Fuel ran out (unreachable with the bound `merge_close_nodes` passes:
  each step removes a node or removes self-loop edges). -/
  | fuelOut
deriving Repr, DecidableEq

/-- The rescan loop of `merge_close_nodes`. -/
def mergeLoop (t : ℚ) : Nat → MG → MergeRes
  | 0, g =>
    match findShortEdge g t with
    | none => .ok g
    | some _ => .fuelOut
  | fuel + 1, g =>
    match findShortEdge g t with
    | none => .ok g
    | some uv =>
      match contracted_nodes g uv.1 uv.2 with
      | none => .keyError
      | some g' => mergeLoop t fuel g'

/-- `GraphBuilder.merge_close_nodes(distance_threshold)`. -/
def merge_close_nodes (g : MG) (t : ℚ) : MergeRes :=
  mergeLoop t (g.nodes.length + g.edges.length + 1) g

/-! ### `prune_graph`

`prune_graph` looks up the string `'weight'` in the dictionary returned by
`MultiGraph.get_edge_data(node, neighbor)`.  On a multigraph that dictionary
maps integer multi-edge keys to attribute records, so the lookup raises
`KeyError('weight')`, which the surrounding `except (NetworkXError, KeyError)`
swallows — the iteration `continue`s and nothing is ever removed. -/

/-- A Python dictionary key: the multi-edge keys are ints; the buggy lookup
uses a string. -/
inductive PyKey where
  | int (n : Nat)
  | str (s : String)
deriving Repr, DecidableEq

/-- `MultiGraph.get_edge_data(x, v)`: the key dictionary of the parallel
edges between `x` and `v`. -/
def get_edge_data (g : MG) (x v : Pix) : List (PyKey × EdgeData) :=
  (keysBetween g x v).map (fun kd => (PyKey.int kd.1, kd.2))

/-- Python dictionary indexing, `none` = `KeyError`. -/
def pyDictGet (d : List (PyKey × EdgeData)) (k : PyKey) : Option EdgeData :=
  (d.find? (fun p => p.1 = k)).map (fun p => p.2)

/-- One node of the pruning pass: at degree 1, fetch the edge dictionary and
index it with `'weight'`; the `KeyError` is swallowed (`continue`).  Were the
lookup ever to yield a value, it would be an attribute record, and comparing
it against the integer threshold would raise an uncaught `TypeError`
(modelled `none`) — that branch is provably dead. -/
def prunePassNode : Option (MG × Bool) → Pix → Option (MG × Bool)
  | none, _ => none
  | some (g, changed), node =>
    if degree g node = 1 then
      match nbrsOf g node with
      | [] => some (g, changed)
      | nb :: _ =>
        match pyDictGet (get_edge_data g node nb) (PyKey.str "weight") with
        | none => some (g, changed)
        | some _ => none
    else some (g, changed)

/-- `GraphBuilder.prune_graph(min_path_length)`: the `while changed` loop
runs the node pass once (`changed` is never set, as every weight lookup
raises and is swallowed), so a single pass over the node snapshot models the
whole call. -/
def prune_graph (g : MG) (_minLen : Int) : Option MG :=
  (g.nodes.foldl prunePassNode (some (g, false))).map Prod.fst

/-! ## Notions used by the verification layer -/

/-- Relation between an original edge and its double-wall duplicate. -/
def dupRel (e d : E) : Prop :=
  d.u = e.u ∧ d.v = e.v ∧ d.data = { e.data with etype := some "double_wall" }

/-- A segment list is a chain starting at `x`: each segment departs from the
node the previous one reached. -/
def Chained : Pix → List Seg → Prop
  | _, [] => True
  | x, s :: r => s.a = x ∧ Chained s.b r

/-- The node a chained segment list ends at. -/
def endOf (x : Pix) : List Seg → Pix
  | [] => x
  | s :: r => endOf s.b r

/-- A node an existing tour touches (endpoint of some committed segment). -/
def Touched (tour : List Seg) (y : Pix) : Prop :=
  ∃ s ∈ tour, y = s.a ∨ y = s.b

/-- Two nodes joined by some edge of the graph. -/
def AdjP (g : MG) (y z : Pix) : Prop :=
  ∃ e ∈ g.edges, (e.u = y ∧ e.v = z) ∨ (e.u = z ∧ e.v = y)

/-- Walk-reachability along edges. -/
inductive EPath (g : MG) : Pix → Pix → Prop where
  | refl (x : Pix) : EPath g x x
  | step {x y z : Pix} : EPath g x y → AdjP g y z → EPath g x z

/-- A committed segment realises one edge of the graph: same canonical
identity, endpoints in one of the two orientations, and its oriented pixels
are the stored chain (default `[a, b]`) or its reverse. -/
def SegOK (g : MG) (s : Seg) : Prop :=
  ∃ e ∈ g.edges, canonSeg s = canonE e ∧
    ((s.a = e.u ∧ s.b = e.v) ∨ (s.a = e.v ∧ s.b = e.u)) ∧
    (s.pix = e.data.chain.getD [s.a, s.b] ∨ s.pix = (e.data.chain.getD [s.a, s.b]).reverse)

/-- Every stored pixel chain has at least two pixels (the data model of §3:
chains include both endpoint nodes).  The walker's default chain `[u, v]`
for a chainless edge also has two. -/
def chainsGoodB (g : MG) : Bool :=
  g.edges.all (fun e =>
    match e.data.chain with
    | none => true
    | some c => 2 ≤ c.length)

/-- Degree of `x` in the not-yet-visited part of the graph. -/
def remDeg (g : MG) (vis : List (Pix × Pix × Nat)) (x : Pix) : Nat :=
  ((g.edges.filter (fun e => decide (canonE e ∉ vis))).map (fun e => contrib e x)).sum

/-- Degree contribution of one committed segment at `x` (mirrors `contrib`). -/
def segContrib (s : Seg) (x : Pix) : Nat :=
  if s.a = x && s.b = x then 2 else if s.a = x || s.b = x then 1 else 0

/-- Degree of `x` in a list of committed segments. -/
def segDeg (segs : List Seg) (x : Pix) : Nat :=
  (segs.map (fun s => segContrib s x)).sum

/-- The canonical identities of the not-yet-visited edges. -/
def unvisCanons (g : MG) (vis : List (Pix × Pix × Nat)) : List (Pix × Pix × Nat) :=
  (g.edges.map canonE).filter (fun c => decide (c ∉ vis))

/-- Degree of `x` among the edges whose canonical identity lies in `cs`. -/
def canonsDeg (g : MG) (cs : List (Pix × Pix × Nat)) (x : Pix) : Nat :=
  ((g.edges.filter (fun e => decide (canonE e ∈ cs))).map (fun e => contrib e x)).sum

/-- Structural invariant of the splice loop: the visited set is exactly the
canonical identities of the committed tour segments (no repeats), every
visited identity is an edge of the graph, and every segment realises an
edge. -/
def BasicInv (g : MG) (tour : List Seg) (vis : List (Pix × Pix × Nat)) : Prop :=
  (tour.map canonSeg).Perm vis ∧
  (tour.map canonSeg).Nodup ∧
  (∀ c ∈ vis, c ∈ g.edges.map canonE) ∧
  (∀ s ∈ tour, SegOK g s)

/-- Parity invariant: every node has even degree in the unvisited part. -/
def ParityInv (g : MG) (vis : List (Pix × Pix × Nat)) : Prop :=
  ∀ x : Pix, remDeg g vis x % 2 = 0

/-! ## Concrete example graphs and masks (used by witnesses and
counterexamples) -/

/-- Edge data holding only a pixel chain. -/
def chainData (l : List Pix) : EdgeData := { chain := some l }

/-- A triangle with three chained edges: connected, all degrees even. -/
def exTri : MG :=
  nxAddEdge (nxAddEdge (nxAddEdge ⟨[], []⟩
    (0, 0) (0, 2) (chainData [(0, 0), (0, 1), (0, 2)]))
    (0, 2) (2, 0) (chainData [(0, 2), (1, 1), (2, 0)]))
    (2, 0) (0, 0) (chainData [(2, 0), (1, 0), (0, 0)])

/-- Two disjoint triangles: every degree even (parity test passes) but the
graph is disconnected. -/
def exTri2 : MG :=
  nxAddEdge (nxAddEdge (nxAddEdge exTri
    (10, 0) (10, 2) (chainData [(10, 0), (10, 1), (10, 2)]))
    (10, 2) (12, 0) (chainData [(10, 2), (11, 1), (12, 0)]))
    (12, 0) (10, 0) (chainData [(12, 0), (11, 0), (10, 0)])

/-- A star: centre of degree 3 and three leaves, four odd nodes. -/
def exStar : MG :=
  nxAddEdge (nxAddEdge (nxAddEdge ⟨[], []⟩
    (0, 0) (0, 1) (chainData [(0, 0), (0, 1)]))
    (0, 0) (1, 0) (chainData [(0, 0), (1, 0)]))
    (0, 0) (0, -1) (chainData [(0, 0), (0, -1)])

/-- A path with a short spur: node `(0,3)` has degree 1 and its single edge
has weight 2, below the default threshold 5. -/
def exSpur : MG :=
  nxAddEdge (nxAddEdge ⟨[], []⟩
    (0, 0) (0, 2) { weight := some 3, chain := some [(0, 0), (0, 1), (0, 2)] })
    (0, 2) (0, 3) { weight := some 2, chain := some [(0, 2), (0, 3)] }

/-- A node with a self-loop (endpoint distance 0, below any positive
threshold) plus an ordinary far edge. -/
def exMerge : MG :=
  nxAddEdge (nxAddEdge ⟨[], []⟩
    (0, 0) (0, 0) (chainData [(0, 0), (0, 1), (0, 0)]))
    (0, 0) (10, 0) (chainData [(0, 0), (10, 0)])

/-- The graph after contracting the self-loop of `exMerge`: same two nodes,
self-loop gone. -/
def exMerged : MG :=
  ⟨[(10, 0), (0, 0)], [⟨(0, 0), (10, 0), 0, chainData [(0, 0), (10, 0)]⟩]⟩

/-- An isolated node inserted before a triangle: no odd nodes, so `find_path`
starts at the isolated first node, the initial greedy walk is empty, and
`tour[-1]` raises. -/
def exIso : MG :=
  nxAddEdge (nxAddEdge (nxAddEdge ⟨[(5, 5)], []⟩
    (0, 0) (0, 2) (chainData [(0, 0), (0, 1), (0, 2)]))
    (0, 2) (2, 0) (chainData [(0, 2), (1, 1), (2, 0)]))
    (2, 0) (0, 0) (chainData [(2, 0), (1, 0), (0, 0)])

/-- A 1×2 mask: two adjacent foreground pixels, both endpoints. -/
def exMask12 : Mask := ⟨1, 2, [(0, 0), (0, 1)]⟩

/-- A 1×3 mask: a three-pixel line with one interior pixel. -/
def exMask13 : Mask := ⟨1, 3, [(0, 0), (0, 1), (0, 2)]⟩

/-! ## Basic lemmas about the graph model -/

theorem pixLt_asymm {a b : Pix} (h : pixLt a b = true) : pixLt b a = false := by
  simp only [pixLt, Bool.or_eq_true, Bool.and_eq_true, decide_eq_true_eq,
    Bool.or_eq_false_iff, Bool.and_eq_false_iff, decide_eq_false_iff_not] at *
  rcases h with h | ⟨h1, h2⟩
  · constructor
    · omega
    · left; omega
  · constructor
    · omega
    · right; omega

theorem pixLt_antisymm {a b : Pix} (h1 : pixLt a b = false) (h2 : pixLt b a = false) :
    a = b := by
  simp only [pixLt, Bool.or_eq_false_iff, Bool.and_eq_false_iff,
    decide_eq_false_iff_not] at h1 h2
  obtain ⟨h1a, h1b⟩ := h1
  obtain ⟨h2a, h2b⟩ := h2
  have : a.1 = b.1 := by omega
  rcases h1b with h | h
  · exact absurd this h
  · rcases h2b with h' | h'
    · exact absurd this.symm h'
    · exact Prod.ext this (by omega)

theorem canonKey_symm (a b : Pix) (k : Nat) : canonKey a b k = canonKey b a k := by
  unfold canonKey
  rcases h1 : pixLt b a with _ | _
  · rcases h2 : pixLt a b with _ | _
    · have hab := pixLt_antisymm h2 h1
      subst hab; rfl
    · simp [h1, h2]
  · have h2 := pixLt_asymm h1
    simp [h1, h2]

theorem canonKey_cases (a b : Pix) (k : Nat) :
    canonKey a b k = (a, b, k) ∨ canonKey a b k = (b, a, k) := by
  unfold canonKey
  rcases pixLt b a with _ | _ <;> simp

theorem canonKey_key (a b : Pix) (k : Nat) : (canonKey a b k).2.2 = k := by
  rcases canonKey_cases a b k with h | h <;> rw [h]

theorem canonKey_inj {a b c d : Pix} {k k' : Nat}
    (h : canonKey a b k = canonKey c d k') :
    k = k' ∧ ((a = c ∧ b = d) ∨ (a = d ∧ b = c)) := by
  have hk : k = k' := by
    have := congrArg (fun t => t.2.2) h
    simpa [canonKey_key] using this
  refine ⟨hk, ?_⟩
  rcases canonKey_cases a b k with h1 | h1 <;>
    rcases canonKey_cases c d k' with h2 | h2 <;>
    rw [h1, h2] at h <;>
    simp only [Prod.mk.injEq] at h <;> tauto

theorem mem_dedupGo (l : List Pix) :
    ∀ (seen : List Pix) (x : Pix), x ∈ dedupGo seen l ↔ x ∈ l ∧ x ∉ seen := by
  induction l with
  | nil => intro seen x; simp [dedupGo]
  | cons a r ih =>
    intro seen x
    unfold dedupGo
    by_cases ha : a ∈ seen
    · rw [if_pos ha, ih]
      simp only [List.mem_cons]
      constructor
      · rintro ⟨hr, hs⟩; exact ⟨.inr hr, hs⟩
      · rintro ⟨hxa | hr, hs⟩
        · subst hxa; exact absurd ha hs
        · exact ⟨hr, hs⟩
    · rw [if_neg ha]
      simp only [List.mem_cons, ih]
      constructor
      · rintro (rfl | ⟨hr, hs⟩)
        · exact ⟨.inl rfl, ha⟩
        · exact ⟨.inr hr, fun hx => hs (.inr hx)⟩
      · rintro ⟨hxa | hr, hs⟩
        · exact .inl hxa
        · by_cases hx : x = a
          · exact .inl hx
          · exact .inr ⟨hr, by simp [hx, hs]⟩

theorem mem_dedupF {l : List Pix} {x : Pix} : x ∈ dedupF l ↔ x ∈ l := by
  rw [dedupF, mem_dedupGo]
  simp

theorem mem_nbrsOf {g : MG} {x y : Pix} :
    y ∈ nbrsOf g x ↔ ∃ e ∈ g.edges, incid e x = true ∧ otherEnd e x = y := by
  unfold nbrsOf
  rw [mem_dedupF]
  simp only [List.mem_map, List.mem_filter]
  constructor
  · rintro ⟨e, ⟨he, hi⟩, rfl⟩; exact ⟨e, he, hi, rfl⟩
  · rintro ⟨e, he, hi, rfl⟩; exact ⟨e, ⟨he, hi⟩, rfl⟩

theorem incid_otherEnd_joinsPair {e : E} {x : Pix} (h : incid e x = true) :
    joinsPair e x (otherEnd e x) = true := by
  unfold incid at h
  unfold joinsPair otherEnd
  rcases Bool.or_eq_true _ _ |>.mp h with h1 | h1 <;>
    simp only [decide_eq_true_eq] at h1 <;>
    by_cases h2 : e.u = x <;> simp [h1, h2]

theorem joinsPair_incid {e : E} {x v : Pix} (h : joinsPair e x v = true) :
    incid e x = true ∧ otherEnd e x = v := by
  unfold joinsPair at h
  unfold incid otherEnd
  rcases Bool.or_eq_true _ _ |>.mp h with h1 | h1 <;>
    rw [Bool.and_eq_true] at h1 <;>
    obtain ⟨ha, hb⟩ := h1 <;>
    simp only [decide_eq_true_eq] at ha hb
  · simp [ha, hb]
  · by_cases h2 : e.u = x
    · refine ⟨by simp [h2], ?_⟩
      rw [if_pos h2, hb, ← h2]
      exact ha
    · refine ⟨by simp [hb], ?_⟩
      rw [if_neg h2]
      exact ha

theorem mem_adjEntries {g : MG} {x : Pix} {o : Pix × Nat × EdgeData} :
    o ∈ adjEntries g x ↔
      ∃ e ∈ g.edges, incid e x = true ∧ otherEnd e x = o.1 ∧ e.key = o.2.1 ∧
        e.data = o.2.2 := by
  unfold adjEntries keysBetween
  simp only [List.mem_flatMap, List.mem_map, List.mem_filter]
  constructor
  · rintro ⟨v, hv, ⟨k, d⟩, ⟨e, ⟨he, hj⟩, hkd⟩, rfl⟩
    obtain ⟨hi, ho⟩ := joinsPair_incid hj
    simp only [Prod.mk.injEq] at hkd
    exact ⟨e, he, hi, by simp [ho, hkd.1, hkd.2]⟩
  · rintro ⟨e, he, hi, ho, hk, hd⟩
    refine ⟨o.1, mem_nbrsOf.mpr ⟨e, he, hi, ho⟩, (e.key, e.data),
      ⟨e, ⟨he, ?_⟩, rfl⟩, ?_⟩
    · rw [← ho]
      exact incid_otherEnd_joinsPair hi
    · simp [hk, hd]

theorem canonKey_adj {e : E} {x : Pix} (h : incid e x = true) :
    canonKey x (otherEnd e x) e.key = canonE e := by
  unfold canonE
  unfold incid at h
  rcases Bool.or_eq_true _ _ |>.mp h with h1 | h1 <;>
    simp only [decide_eq_true_eq] at h1
  · subst h1; unfold otherEnd; simp
  · subst h1
    unfold otherEnd
    by_cases h2 : e.u = e.v
    · simp [h2]
    · simp only [h2, if_neg]
      rw [canonKey_symm]
      simp [h2]

/-! ## Lemmas about edge insertion and the double-wall fold -/

theorem freshFrom_not_mem (used : List Nat) :
    ∀ fuel k, (used.filter (fun x => k ≤ x)).length < fuel →
      freshFrom used fuel k ∉ used := by
  intro fuel
  induction fuel with
  | zero => intro k h; omega
  | succ f ih =>
    intro k h
    rw [freshFrom]
    by_cases hk : k ∈ used
    · rw [if_pos hk]
      apply ih
      have hsub : used.filter (fun x => k + 1 ≤ x) =
          (used.filter (fun x => k ≤ x)).filter (fun x => x ≠ k) := by
        rw [List.filter_filter]
        apply List.filter_congr
        intro x _
        by_cases hxk : x = k
        · subst hxk; simp
        · by_cases hkx : k ≤ x
          · have h1 : k + 1 ≤ x := by omega
            simp [hxk, hkx, h1]
          · have h1 : ¬(k + 1 ≤ x) := by omega
            simp [hxk, hkx, h1]
      have hkmem : k ∈ used.filter (fun x => k ≤ x) := by
        simp [List.mem_filter, hk]
      have hlt : ((used.filter (fun x => k ≤ x)).filter (fun x => x ≠ k)).length <
          (used.filter (fun x => k ≤ x)).length := by
        rw [List.length_filter_lt_length_iff_exists]
        exact ⟨k, hkmem, by simp⟩
      rw [hsub]
      omega
    · rw [if_neg hk]
      exact hk

theorem newEdgeKey_fresh (g : MG) (u v : Pix) :
    newEdgeKey g u v ∉ (keysBetween g u v).map (fun kd => kd.1) := by
  unfold newEdgeKey
  apply freshFrom_not_mem
  calc (((keysBetween g u v).map (fun kd => kd.1)).filter
        (fun x => ((keysBetween g u v).map (fun kd => kd.1)).length ≤ x)).length
      ≤ ((keysBetween g u v).map (fun kd => kd.1)).length := List.length_filter_le _ _
    _ < _ + 1 := Nat.lt_succ_self _

theorem mem_keys_keysBetween {g : MG} {u v : Pix} {k : Nat} :
    k ∈ (keysBetween g u v).map (fun kd => kd.1) ↔
      ∃ e ∈ g.edges, joinsPair e u v = true ∧ e.key = k := by
  unfold keysBetween
  rw [List.map_map]
  simp only [List.mem_map, List.mem_filter, Function.comp]
  constructor
  · rintro ⟨e, ⟨he, hj⟩, rfl⟩; exact ⟨e, he, hj, rfl⟩
  · rintro ⟨e, he, hj, rfl⟩; exact ⟨e, ⟨he, hj⟩, rfl⟩

theorem nxAddNode_edges (g : MG) (x : Pix) : (nxAddNode g x).edges = g.edges := by
  unfold nxAddNode; split <;> rfl

theorem nxAddNode_nodes_sub (g : MG) (x : Pix) : g.nodes ⊆ (nxAddNode g x).nodes := by
  unfold nxAddNode
  split
  · exact fun a ha => ha
  · exact fun a ha => List.mem_append_left _ ha

theorem nxAddNode_mem (g : MG) (x : Pix) : x ∈ (nxAddNode g x).nodes := by
  unfold nxAddNode
  split
  · assumption
  · exact List.mem_append_right _ (by simp)

theorem nxAddNode_nodes_nodup {g : MG} (h : g.nodes.Nodup) (x : Pix) :
    (nxAddNode g x).nodes.Nodup := by
  unfold nxAddNode
  split
  · exact h
  · next hx =>
    simp only [List.nodup_append, List.nodup_cons, List.not_mem_nil,
      not_false_eq_true, List.nodup_nil, and_true, List.disjoint_singleton]
    exact ⟨h, by simpa using hx⟩

theorem nxAddEdge_edges (g : MG) (u v : Pix) (d : EdgeData) :
    (nxAddEdge g u v d).edges = g.edges ++ [⟨u, v, newEdgeKey g u v, d⟩] := by
  unfold nxAddEdge
  have h1 : (nxAddNode (nxAddNode g u) v).edges = g.edges := by
    rw [nxAddNode_edges, nxAddNode_edges]
  have h2 : keysBetween (nxAddNode (nxAddNode g u) v) u v = keysBetween g u v := by
    unfold keysBetween
    rw [h1]
  simp only [h1]
  congr 2
  unfold newEdgeKey
  rw [h2]

theorem nxAddEdge_nodes_sub (g : MG) (u v : Pix) (d : EdgeData) :
    g.nodes ⊆ (nxAddEdge g u v d).nodes := by
  unfold nxAddEdge
  intro a ha
  exact nxAddNode_nodes_sub _ _ (nxAddNode_nodes_sub _ _ ha)

theorem nxAddEdge_mem_nodes (g : MG) (u v : Pix) (d : EdgeData) :
    u ∈ (nxAddEdge g u v d).nodes ∧ v ∈ (nxAddEdge g u v d).nodes := by
  unfold nxAddEdge
  exact ⟨nxAddNode_nodes_sub _ _ (nxAddNode_mem _ _), nxAddNode_mem _ _⟩

theorem canonE_eq_pair {e₁ e₂ : E} (h : canonE e₁ = canonE e₂) :
    e₁.key = e₂.key ∧
      ((e₁.u = e₂.u ∧ e₁.v = e₂.v) ∨ (e₁.u = e₂.v ∧ e₁.v = e₂.u)) :=
  canonKey_inj h

theorem WFG_nxAddEdge {g : MG} (h : WFG g) (u v : Pix) (d : EdgeData) :
    WFG (nxAddEdge g u v d) := by
  obtain ⟨hn, he, hc⟩ := h
  refine ⟨?_, ?_, ?_⟩
  · show (nxAddEdge g u v d).nodes.Nodup
    unfold nxAddEdge
    exact nxAddNode_nodes_nodup (nxAddNode_nodes_nodup hn u) v
  · intro e hme
    rw [nxAddEdge_edges] at hme
    rcases List.mem_append.mp hme with hold | hnew
    · obtain ⟨h1, h2⟩ := he e hold
      exact ⟨nxAddEdge_nodes_sub g u v d h1, nxAddEdge_nodes_sub g u v d h2⟩
    · simp only [List.mem_singleton] at hnew
      subst hnew
      exact nxAddEdge_mem_nodes g u v d
  · rw [nxAddEdge_edges, List.map_append]
    simp only [List.map_cons, List.map_nil]
    rw [List.nodup_append]
    refine ⟨hc, List.nodup_singleton _, ?_⟩
    intro c hcm hcs
    simp only [List.mem_singleton] at hcs
    subst hcs
    obtain ⟨e, hme, hce⟩ := List.mem_map.mp hcm
    obtain ⟨hk, hpair⟩ := canonE_eq_pair hce
    have : e.key ∈ (keysBetween g u v).map (fun kd => kd.1) := by
      apply mem_keys_keysBetween.mpr
      refine ⟨e, hme, ?_, rfl⟩
      unfold joinsPair
      rcases hpair with ⟨h1, h2⟩ | ⟨h1, h2⟩ <;> simp [h1, h2]
    rw [hk] at this
    exact newEdgeKey_fresh g u v this

theorem contrib_eq_of_uv {e d : E} (hu : d.u = e.u) (hv : d.v = e.v) (x : Pix) :
    contrib d x = contrib e x := by
  unfold contrib
  rw [hu, hv]

theorem degree_nxAddEdge (g : MG) (u v : Pix) (d : EdgeData) (x : Pix) :
    degree (nxAddEdge g u v d) x =
      degree g x + contrib ⟨u, v, newEdgeKey g u v, d⟩ x := by
  unfold degree
  rw [nxAddEdge_edges, List.map_append, List.sum_append]
  simp

theorem foldl_addDoubleWall_spec (l : List E) :
    ∀ g : MG, ∃ dups, (l.foldl addDoubleWall g).edges = g.edges ++ dups ∧
      List.Forall₂ dupRel l dups ∧
      g.nodes ⊆ (l.foldl addDoubleWall g).nodes ∧
      (WFG g → WFG (l.foldl addDoubleWall g)) := by
  induction l with
  | nil => exact fun g => ⟨[], by simp, List.Forall₂.nil, fun _ h => h, id⟩
  | cons e rest ih =>
    intro g
    obtain ⟨dups, hedges, hrel, hsub, hwf⟩ := ih (addDoubleWall g e)
    have hadd : (addDoubleWall g e).edges =
        g.edges ++ [⟨e.u, e.v, newEdgeKey g e.u e.v,
          { e.data with etype := some "double_wall" }⟩] := by
      unfold addDoubleWall
      exact nxAddEdge_edges g e.u e.v _
    refine ⟨⟨e.u, e.v, newEdgeKey g e.u e.v,
      { e.data with etype := some "double_wall" }⟩ :: dups, ?_, ?_, ?_, ?_⟩
    · rw [List.foldl_cons, hedges, hadd, List.append_assoc, List.singleton_append]
    · exact List.Forall₂.cons ⟨rfl, rfl, rfl⟩ hrel
    · rw [List.foldl_cons]
      intro a ha
      exact hsub (nxAddEdge_nodes_sub g e.u e.v _ ha)
    · intro hg
      rw [List.foldl_cons]
      exact hwf (WFG_nxAddEdge hg e.u e.v _)

theorem degree_foldl_addDoubleWall (l : List E) :
    ∀ g : MG, ∀ x, degree (l.foldl addDoubleWall g) x =
      degree g x + (l.map (fun e => contrib e x)).sum := by
  induction l with
  | nil => simp
  | cons e rest ih =>
    intro g x
    rw [List.foldl_cons, ih]
    have : degree (addDoubleWall g e) x = degree g x + contrib e x := by
      unfold addDoubleWall
      rw [degree_nxAddEdge]
      have h2 : contrib ⟨e.u, e.v, newEdgeKey g e.u e.v,
          { e.data with etype := some "double_wall" }⟩ x = contrib e x := rfl
      rw [h2]
    rw [this, List.map_cons, List.sum_cons]
    omega

/-! ## Claim C3: `make_eulerian` edge counts and degrees -/

/-- C3: `make_eulerian` with the force flag unset, applied to a graph whose
analysis is `circuit` or `path`, returns a graph with edge count identical to
the input; applied to a graph with any other analysis, or with the force
flag, it returns a graph with exactly twice the input's edge count in which
every node has even degree, each added edge being a parallel duplicate of an
original edge carrying an identical pixel chain. -/
theorem make_eulerian_count_spec (g : MG) (force : Bool) :
    (((analyze g = "circuit" ∨ analyze g = "path") ∧ force = false) →
      (make_eulerian g force).edges.length = g.edges.length) ∧
    ((analyze g = "non-eulerian" ∨ force = true) →
      (make_eulerian g force).edges.length = 2 * g.edges.length ∧
      (∀ x : Pix, degree (make_eulerian g force) x % 2 = 0) ∧
      ∃ dups, (make_eulerian g force).edges = g.edges ++ dups ∧
        List.Forall₂ (fun e d => dupRel e d ∧ d.data.chain = e.data.chain)
          g.edges dups) := by
  constructor
  · rintro ⟨han, hf⟩
    subst hf
    rcases han with h | h <;> simp [make_eulerian, h]
  · intro h
    have hc : (decide (analyze g = "non-eulerian") || force) = true := by
      rcases h with h | h <;> simp [h]
    obtain ⟨dups, hedges, hrel, _, _⟩ := foldl_addDoubleWall_spec g.edges g
    have hme : make_eulerian g force = g.edges.foldl addDoubleWall g := by
      simp only [make_eulerian, hc, if_true]
    have hlen := List.Forall₂.length_eq hrel
    refine ⟨?_, ?_, ?_⟩
    · rw [hme, hedges, List.length_append]
      omega
    · intro x
      rw [hme, degree_foldl_addDoubleWall]
      have hd : (g.edges.map (fun e => contrib e x)).sum = degree g x := rfl
      rw [hd]
      omega
    · refine ⟨dups, by rw [hme, hedges], ?_⟩
      refine List.Forall₂.imp ?_ hrel
      intro e d hd
      exact ⟨hd, by rw [hd.2.2]⟩

/-- Witness for C3 at the star graph (analysis `non-eulerian`). -/
theorem make_eulerian_count_spec_witness :
    (analyze exStar = "non-eulerian" ∨ false = true) ∧
    (make_eulerian exStar false).edges.length = 2 * exStar.edges.length ∧
    degree (make_eulerian exStar false) (0, 0) % 2 = 0 :=
  ⟨Or.inl (by decide),
    ((make_eulerian_count_spec exStar false).2 (Or.inl (by decide))).1,
    ((make_eulerian_count_spec exStar false).2 (Or.inl (by decide))).2.1 (0, 0)⟩

/-! ## Claim C7: the transformer's frame -/

/-- C7: an `EulerianPathFinder` session (construct on a deep copy, then
`make_eulerian` with either flag value) leaves the caller's supplied graph
unchanged, and the returned graph contains every node and every edge record
(attributes included) of the input — the operation only adds duplicate
edges, never removes or alters anything. -/
theorem epfSession_frame (g : MG) (force : Bool) :
    (epfSession g force).1 = g ∧
    (∀ n ∈ g.nodes, n ∈ (epfSession g force).2.nodes) ∧
    (∀ e ∈ g.edges, e ∈ (epfSession g force).2.edges) := by
  have hdc : deepcopyMG g = g := rfl
  by_cases hc : (decide (analyze g = "non-eulerian") || force) = true
  · obtain ⟨dups, hedges, _, hsub, _⟩ := foldl_addDoubleWall_spec g.edges g
    have hme : epfSession g force = (g, g.edges.foldl addDoubleWall g) := by
      simp only [epfSession, hdc, make_eulerian, hc, if_true]
    rw [hme]
    exact ⟨rfl, fun n hn => hsub hn,
      fun e he => by rw [hedges]; exact List.mem_append_left _ he⟩
  · have hme : epfSession g force = (g, g) := by
      simp only [epfSession, hdc, make_eulerian, hc, if_false, Bool.false_eq_true]
    rw [hme]
    exact ⟨rfl, fun n hn => hn, fun e he => he⟩

/-- Witness for C7 at the star graph with the force flag set. -/
theorem epfSession_frame_witness :
    (epfSession exStar true).1 = exStar ∧
    (0, 0) ∈ (epfSession exStar true).2.nodes :=
  ⟨(epfSession_frame exStar true).1,
    (epfSession_frame exStar true).2.1 (0, 0) (by decide)⟩

/-! ## Claim C4: `prune_graph` is a no-op (code bug) -/

theorem pyDictGet_str_none (g : MG) (x v : Pix) (s : String) :
    pyDictGet (get_edge_data g x v) (.str s) = none := by
  unfold pyDictGet
  have h : (get_edge_data g x v).find? (fun p => p.1 = PyKey.str s) = none := by
    rw [List.find?_eq_none]
    intro p hp
    unfold get_edge_data at hp
    obtain ⟨kd, _, rfl⟩ := List.mem_map.mp hp
    simp
  rw [h]
  rfl

theorem prunePassNode_id (gc : MG × Bool) (node : Pix) :
    prunePassNode (some gc) node = some gc := by
  obtain ⟨g, ch⟩ := gc
  simp only [prunePassNode]
  by_cases hd : degree g node = 1
  · rw [if_pos hd]
    cases hnb : nbrsOf g node with
    | nil => rfl
    | cons nb r => simp [pyDictGet_str_none]
  · rw [if_neg hd]

theorem foldl_prunePassNode_id (l : List Pix) (gc : MG × Bool) :
    l.foldl prunePassNode (some gc) = some gc := by
  induction l with
  | nil => rfl
  | cons n r ih => rw [List.foldl_cons, prunePassNode_id]; exact ih

/-- C4 (code bug): `prune_graph` removes nothing, ever.  The multigraph
`get_edge_data(node, neighbor)` returns the integer-keyed dictionary of
parallel edges, so `edge_data['weight']` raises `KeyError('weight')`, which
the surrounding `except` clause swallows; the intended deletion (docstring:
remove short spurs ending in a degree-1 node) never runs.  In particular the
spur graph — degree-1 node `(0,3)` whose single incident edge has weight
`2 < 5` — is returned unchanged by `prune_graph(5)`. -/
theorem prune_graph_never_removes :
    (∀ (g : MG) (minLen : Int), prune_graph g minLen = some g) ∧
    (degree exSpur (0, 3) = 1 ∧
      exSpur.edges.map (fun e => e.data.weight) = [some 3, some 2] ∧
      prune_graph exSpur 5 = some exSpur) := by
  have hall : ∀ (g : MG) (minLen : Int), prune_graph g minLen = some g := by
    intro g minLen
    unfold prune_graph
    rw [foldl_prunePassNode_id]
    rfl
  exact ⟨hall, by decide, by decide, hall exSpur 5⟩

/-! ## Claim C2: `generate_path` gate -/

theorem odd_count_zero_iff (g : MG) :
    (count_odd_nodes g).1 = 0 ↔
      (g.nodes.all (fun v => degree g v % 2 = 0)) = true := by
  unfold count_odd_nodes
  simp only [List.length_eq_zero, List.filter_eq_nil_iff, List.all_eq_true,
    decide_eq_true_eq]
  constructor
  · intro h v hv
    have := h v hv
    omega
  · intro h v hv
    have := h v hv
    omega

theorem traversableB_iff (g : MG) :
    (isEulerianB g = true ∨ isSemieulerianB g = true) ↔
      (connectedB g = true ∧
        ((count_odd_nodes g).1 = 0 ∨ (count_odd_nodes g).1 = 2)) := by
  have h0 := odd_count_zero_iff g
  unfold isSemieulerianB hasEulerianPathB isEulerianB
  by_cases hA : (g.nodes.all (fun v => degree g v % 2 = 0)) = true <;>
    by_cases hC : connectedB g = true <;>
    by_cases h2 : (count_odd_nodes g).1 = 2 <;>
    simp_all

/-- C2 (amended): `generate_path` raises on the null graph (networkx
connectivity check); on a non-null graph it raises `NotTraversable` if and
only if the graph is disconnected or fails the §4.2 parity test (the
networkx Eulerian checks include connectivity); otherwise it returns exactly
the Angular Walker's pixel sequence for that graph. -/
theorem generate_path_spec (g : MG) :
    (g.nodes = [] → generate_path g = .nullGraphError) ∧
    (g.nodes ≠ [] →
      ((generate_path g = .notTraversable ↔
        ¬(connectedB g = true ∧
          ((count_odd_nodes g).1 = 0 ∨ (count_odd_nodes g).1 = 2))) ∧
       (∀ p, generate_path g = .ok p ↔
         (connectedB g = true ∧
          ((count_odd_nodes g).1 = 0 ∨ (count_odd_nodes g).1 = 2) ∧
          find_path g = some p)))) := by
  constructor
  · intro h
    simp [generate_path, h]
  · intro hne
    have hemp : g.nodes.isEmpty = false := by
      cases h : g.nodes with
      | nil => exact absurd h hne
      | cons a l => rfl
    by_cases ht : isEulerianB g = true ∨ isSemieulerianB g = true
    · have hcond : (!isEulerianB g && !isSemieulerianB g) = false := by
        rcases ht with h | h <;> simp [h]
      have hres : generate_path g =
          (match find_path g with
            | some p => GenRes.ok p
            | none => GenRes.walkerError) := by
        simp [generate_path, hemp, hcond]
      have htrav := (traversableB_iff g).mp ht
      constructor
      · rw [hres]
        constructor
        · intro hcontra
          cases hfp : find_path g <;> rw [hfp] at hcontra <;> exact absurd hcontra (by simp)
        · intro hcontra
          exact absurd htrav hcontra
      · intro p
        rw [hres]
        constructor
        · intro hok
          cases hfp : find_path g <;> rw [hfp] at hok
          · exact absurd hok (by simp)
          · simp only [GenRes.ok.injEq] at hok
            exact ⟨htrav.1, htrav.2, congrArg some hok⟩
        · rintro ⟨_, _, hfp⟩
          rw [hfp]
    · have h1 : isEulerianB g = false := by
        cases h : isEulerianB g
        · rfl
        · exact absurd (Or.inl h) ht
      have h2 : isSemieulerianB g = false := by
        cases h : isSemieulerianB g
        · rfl
        · exact absurd (Or.inr h) ht
      have hres : generate_path g = .notTraversable := by
        simp [generate_path, hemp, h1, h2]
      have hnt : ¬(connectedB g = true ∧
          ((count_odd_nodes g).1 = 0 ∨ (count_odd_nodes g).1 = 2)) := by
        intro hc
        exact ht ((traversableB_iff g).mpr hc)
      rw [hres]
      exact ⟨⟨fun _ => hnt, fun _ => rfl⟩, fun p => ⟨fun h => by simp at h,
        fun hc => absurd ⟨hc.1, hc.2.1⟩ hnt⟩⟩

/-- Counterexample for C2 as stated: two disjoint triangles pass the parity
test (zero odd nodes), yet `generate_path` raises `NotTraversable`. -/
theorem generate_path_parity_counterexample :
    (count_odd_nodes exTri2).1 = 0 ∧ generate_path exTri2 = .notTraversable := by
  constructor
  · decide
  · have h := ((generate_path_spec exTri2).2 (by decide)).1
    by_cases hc : generate_path exTri2 = .notTraversable
    · exact hc
    · exfalso
      have := h.not.mp hc
      simp only [not_not] at this
      exact absurd this.1 (by decide)

/-- Witness for C2's amended statement at the connected triangle: the gate
does not raise there. -/
theorem generate_path_spec_witness :
    generate_path exTri ≠ GenRes.notTraversable := fun heq =>
  (((generate_path_spec exTri).2 (by decide)).1.mp heq)
    ⟨by decide, Or.inl (by decide)⟩

/-! ## Claim C6: `merge_close_nodes` -/

theorem length_filter_ne_of_nodup {l : List Pix} (hn : l.Nodup) {a : Pix}
    (ha : a ∈ l) : (l.filter (fun n => n ≠ a)).length + 1 = l.length := by
  induction l with
  | nil => cases ha
  | cons x r ih =>
    rw [List.nodup_cons] at hn
    by_cases hxa : x = a
    · subst hxa
      have hfr : r.filter (fun n => n ≠ x) = r := by
        apply List.filter_eq_self.mpr
        intro b hb
        simpa using fun hba : b = x => hn.1 (hba ▸ hb)
      simp [List.filter_cons, hfr]
      exact fun a b hab habx => hn.1 (habx ▸ hab)
    · have har : a ∈ r := by
        rcases List.mem_cons.mp ha with h | h
        · exact absurd h.symm hxa
        · exact h
      have hrec := ih hn.2 har
      simp only [List.filter_cons]
      rw [if_pos (by simpa using hxa)]
      simp only [List.length_cons]
      omega

theorem length_filterMap_lt {α β : Type} {l : List α} {f : α → Option β} {a : α}
    (ha : a ∈ l) (hf : f a = none) : (l.filterMap f).length < l.length := by
  induction l with
  | nil => cases ha
  | cons x r ih =>
    rcases List.mem_cons.mp ha with rfl | hr
    · rw [List.filterMap_cons, hf]
      have := List.length_filterMap_le f r
      simpa using Nat.lt_succ_of_le this
    · rw [List.filterMap_cons]
      cases f x with
      | none => exact Nat.lt_succ_of_lt (ih hr)
      | some b => simpa using ih hr

theorem length_filter_split {α : Type} (p : α → Bool) (l : List α) :
    (l.filter p).length + (l.filter (fun a => !p a)).length = l.length := by
  induction l with
  | nil => rfl
  | cons x r ih =>
    rw [List.filter_cons, List.filter_cons]
    cases hp : p x <;> simp [hp] <;> omega

theorem nxAddNode_eq_of_mem {g : MG} {x : Pix} (h : x ∈ g.nodes) :
    nxAddNode g x = g := by
  unfold nxAddNode
  rw [if_pos h]

theorem nxAddEdge_nodes_eq_of_mem {g : MG} {u v : Pix} (hu : u ∈ g.nodes)
    (hv : v ∈ g.nodes) (d : EdgeData) : (nxAddEdge g u v d).nodes = g.nodes := by
  unfold nxAddEdge
  rw [nxAddNode_eq_of_mem hu, nxAddNode_eq_of_mem hv]

/-- The edge-re-adding fold of `contracted_nodes`. -/
theorem foldl_readd_spec (l : List (Pix × Pix × EdgeData)) :
    ∀ h : MG,
      (l.foldl (fun acc t => nxAddEdge acc t.1 t.2.1 t.2.2) h).edges.length =
        h.edges.length + l.length ∧
      (WFG h → WFG (l.foldl (fun acc t => nxAddEdge acc t.1 t.2.1 t.2.2) h)) := by
  induction l with
  | nil => intro h; exact ⟨by simp, id⟩
  | cons a r ih =>
    intro h
    obtain ⟨hlen, hwf⟩ := ih (nxAddEdge h a.1 a.2.1 a.2.2)
    refine ⟨?_, fun hw => hwf (WFG_nxAddEdge hw _ _ _)⟩
    rw [List.foldl_cons, hlen, nxAddEdge_edges, List.length_append]
    simp only [List.length_cons, List.length_nil, List.length_singleton]
    omega

/-- Node stability of the re-adding fold when every endpoint is already
present. -/
theorem foldl_readd_nodes_eq (l : List (Pix × Pix × EdgeData)) :
    ∀ h : MG, (∀ t ∈ l, t.1 ∈ h.nodes ∧ t.2.1 ∈ h.nodes) →
      (l.foldl (fun acc t => nxAddEdge acc t.1 t.2.1 t.2.2) h).nodes = h.nodes := by
  induction l with
  | nil => intro h _; rfl
  | cons a r ih =>
    intro h hend
    obtain ⟨ha1, ha2⟩ := hend a (List.mem_cons_self a r)
    have hs : (nxAddEdge h a.1 a.2.1 a.2.2).nodes = h.nodes :=
      nxAddEdge_nodes_eq_of_mem ha1 ha2 _
    rw [List.foldl_cons, ih]
    · exact hs
    · intro t ht
      rw [hs]
      exact hend t (List.mem_cons_of_mem _ ht)

/-- Node evolution of the re-adding fold when every endpoint is either `u`
or already present: the node list is unchanged or gains exactly `u`. -/
theorem foldl_readd_nodes (u : Pix) (l : List (Pix × Pix × EdgeData)) :
    ∀ h : MG,
      (∀ t ∈ l, (t.1 = u ∨ t.1 ∈ h.nodes) ∧ (t.2.1 = u ∨ t.2.1 ∈ h.nodes)) →
      (l.foldl (fun acc t => nxAddEdge acc t.1 t.2.1 t.2.2) h).nodes = h.nodes ∨
      (l.foldl (fun acc t => nxAddEdge acc t.1 t.2.1 t.2.2) h).nodes =
        h.nodes ++ [u] := by
  induction l with
  | nil => intro h _; exact .inl rfl
  | cons a r ih =>
    intro h hend
    obtain ⟨ha1, ha2⟩ := hend a (List.mem_cons_self a r)
    have hstep : (nxAddEdge h a.1 a.2.1 a.2.2).nodes = h.nodes ∨
        (nxAddEdge h a.1 a.2.1 a.2.2).nodes = h.nodes ++ [u] := by
      by_cases hu : u ∈ h.nodes
      · left
        have h1 : a.1 ∈ h.nodes := by rcases ha1 with rfl | h1 <;> [exact hu; exact h1]
        have h2 : a.2.1 ∈ h.nodes := by rcases ha2 with rfl | h2 <;> [exact hu; exact h2]
        exact nxAddEdge_nodes_eq_of_mem h1 h2 _
      · unfold nxAddEdge
        rcases ha1 with rfl | h1
        · have hn1 : (nxAddNode h a.1).nodes = h.nodes ++ [a.1] := by
            unfold nxAddNode; rw [if_neg hu]
          rcases ha2 with ha2 | h2
          · right
            have hm : a.2.1 ∈ (nxAddNode h a.1).nodes := by
              rw [hn1, ha2]; exact List.mem_append_right _ (by simp)
            rw [nxAddNode_eq_of_mem hm, hn1]
          · right
            have hm : a.2.1 ∈ (nxAddNode h a.1).nodes := nxAddNode_nodes_sub _ _ h2
            rw [nxAddNode_eq_of_mem hm, hn1]
        · have hn1 : nxAddNode h a.1 = h := nxAddNode_eq_of_mem h1
          rcases ha2 with rfl | h2
          · right
            rw [hn1]
            unfold nxAddNode
            rw [if_neg hu]
          · left
            rw [hn1, nxAddNode_eq_of_mem h2]
    rw [List.foldl_cons]
    rcases hstep with hs | hs
    · have ihres := ih (nxAddEdge h a.1 a.2.1 a.2.2) (fun t ht => by
        rw [hs]; exact hend t (List.mem_cons_of_mem _ ht))
      rw [hs] at ihres
      exact ihres
    · right
      rw [foldl_readd_nodes_eq r _ ?_, hs]
      intro t ht
      obtain ⟨h1, h2⟩ := hend t (List.mem_cons_of_mem _ ht)
      rw [hs]
      constructor
      · rcases h1 with rfl | h1
        · exact List.mem_append_right _ (by simp)
        · exact List.mem_append_left _ h1
      · rcases h2 with rfl | h2
        · exact List.mem_append_right _ (by simp)
        · exact List.mem_append_left _ h2

theorem pySetEq2_refl (a b : Pix) : pySetEq2 a b a b = true := by
  unfold pySetEq2
  simp

theorem removeNodeMG_WF {g : MG} (hwf : WFG g) (v : Pix) :
    WFG (removeNodeMG g v) := by
  obtain ⟨hnodup, hends, hcanon⟩ := hwf
  refine ⟨List.Nodup.filter _ hnodup, ?_, ?_⟩
  · intro e he
    unfold removeNodeMG at he
    simp only at he
    obtain ⟨hmem, hni⟩ := List.mem_filter.mp he
    have hne : e.u ≠ v ∧ e.v ≠ v := by
      simp only [Bool.not_eq_true'] at hni
      unfold incid at hni
      simp only [Bool.or_eq_false_iff, decide_eq_false_iff_not] at hni
      exact hni
    obtain ⟨h1, h2⟩ := hends e hmem
    constructor <;> (apply List.mem_filter.mpr; constructor)
    · exact h1
    · simpa using hne.1
    · exact h2
    · simpa using hne.2
  · have hsub : (removeNodeMG g v).edges.Sublist g.edges := List.filter_sublist _
    exact List.Nodup.sublist (List.Sublist.map canonE hsub) hcanon

theorem remapEdges_endpoints {g : MG} (hwf : WFG g) (u v : Pix) :
    ∀ t ∈ remapEdges g u v,
      (t.1 = u ∨ t.1 ∈ (removeNodeMG g v).nodes) ∧
      (t.2.1 = u ∨ t.2.1 ∈ (removeNodeMG g v).nodes) := by
  intro t ht
  unfold remapEdges at ht
  obtain ⟨e, hmem, hfe⟩ := List.mem_filterMap.mp ht
  obtain ⟨he, _⟩ := List.mem_filter.mp hmem
  obtain ⟨heu, hev⟩ := hwf.2.1 e he
  by_cases hps : pySetEq2 e.u e.v u v = true
  · rw [if_pos hps] at hfe; cases hfe
  · rw [if_neg hps] at hfe
    obtain rfl := Option.some.injEq _ _ |>.mp hfe |>.symm
    constructor
    · by_cases h1 : e.u = v
      · simp [h1]
      · right
        simp only [h1, if_neg, if_false]
        apply List.mem_filter.mpr
        exact ⟨heu, by simpa using h1⟩
    · by_cases h2 : e.v = v
      · simp [h2]
      · right
        simp only [h2, if_neg, if_false]
        apply List.mem_filter.mpr
        exact ⟨hev, by simpa using h2⟩

theorem contracted_nodes_spec {g : MG} (hwf : WFG g) {u v : Pix}
    {e₀ : E} (he₀ : e₀ ∈ g.edges) (hu₀ : e₀.u = u) (hv₀ : e₀.v = v)
    {g' : MG} (hc : contracted_nodes g u v = some g') :
    WFG g' ∧ g'.edges.length < g.edges.length ∧
      (u ≠ v → g'.nodes.length + 1 = g.nodes.length) ∧
      (u = v → g'.nodes.length = g.nodes.length) := by
  have hvmem : v ∈ g.nodes := hv₀ ▸ (hwf.2.1 e₀ he₀).2
  have humem : u ∈ g.nodes := hu₀ ▸ (hwf.2.1 e₀ he₀).1
  unfold contracted_nodes at hc
  rw [if_neg (by simpa using hvmem)] at hc
  by_cases hu2 : u ∈ (contractedCore g u v).nodes
  case neg => rw [if_neg hu2] at hc; cases hc
  rw [if_pos hu2] at hc
  obtain rfl := (Option.some.injEq _ _ |>.mp hc).symm
  have h1wf : WFG (removeNodeMG g v) := removeNodeMG_WF hwf v
  obtain ⟨hclen, hcwf⟩ := foldl_readd_spec (remapEdges g u v) (removeNodeMG g v)
  have hremlt : (remapEdges g u v).length <
      (g.edges.filter (fun e => incid e v)).length := by
    unfold remapEdges
    apply length_filterMap_lt
    · apply List.mem_filter.mpr
      refine ⟨he₀, ?_⟩
      unfold incid
      simp [hv₀]
    · rw [if_pos]
      rw [hu₀, hv₀]
      exact pySetEq2_refl u v
  have hsplit := length_filter_split (fun e => incid e v) g.edges
  have h1edges : (removeNodeMG g v).edges =
      g.edges.filter (fun e => !incid e v) := rfl
  refine ⟨hcwf h1wf, ?_, ?_, ?_⟩
  · show (contractedCore g u v).edges.length < g.edges.length
    unfold contractedCore
    rw [hclen, h1edges]
    omega
  · intro huv
    have hu1 : u ∈ (removeNodeMG g v).nodes := by
      apply List.mem_filter.mpr
      exact ⟨humem, by simpa using huv⟩
    have hcore : (contractedCore g u v).nodes = (removeNodeMG g v).nodes := by
      unfold contractedCore
      apply foldl_readd_nodes_eq
      intro t ht
      obtain ⟨ht1, ht2⟩ := remapEdges_endpoints hwf u v t ht
      constructor
      · rcases ht1 with rfl | h; exacts [hu1, h]
      · rcases ht2 with rfl | h; exacts [hu1, h]
    rw [hcore]
    exact length_filter_ne_of_nodup hwf.1 hvmem
  · intro huv
    subst huv
    have hu1 : u ∉ (removeNodeMG g u).nodes := by
      intro hmem
      obtain ⟨_, hne⟩ := List.mem_filter.mp hmem
      simp at hne
    have hcore := foldl_readd_nodes u (remapEdges g u u) (removeNodeMG g u)
      (remapEdges_endpoints hwf u u)
    rcases hcore with hcore | hcore
    · exfalso
      apply hu1
      have : (contractedCore g u u).nodes = (removeNodeMG g u).nodes := hcore
      rw [this] at hu2
      exact hu2
    · have hlen : (contractedCore g u u).nodes.length =
          (removeNodeMG g u).nodes.length + 1 := by
        show (contractedCore g u u).nodes.length = _
        unfold contractedCore
        rw [hcore]
        simp
      rw [hlen]
      exact length_filter_ne_of_nodup hwf.1 humem

theorem findShortEdge_some {g : MG} {t : ℚ} {u v : Pix}
    (h : findShortEdge g t = some (u, v)) :
    ∃ e ∈ g.edges, e.u = u ∧ e.v = v := by
  unfold findShortEdge at h
  cases hf : g.edges.find? (fun e => distLtB e.u e.v t) with
  | none => rw [hf] at h; cases h
  | some e =>
    rw [hf] at h
    simp only [Option.map_some'] at h
    obtain h2 := Option.some.injEq _ _ |>.mp h
    exact ⟨e, List.mem_of_find?_eq_some hf,
      congrArg Prod.fst h2, congrArg Prod.snd h2⟩

theorem mergeLoop_progress (t : ℚ) :
    ∀ fuel (g : MG), WFG g → g.nodes.length + g.edges.length < fuel →
      mergeLoop t fuel g ≠ .fuelOut := by
  intro fuel
  induction fuel with
  | zero => intro g _ h; omega
  | succ f ih =>
    intro g hwf hm
    rw [mergeLoop]
    cases hfs : findShortEdge g t with
    | none => simp
    | some uv =>
      cases hcn : contracted_nodes g uv.1 uv.2 with
      | none => simp [hcn]
      | some g' =>
        simp only [hcn]
        obtain ⟨e₀, he₀, hu₀, hv₀⟩ := findShortEdge_some (by rw [hfs])
        obtain ⟨hwf', helt, hn1, hn2⟩ := contracted_nodes_spec hwf he₀ hu₀ hv₀ hcn
        apply ih g' hwf'
        by_cases huv : uv.1 = uv.2
        · have := hn2 huv; omega
        · have := hn1 huv; omega

theorem mergeLoop_fixpoint (t : ℚ) :
    ∀ fuel (g g'' : MG), mergeLoop t fuel g = .ok g'' →
      findShortEdge g'' t = none := by
  intro fuel
  induction fuel with
  | zero =>
    intro g g'' h
    rw [mergeLoop] at h
    cases hfs : findShortEdge g t with
    | none =>
      rw [hfs] at h
      simp only [MergeRes.ok.injEq] at h
      rw [← h]
      exact hfs
    | some uv => rw [hfs] at h; cases h
  | succ f ih =>
    intro g g'' h
    rw [mergeLoop] at h
    cases hfs : findShortEdge g t with
    | none =>
      rw [hfs] at h
      simp only [MergeRes.ok.injEq] at h
      rw [← h]
      exact hfs
    | some uv =>
      rw [hfs] at h
      cases hcn : contracted_nodes g uv.1 uv.2 with
      | none => simp only [hcn] at h; cases h
      | some g' =>
        simp only [hcn] at h
        exact ih g' g'' h

/-- C6 (amended): `merge_close_nodes` terminates on every finite graph (the
loop bound is never exhausted); each step's selected edge either joins two
distinct nodes, whose fusion strictly decreases the node count by one, or is
a self-loop, in which case the node count is unchanged (the self-loops at
that node are removed); the edge count strictly decreases at every step (so
it never increases); and on normal exit no edge joins two endpoint positions
closer than the threshold. -/
theorem merge_close_nodes_spec (g : MG) (t : ℚ) (hwf : WFG g) :
    merge_close_nodes g t ≠ .fuelOut ∧
    (∀ (u v : Pix) (g' : MG), findShortEdge g t = some (u, v) →
      contracted_nodes g u v = some g' →
      g'.edges.length < g.edges.length ∧
      (u ≠ v → g'.nodes.length + 1 = g.nodes.length) ∧
      (u = v → g'.nodes.length = g.nodes.length)) ∧
    (∀ g'' : MG, merge_close_nodes g t = .ok g'' → findShortEdge g'' t = none) := by
  refine ⟨?_, ?_, ?_⟩
  · exact mergeLoop_progress t _ g hwf (by omega)
  · intro u v g' hfs hcn
    obtain ⟨e₀, he₀, hu₀, hv₀⟩ := findShortEdge_some hfs
    obtain ⟨_, h1, h2, h3⟩ := contracted_nodes_spec hwf he₀ hu₀ hv₀ hcn
    exact ⟨h1, h2, h3⟩
  · intro g'' h
    exact mergeLoop_fixpoint t _ g g'' h

/-- Counterexample for C6 as stated: the first loop step of
`merge_close_nodes(3.0)` on a graph with a self-loop selects that self-loop
(endpoint distance 0 < 3) and contracts the node with itself, leaving the
total node count unchanged — no fusion step strictly decreases it. -/
theorem merge_selfloop_counterexample :
    findShortEdge exMerge 3 = some ((0, 0), (0, 0)) ∧
    contracted_nodes exMerge (0, 0) (0, 0) = some exMerged ∧
    exMerged.nodes.length = exMerge.nodes.length ∧
    merge_close_nodes exMerge 3 = .ok exMerged := by decide

/-- Witness for C6's amended statement at the self-loop example graph. -/
theorem merge_close_nodes_spec_witness :
    merge_close_nodes exMerge 3 ≠ .fuelOut :=
  (merge_close_nodes_spec exMerge 3 (by decide)).1

/-! ## Walker lemmas: candidate evaluation and the greedy step -/

theorem mapM_option_spec {α β : Type} {f : α → Option β} :
    ∀ {l : List α} {ys : List β}, l.mapM f = some ys →
      (∀ y ∈ ys, ∃ x ∈ l, f x = some y) ∧ ys.length = l.length := by
  intro l
  induction l with
  | nil =>
    intro ys h
    simp only [List.mapM_nil, pure, Option.some.injEq] at h
    subst h
    exact ⟨by simp, rfl⟩
  | cons a r ih =>
    intro ys h
    rw [List.mapM_cons] at h
    cases hfa : f a with
    | none => rw [hfa] at h; simp at h
    | some b =>
      rw [hfa] at h
      cases hms : r.mapM f with
      | none => rw [hms] at h; simp at h
      | some bs =>
        rw [hms] at h
        have hys : ys = b :: bs := by simpa using h.symm
        subst hys
        obtain ⟨hmem, hlen⟩ := ih hms
        refine ⟨?_, by simp [hlen]⟩
        intro y hy
        rcases List.mem_cons.mp hy with rfl | hy
        · exact ⟨a, List.mem_cons_self a r, hfa⟩
        · obtain ⟨x, hx, hfx⟩ := hmem y hy
          exact ⟨x, List.mem_cons_of_mem _ hx, hfx⟩

theorem mapM_option_isSome {α β : Type} {f : α → Option β} :
    ∀ {l : List α}, (∀ x ∈ l, (f x).isSome) →
      ∃ ys, l.mapM f = some ys ∧ ys.length = l.length := by
  intro l
  induction l with
  | nil => intro _; exact ⟨[], rfl, rfl⟩
  | cons a r ih =>
    intro hall
    obtain ⟨b, hb⟩ := Option.isSome_iff_exists.mp (hall a (List.mem_cons_self a r))
    obtain ⟨bs, hbs, hlen⟩ := ih (fun x hx => hall x (List.mem_cons_of_mem _ hx))
    refine ⟨b :: bs, ?_, by simp [hlen]⟩
    rw [List.mapM_cons, hb, hbs]
    rfl

theorem bestStep_cases (acc : Option (Pix × Nat × List Pix × (Int × Nat)))
    (c : Pix × Nat × List Pix × (Int × Nat)) :
    bestStep acc c = some c ∨ bestStep acc c = acc := by
  cases acc with
  | none => exact .inl rfl
  | some b0 =>
    show (if scoreGtB c.2.2.2 b0.2.2.2 = true then some c else some b0) = some c ∨
      (if scoreGtB c.2.2.2 b0.2.2.2 = true then some c else some b0) = some b0
    by_cases hgt : scoreGtB c.2.2.2 b0.2.2.2 = true
    · rw [if_pos hgt]; exact .inl rfl
    · rw [if_neg hgt]; exact .inr rfl

theorem pickBest_fold_mem :
    ∀ (l : List (Pix × Nat × List Pix × (Int × Nat))) acc b,
      l.foldl bestStep acc = some b → b ∈ l ∨ acc = some b := by
  intro l
  induction l with
  | nil => intro acc b h; exact .inr h
  | cons c r ih =>
    intro acc b h
    rw [List.foldl_cons] at h
    rcases ih (bestStep acc c) b h with hm | hacc
    · exact .inl (List.mem_cons_of_mem _ hm)
    · rcases bestStep_cases acc c with hs | hs
      · rw [hs] at hacc
        exact .inl (List.mem_cons.mpr (.inl (Option.some.injEq _ _ |>.mp hacc).symm))
      · rw [hs] at hacc
        exact .inr hacc

theorem pickBest_mem {cands : List (Pix × Nat × List Pix × (Int × Nat))} {b}
    (h : pickBest cands = some b) : b ∈ cands := by
  unfold pickBest at h
  rcases pickBest_fold_mem cands none b h with hm | habs
  · exact hm
  · cases habs

theorem pickBest_isSome_aux :
    ∀ (l : List (Pix × Nat × List Pix × (Int × Nat))) c,
      (l.foldl bestStep (some c)).isSome := by
  intro l
  induction l with
  | nil => intro c; rfl
  | cons a r ih =>
    intro c
    rw [List.foldl_cons]
    rcases bestStep_cases (some c) a with hs | hs <;> rw [hs] <;> apply ih

theorem pickBest_isSome (c : Pix × Nat × List Pix × (Int × Nat))
    (cs : List (Pix × Nat × List Pix × (Int × Nat))) :
    (pickBest (c :: cs)).isSome := by
  unfold pickBest
  rw [List.foldl_cons]
  show (cs.foldl bestStep (bestStep none c)).isSome
  exact pickBest_isSome_aux cs c

theorem orientPix_cases {curr : Pix} {raw : List Pix} (h : raw ≠ []) :
    ∃ pix, orientPix curr raw = some pix ∧ (pix = raw ∨ pix = raw.reverse) := by
  cases raw with
  | nil => exact absurd rfl h
  | cons p r =>
    have hred : orientPix curr (p :: r) =
        some (if sqDist ((p :: r).getLastD p) curr < sqDist p curr
          then (p :: r).reverse else p :: r) := rfl
    rw [hred]
    by_cases hlt : sqDist ((p :: r).getLastD p) curr < sqDist p curr
    · exact ⟨(p :: r).reverse, by rw [if_pos hlt], .inr rfl⟩
    · exact ⟨p :: r, by rw [if_neg hlt], .inl rfl⟩

theorem evalCand_red (curr : Pix) (cv : Option (Int × Int)) (v : Pix) (k : Nat)
    (d : EdgeData) :
    evalCand curr cv (v, k, d) =
      Option.bind (orientPix curr (d.chain.getD [curr, v]))
        (fun pixels => some (v, k, pixels, scoreRep cv (tangentRaw pixels))) := rfl

theorem evalCand_isSome {g : MG} (hch : chainsGoodB g = true) {curr : Pix}
    {cv : Option (Int × Int)} {o : Pix × Nat × EdgeData}
    (ho : ∃ e ∈ g.edges, e.data = o.2.2) : (evalCand curr cv o).isSome := by
  obtain ⟨e, he, hd⟩ := ho
  obtain ⟨v, k, d⟩ := o
  have hne : d.chain.getD [curr, v] ≠ [] := by
    cases hc : d.chain with
    | none => simp
    | some c =>
      have := List.all_eq_true.mp hch e he
      rw [hd] at this
      simp only [hc] at this
      simp only [Option.getD_some]
      intro hcc
      rw [hcc] at this
      simp at this
  obtain ⟨pix, hpix, _⟩ := orientPix_cases hne
  rw [evalCand_red, hpix]
  rfl

theorem evalCand_shape {curr : Pix} {cv : Option (Int × Int)}
    {o : Pix × Nat × EdgeData} {b : Pix × Nat × List Pix × (Int × Nat)}
    (h : evalCand curr cv o = some b) :
    b.1 = o.1 ∧ b.2.1 = o.2.1 ∧
      (b.2.2.1 = o.2.2.chain.getD [curr, o.1] ∨
       b.2.2.1 = (o.2.2.chain.getD [curr, o.1]).reverse) := by
  obtain ⟨v, k, d⟩ := o
  rw [evalCand_red] at h
  cases hor : orientPix curr (d.chain.getD [curr, v]) with
  | none => rw [hor] at h; cases h
  | some pix =>
    rw [hor] at h
    have hb : b = (v, k, pix, scoreRep cv (tangentRaw pix)) := by
      simpa using h.symm
    subst hb
    by_cases hne : d.chain.getD [curr, v] = []
    · rw [hne] at hor
      simp [orientPix] at hor
    · obtain ⟨pix2, hpix2, hcase⟩ := orientPix_cases hne
      rw [hpix2] at hor
      obtain rfl := (Option.some.injEq _ _).mp hor
      exact ⟨rfl, rfl, hcase⟩

theorem walkOptions_mem {g : MG} {vis : List (Pix × Pix × Nat)} {curr : Pix}
    {o : Pix × Nat × EdgeData} (h : o ∈ walkOptions g vis curr) :
    ∃ e ∈ g.edges, incid e curr = true ∧ otherEnd e curr = o.1 ∧ e.key = o.2.1 ∧
      e.data = o.2.2 ∧ canonKey curr o.1 o.2.1 = canonE e ∧ canonE e ∉ vis := by
  unfold walkOptions at h
  obtain ⟨hadj, hnv⟩ := List.mem_filter.mp h
  obtain ⟨e, he, hi, ho, hk, hd⟩ := mem_adjEntries.mp hadj
  have hcanon : canonKey curr o.1 o.2.1 = canonE e := by
    rw [← ho, ← hk]
    exact canonKey_adj hi
  refine ⟨e, he, hi, ho, hk, hd, hcanon, ?_⟩
  rw [← hcanon]
  simpa using hnv

theorem walkOptions_mem_rev {g : MG} {vis : List (Pix × Pix × Nat)} {curr : Pix}
    {e : E} (he : e ∈ g.edges) (hi : incid e curr = true) (hnv : canonE e ∉ vis) :
    (otherEnd e curr, e.key, e.data) ∈ walkOptions g vis curr := by
  unfold walkOptions
  apply List.mem_filter.mpr
  constructor
  · exact mem_adjEntries.mpr ⟨e, he, hi, rfl, rfl, rfl⟩
  · have hcanon : canonKey curr (otherEnd e curr) e.key = canonE e := canonKey_adj hi
    simpa [hcanon] using hnv

theorem has_unused_edges_iff {g : MG} (hwf : WFG g) (vis : List (Pix × Pix × Nat))
    (x : Pix) :
    has_unused_edges g vis x = true ↔
      ∃ e ∈ g.edges, incid e x = true ∧ canonE e ∉ vis := by
  unfold has_unused_edges
  by_cases hx : x ∈ g.nodes
  · rw [if_pos hx]
    constructor
    · intro h
      have hne : walkOptions g vis x ≠ [] := by
        intro hc
        rw [hc] at h
        simp at h
      cases ho : walkOptions g vis x with
      | nil => exact absurd ho hne
      | cons o os =>
        obtain ⟨e, he, hi, _, _, _, _, hnv⟩ :=
          walkOptions_mem (ho ▸ List.mem_cons_self o os)
        exact ⟨e, he, hi, hnv⟩
    · rintro ⟨e, he, hi, hnv⟩
      have := walkOptions_mem_rev he hi hnv
      cases ho : walkOptions g vis x with
      | nil => rw [ho] at this; cases this
      | cons o os => simp [ho]
  · rw [if_neg hx]
    constructor
    · intro h; cases h
    · rintro ⟨e, he, hi, _⟩
      exfalso
      apply hx
      obtain ⟨h1, h2⟩ := hwf.2.1 e he
      unfold incid at hi
      rcases Bool.or_eq_true _ _ |>.mp hi with h | h <;>
        simp only [decide_eq_true_eq] at h <;> rw [← h] <;> assumption

theorem greedy_walk_succ_red (g : MG) (fuel : Nat) (curr : Pix)
    (cv : Option (Int × Int)) (vis : List (Pix × Pix × Nat)) :
    greedy_walk g (fuel + 1) curr cv vis =
      (if curr ∉ g.nodes then some ([], vis)
       else match walkOptions g vis curr with
        | [] => some ([], vis)
        | o :: os =>
          Option.bind ((o :: os).mapM (evalCand curr cv)) (fun cands =>
            match pickBest cands with
            | none => none
            | some best =>
              Option.bind
                (greedy_walk g fuel best.1
                  (some (negV (tangentRaw best.2.2.1.reverse)))
                  (canonKey curr best.1 best.2.1 :: vis))
                (fun rest =>
                  some ((⟨curr, best.1, best.2.1, best.2.2.1⟩ : Seg) :: rest.1,
                    rest.2)))) := rfl

theorem incid_orient {e : E} {x : Pix} (hi : incid e x = true) :
    (x = e.u ∧ otherEnd e x = e.v) ∨ (x = e.v ∧ otherEnd e x = e.u) := by
  unfold incid at hi
  unfold otherEnd
  rcases Bool.or_eq_true _ _ |>.mp hi with h | h <;>
    simp only [decide_eq_true_eq] at h
  · left; simp [h]
  · by_cases h2 : e.u = x
    · left; simp [h2, h]
    · right; simp [h, h2]

theorem segOK_len {g : MG} (hch : chainsGoodB g = true) {s : Seg}
    (h : SegOK g s) : 2 ≤ s.pix.length := by
  obtain ⟨e, he, _, _, hpix⟩ := h
  have hlen : 2 ≤ (e.data.chain.getD [s.a, s.b]).length := by
    cases hc : e.data.chain with
    | none => simp
    | some c =>
      have := List.all_eq_true.mp hch e he
      simp only [hc] at this ⊢
      simpa using this
  rcases hpix with hp | hp <;> rw [hp] <;> simpa using hlen

theorem greedy_walk_spec {g : MG} (hch : chainsGoodB g = true) :
    ∀ (fuel : Nat) (curr : Pix) (cv : Option (Int × Int))
      (vis : List (Pix × Pix × Nat)),
      ∃ segs vis',
        greedy_walk g fuel curr cv vis = some (segs, vis') ∧
        vis' = (segs.map canonSeg).reverse ++ vis ∧
        Chained curr segs ∧
        (∀ s ∈ segs, SegOK g s) ∧
        (segs.map canonSeg).Nodup ∧
        (∀ c ∈ segs.map canonSeg, c ∉ vis) ∧
        (segs = [] → fuel = 0 ∨ curr ∉ g.nodes ∨ walkOptions g vis curr = []) := by
  intro fuel
  induction fuel with
  | zero =>
    intro curr cv vis
    exact ⟨[], vis, rfl, by simp, trivial, by simp, by simp, by simp,
      fun _ => .inl rfl⟩
  | succ f ih =>
    intro curr cv vis
    by_cases hc : curr ∉ g.nodes
    · refine ⟨[], vis, ?_, by simp, trivial, by simp, by simp, by simp,
        fun _ => .inr (.inl hc)⟩
      rw [greedy_walk_succ_red, if_pos hc]
    · cases ho : walkOptions g vis curr with
      | nil =>
        refine ⟨[], vis, ?_, by simp, trivial, by simp, by simp, by simp,
          fun _ => .inr (.inr rfl)⟩
        rw [greedy_walk_succ_red, if_neg hc, ho]
      | cons o os =>
        have hmain : greedy_walk g (f + 1) curr cv vis =
            Option.bind ((o :: os).mapM (evalCand curr cv)) (fun cands =>
              match pickBest cands with
              | none => none
              | some best =>
                Option.bind
                  (greedy_walk g f best.1
                    (some (negV (tangentRaw best.2.2.1.reverse)))
                    (canonKey curr best.1 best.2.1 :: vis))
                  (fun rest =>
                    some ((⟨curr, best.1, best.2.1, best.2.2.1⟩ : Seg) :: rest.1,
                      rest.2))) := by
          rw [greedy_walk_succ_red, if_neg hc, ho]
        have hall : ∀ x ∈ o :: os, (evalCand curr cv x).isSome := by
          intro x hx
          apply evalCand_isSome hch
          obtain ⟨e, he, _, _, _, hd, _, _⟩ := walkOptions_mem (ho ▸ hx)
          exact ⟨e, he, hd⟩
        obtain ⟨cands, hcands, hclen⟩ := mapM_option_isSome hall
        have hbs : (pickBest cands).isSome := by
          cases hcn : cands with
          | nil => rw [hcn] at hclen; simp at hclen
          | cons c cs => exact pickBest_isSome c cs
        obtain ⟨b, hb⟩ := Option.isSome_iff_exists.mp hbs
        have hbmem := pickBest_mem hb
        obtain ⟨opt, hopt, hevo⟩ := (mapM_option_spec hcands).1 b hbmem
        obtain ⟨hb1, hb2, hb3⟩ := evalCand_shape hevo
        obtain ⟨e, he, hi, hoth, hk, hd, hcanon, hnv⟩ := walkOptions_mem (ho ▸ hopt)
        have hck : canonKey curr b.1 b.2.1 = canonE e := by
          rw [hb1, hb2]; exact hcanon
        obtain ⟨rsegs, rvis, hrec, hrvis, hrch, hrok, hrnd, hrfresh, _⟩ :=
          ih b.1 (some (negV (tangentRaw b.2.2.1.reverse)))
            (canonKey curr b.1 b.2.1 :: vis)
        have hsegOK : SegOK g (⟨curr, b.1, b.2.1, b.2.2.1⟩ : Seg) := by
          refine ⟨e, he, ?_, ?_, ?_⟩
          · show canonKey curr b.1 b.2.1 = canonE e
            exact hck
          · show (curr = e.u ∧ b.1 = e.v) ∨ (curr = e.v ∧ b.1 = e.u)
            rcases incid_orient hi with ⟨h1, h2⟩ | ⟨h1, h2⟩
            · left
              exact ⟨h1, by rw [hb1, ← hoth, h2]⟩
            · right
              exact ⟨h1, by rw [hb1, ← hoth, h2]⟩
          · show b.2.2.1 = e.data.chain.getD [curr, b.1] ∨
              b.2.2.1 = (e.data.chain.getD [curr, b.1]).reverse
            rw [hd, hb1]
            exact hb3
        refine ⟨(⟨curr, b.1, b.2.1, b.2.2.1⟩ : Seg) :: rsegs, rvis, ?_, ?_, ?_,
          ?_, ?_, ?_, ?_⟩
        · rw [hmain, hcands, Option.some_bind]
          simp only [hb]
          rw [hrec, Option.some_bind]
        · rw [hrvis]
          simp only [List.map_cons, List.reverse_cons, List.append_assoc]
          rfl
        · exact ⟨rfl, hrch⟩
        · intro s hs
          rcases List.mem_cons.mp hs with rfl | hs
          · exact hsegOK
          · exact hrok s hs
        · simp only [List.map_cons, List.nodup_cons]
          refine ⟨?_, hrnd⟩
          intro hmem
          have := hrfresh _ hmem
          exact this (List.mem_cons_self _ _)
        · intro c hcm
          simp only [List.map_cons, List.mem_cons] at hcm
          rcases hcm with rfl | hcm
          · show canonKey curr b.1 b.2.1 ∉ vis
            rw [hck]
            exact hnv
          · intro hcv
            exact hrfresh c hcm (List.mem_cons_of_mem _ hcv)
        · intro habs
          cases habs

theorem unvisCanons_shrink {g : MG} {vis : List (Pix × Pix × Nat)}
    {c : Pix × Pix × Nat} (hc : c ∈ unvisCanons g vis) :
    (unvisCanons g (c :: vis)).length < (unvisCanons g vis).length := by
  have heq : unvisCanons g (c :: vis) =
      (unvisCanons g vis).filter (fun x => x ≠ c) := by
    unfold unvisCanons
    rw [List.filter_filter]
    apply List.filter_congr
    intro x _
    by_cases h1 : x = c
    · subst h1; simp
    · by_cases h2 : x ∈ vis <;> simp [h1, h2]
  rw [heq, List.length_filter_lt_length_iff_exists]
  exact ⟨c, hc, by simp⟩

theorem greedy_walk_stuck {g : MG} :
    ∀ (fuel : Nat) (curr : Pix) (cv : Option (Int × Int))
      (vis : List (Pix × Pix × Nat)) (segs : List Seg)
      (vis' : List (Pix × Pix × Nat)),
      greedy_walk g fuel curr cv vis = some (segs, vis') →
      (unvisCanons g vis).length < fuel →
      endOf curr segs ∉ g.nodes ∨ walkOptions g vis' (endOf curr segs) = [] := by
  intro fuel
  induction fuel with
  | zero => intro curr cv vis segs vis' _ hlt; omega
  | succ f ih =>
    intro curr cv vis segs vis' h hlt
    by_cases hc : curr ∉ g.nodes
    · rw [greedy_walk_succ_red, if_pos hc] at h
      simp only [Option.some.injEq, Prod.mk.injEq] at h
      obtain ⟨rfl, rfl⟩ := h
      exact .inl hc
    · cases ho : walkOptions g vis curr with
      | nil =>
        rw [greedy_walk_succ_red, if_neg hc, ho] at h
        simp only [Option.some.injEq, Prod.mk.injEq] at h
        obtain ⟨rfl, rfl⟩ := h
        exact .inr ho
      | cons o os =>
        have hmain : greedy_walk g (f + 1) curr cv vis =
            Option.bind ((o :: os).mapM (evalCand curr cv)) (fun cands =>
              match pickBest cands with
              | none => none
              | some best =>
                Option.bind
                  (greedy_walk g f best.1
                    (some (negV (tangentRaw best.2.2.1.reverse)))
                    (canonKey curr best.1 best.2.1 :: vis))
                  (fun rest =>
                    some ((⟨curr, best.1, best.2.1, best.2.2.1⟩ : Seg) :: rest.1,
                      rest.2))) := by
          rw [greedy_walk_succ_red, if_neg hc, ho]
        rw [hmain] at h
        cases hm : (o :: os).mapM (evalCand curr cv) with
        | none => rw [hm] at h; cases h
        | some cands =>
          rw [hm, Option.some_bind] at h
          cases hpb : pickBest cands with
          | none => simp [hpb] at h
          | some b =>
            simp only [hpb] at h
            cases hrec : greedy_walk g f b.1
                (some (negV (tangentRaw b.2.2.1.reverse)))
                (canonKey curr b.1 b.2.1 :: vis) with
            | none => rw [hrec] at h; cases h
            | some r =>
              rw [hrec, Option.some_bind] at h
              simp only [Option.some.injEq, Prod.mk.injEq] at h
              obtain ⟨rfl, rfl⟩ := h
              have hbmem := pickBest_mem hpb
              obtain ⟨opt, hopt, hevo⟩ := (mapM_option_spec hm).1 b hbmem
              obtain ⟨hb1, hb2, _⟩ := evalCand_shape hevo
              obtain ⟨e, he, hi, hoth, hk, hd, hcanon, hnv⟩ :=
                walkOptions_mem (ho ▸ hopt)
              have hck : canonKey curr b.1 b.2.1 = canonE e := by
                rw [hb1, hb2]; exact hcanon
              have hckmem : canonKey curr b.1 b.2.1 ∈ unvisCanons g vis := by
                unfold unvisCanons
                apply List.mem_filter.mpr
                refine ⟨?_, by simpa [hck] using hnv⟩
                rw [hck]
                exact List.mem_map_of_mem canonE he
              have hlt2 :
                  (unvisCanons g (canonKey curr b.1 b.2.1 :: vis)).length < f := by
                have := unvisCanons_shrink hckmem
                omega
              exact ih b.1 _ _ r.1 r.2 hrec hlt2

/-! ## Splice-loop support lemmas -/

theorem scanCands_none {g : MG} {vis : List (Pix × Pix × Nat)} :
    ∀ {l : List Pix}, scanCands g vis l = none →
      ∀ n ∈ l, has_unused_edges g vis n = false := by
  intro l
  induction l with
  | nil => intro _ n hn; cases hn
  | cons a r ih =>
    intro h n hn
    unfold scanCands at h
    by_cases ha : has_unused_edges g vis a = true
    · rw [if_pos ha] at h; cases h
    · rw [if_neg ha] at h
      rcases List.mem_cons.mp hn with rfl | hr
      · exact Bool.not_eq_true _ |>.mp ha
      · apply ih _ n hr
        cases hs : scanCands g vis r with
        | none => rfl
        | some p => rw [hs] at h; cases h

theorem scanCands_some {g : MG} {vis : List (Pix × Pix × Nat)} :
    ∀ {l : List Pix} {i : Nat} {n : Pix}, scanCands g vis l = some (i, n) →
      i < l.length ∧ l.get? i = some n ∧ has_unused_edges g vis n = true := by
  intro l
  induction l with
  | nil => intro i n h; cases h
  | cons a r ih =>
    intro i n h
    unfold scanCands at h
    by_cases ha : has_unused_edges g vis a = true
    · rw [if_pos ha] at h
      simp only [Option.some.injEq, Prod.mk.injEq] at h
      obtain ⟨hi, hn⟩ := h
      subst hn
      refine ⟨?_, ?_, ha⟩
      · rw [← hi]; simp
      · rw [← hi]; rfl
    · rw [if_neg ha] at h
      cases hs : scanCands g vis r with
      | none => rw [hs] at h; cases h
      | some p =>
        rw [hs] at h
        simp only [Option.map_some', Option.some.injEq, Prod.mk.injEq] at h
        obtain ⟨hi, hn⟩ := h
        obtain ⟨hlt, hget, hu⟩ := ih hs
        subst hn
        refine ⟨?_, ?_, hu⟩
        · simp only [List.length_cons]; omega
        · rw [← hi]
          simpa using hget

theorem scanCands_ex {g : MG} {vis : List (Pix × Pix × Nat)} :
    ∀ {l : List Pix}, (∃ n ∈ l, has_unused_edges g vis n = true) →
      scanCands g vis l ≠ none := by
  intro l h hnone
  obtain ⟨n, hn, hu⟩ := h
  rw [scanCands_none hnone n hn] at hu
  cases hu

theorem has_unused_mem_nodes {g : MG} {vis : List (Pix × Pix × Nat)} {x : Pix}
    (h : has_unused_edges g vis x = true) :
    x ∈ g.nodes ∧ walkOptions g vis x ≠ [] := by
  unfold has_unused_edges at h
  by_cases hx : x ∈ g.nodes
  · rw [if_pos hx] at h
    refine ⟨hx, ?_⟩
    intro hc
    rw [hc] at h
    simp at h
  · rw [if_neg hx] at h
    cases h

theorem assembleFrom_spec :
    ∀ (rest : List Seg) (full : List Pix), full ≠ [] →
      (∀ s ∈ rest, 2 ≤ s.pix.length) →
      ∃ p, assembleFrom full rest = some p ∧
        full.length + rest.length ≤ p.length ∧ p ≠ [] := by
  intro rest
  induction rest with
  | nil =>
    intro full hne _
    exact ⟨full, rfl, by simp, hne⟩
  | cons s r ih =>
    intro full hne hlen
    have hs2 : 2 ≤ s.pix.length := hlen s (List.mem_cons_self s r)
    have hspne : s.pix ≠ [] := by
      intro hc; rw [hc] at hs2; simp at hs2
    obtain ⟨lp, hlp⟩ := Option.isSome_iff_exists.mp
      (by rwa [List.getLast?_isSome] : full.getLast?.isSome = true)
    obtain ⟨fp, hfp⟩ := Option.isSome_iff_exists.mp
      (by rwa [List.head?_isSome] : s.pix.head?.isSome = true)
    have hstep : assembleFrom full (s :: r) =
        assembleFrom (if lp = fp then full ++ s.pix.tail else full ++ s.pix) r := by
      simp only [assembleFrom, hlp, hfp]
    rw [hstep]
    by_cases heq : lp = fp
    · rw [if_pos heq]
      obtain ⟨p, hp, hplen, hpne⟩ := ih (full ++ s.pix.tail)
        (by simp [hne]) (fun t ht => hlen t (List.mem_cons_of_mem _ ht))
      refine ⟨p, hp, ?_, hpne⟩
      have htl : s.pix.tail.length = s.pix.length - 1 := List.length_tail _
      rw [List.length_append, htl] at hplen
      simp only [List.length_cons]
      omega
    · rw [if_neg heq]
      obtain ⟨p, hp, hplen, hpne⟩ := ih (full ++ s.pix)
        (by simp [hne]) (fun t ht => hlen t (List.mem_cons_of_mem _ ht))
      refine ⟨p, hp, ?_, hpne⟩
      rw [List.length_append] at hplen
      simp only [List.length_cons]
      omega


theorem assembleTour_spec {tour : List Seg} (hlen : ∀ s ∈ tour, 2 ≤ s.pix.length) :
    ∃ p, assembleTour tour = some p ∧ tour.length ≤ p.length := by
  cases tour with
  | nil => exact ⟨[], rfl, by simp⟩
  | cons s r =>
    have hs2 : 2 ≤ s.pix.length := hlen s (List.mem_cons_self s r)
    obtain ⟨p, hp, hplen, _⟩ := assembleFrom_spec r s.pix
      (by intro hc; rw [hc] at hs2; simp at hs2)
      (fun t ht => hlen t (List.mem_cons_of_mem _ ht))
    refine ⟨p, hp, ?_⟩
    simp only [List.length_cons]
    omega

theorem Chained_append :
    ∀ (A : List Seg) (x : Pix) (B : List Seg), Chained x (A ++ B) ↔
      Chained x A ∧ Chained (endOf x A) B := by
  intro A
  induction A with
  | nil => intro x B; simp [Chained, endOf]
  | cons s r ih =>
    intro x B
    show Chained x ((s :: r) ++ B) ↔ _
    rw [List.cons_append]
    show (s.a = x ∧ Chained s.b (r ++ B)) ↔
      (s.a = x ∧ Chained s.b r) ∧ Chained (endOf s.b r) B
    rw [ih s.b B]
    tauto

theorem endOf_append (x : Pix) :
    ∀ (A B : List Seg), endOf x (A ++ B) = endOf (endOf x A) B := by
  intro A
  induction A generalizing x with
  | nil => intro B; rfl
  | cons s r ih => intro B; simp only [List.cons_append, endOf]; exact ih _ B

theorem Chained_endOf_last {x : Pix} :
    ∀ {l : List Seg} {s : Seg}, Chained x l → l.getLast? = some s →
      endOf x l = s.b := by
  intro l
  induction l generalizing x with
  | nil => intro s _ h; cases h
  | cons a r ih =>
    intro s hch hl
    cases hr : r with
    | nil =>
      subst hr
      simp only [List.getLast?_singleton, Option.some.injEq] at hl
      subst hl
      rfl
    | cons b t =>
      have hl2 : r.getLast? = some s := by
        rw [← hl, hr]
        simp [List.getLast?_cons_cons]
      rw [← hr]
      exact ih hch.2 hl2

theorem Chained_touched_mem {x : Pix} :
    ∀ {tour : List Seg} {last : Seg} {y : Pix}, Chained x tour →
      tour.getLast? = some last → Touched tour y →
      y ∈ spliceCandidates tour last := by
  intro tour
  induction tour generalizing x with
  | nil => intro last y _ h; cases h
  | cons s r ih =>
    intro last y hch hl ht
    obtain ⟨t, htm, hy⟩ := ht
    unfold spliceCandidates
    rcases List.mem_cons.mp htm with rfl | htr
    · rcases hy with rfl | rfl
      · exact List.mem_append_left _ (by simp)
      · cases hr : r with
        | nil =>
          subst hr
          simp only [List.getLast?_singleton, Option.some.injEq] at hl
          subst hl
          exact List.mem_append_right _ (by simp)
        | cons b u =>
          rw [hr] at hch
          have hba : t.b = b.a := hch.2.1.symm
          rw [hba]
          apply List.mem_append_left
          simp
    · have hl2 : r.getLast? = some last := by
        cases hr : r with
        | nil => subst hr; cases htr
        | cons b u =>
          rw [← hl, hr]
          simp [List.getLast?_cons_cons]
      have hrec := ih hch.2 hl2 ⟨t, htr, hy⟩
      unfold spliceCandidates at hrec
      rcases List.mem_append.mp hrec with hm | hm
      · apply List.mem_append_left
        simp only [List.map_cons, List.mem_cons]
        exact .inr hm
      · exact List.mem_append_right _ hm

/-! ## Reachability: `connectedB` yields walk-reachability between all nodes -/

theorem AdjP_symm {g : MG} {y z : Pix} (h : AdjP g y z) : AdjP g z y := by
  obtain ⟨e, he, hor⟩ := h
  exact ⟨e, he, hor.symm⟩

theorem EPath_trans {g : MG} {x y z : Pix} (h1 : EPath g x y)
    (h2 : EPath g y z) : EPath g x z := by
  induction h2 with
  | refl => exact h1
  | step _ ha ih => exact .step ih ha

theorem EPath_single {g : MG} {y z : Pix} (h : AdjP g y z) : EPath g y z :=
  .step (.refl y) h

theorem EPath_symm {g : MG} {x y : Pix} (h : EPath g x y) : EPath g y x := by
  induction h with
  | refl => exact .refl _
  | step _ ha ih => exact EPath_trans (EPath_single (AdjP_symm ha)) ih

theorem expandR_EPath {g : MG} {x : Pix} {s : List Pix}
    (hs : ∀ w ∈ s, EPath g x w) : ∀ z ∈ expandR g s, EPath g x z := by
  intro z hz
  unfold expandR at hz
  rw [mem_dedupF] at hz
  rcases List.mem_append.mp hz with h | h
  · exact hs z h
  · obtain ⟨w, hw, hn⟩ := List.mem_flatMap.mp h
    obtain ⟨e, he, hi, ho⟩ := mem_nbrsOf.mp hn
    refine .step (hs w hw) ?_
    rcases incid_orient hi with ⟨h1, h2⟩ | ⟨h1, h2⟩
    · exact ⟨e, he, .inl ⟨h1.symm, by rw [← h2]; exact ho⟩⟩
    · exact ⟨e, he, .inr ⟨by rw [← h2]; exact ho, h1.symm⟩⟩

theorem reachList_EPath {g : MG} {x y : Pix} (h : y ∈ reachList g x) :
    EPath g x y := by
  unfold reachList at h
  have H : ∀ (n : Nat) (z : Pix), z ∈ (expandR g)^[n] [x] → EPath g x z := by
    intro n
    induction n with
    | zero =>
      intro z hz
      simp only [Function.iterate_zero, id_eq, List.mem_singleton] at hz
      subst hz
      exact .refl _
    | succ m ih =>
      intro z hz
      rw [Function.iterate_succ_apply'] at hz
      exact expandR_EPath ih z hz
  exact H _ y h

theorem connectedB_EPath {g : MG} (hc : connectedB g = true) {a b : Pix}
    (ha : a ∈ g.nodes) (hb : b ∈ g.nodes) : EPath g a b := by
  cases hn : g.nodes with
  | nil => rw [hn] at ha; cases ha
  | cons h t =>
    simp only [connectedB, hn] at hc
    have hA : a ∈ reachList g h := by
      have := List.all_eq_true.mp hc a (hn ▸ ha)
      simpa using this
    have hB : b ∈ reachList g h := by
      have := List.all_eq_true.mp hc b (hn ▸ hb)
      simpa using this
    exact EPath_trans (EPath_symm (reachList_EPath hA)) (reachList_EPath hB)

/-! ## Degree and remaining-degree facts -/

theorem contrib_pos_iff {e : E} {x : Pix} : 0 < contrib e x ↔ incid e x = true := by
  unfold contrib incid
  by_cases h1 : e.u = x <;> by_cases h2 : e.v = x <;> simp [h1, h2]

theorem contrib_le_degree {g : MG} {e : E} (he : e ∈ g.edges) (x : Pix) :
    contrib e x ≤ degree g x :=
  List.single_le_sum (fun y _ => Nat.zero_le y) _
    (List.mem_map_of_mem (fun e => contrib e x) he)

theorem adjP_degree_pos {g : MG} {x z : Pix} (h : AdjP g x z) : 0 < degree g x := by
  obtain ⟨e, he, hor⟩ := h
  have hi : incid e x = true := by
    unfold incid
    rcases hor with ⟨h1, _⟩ | ⟨_, h2⟩
    · simp [h1]
    · simp [h2]
  exact lt_of_lt_of_le (contrib_pos_iff.mpr hi) (contrib_le_degree he x)

theorem connected_degree_pos {g : MG} (hwf : WFG g) (hc : connectedB g = true)
    {x : Pix} (hx : x ∈ g.nodes) {e0 : E} (he0 : e0 ∈ g.edges) :
    0 < degree g x := by
  have hu : e0.u ∈ g.nodes := (hwf.2.1 e0 he0).1
  have hp : EPath g x e0.u := connectedB_EPath hc hx hu
  have key : ∀ {w : Pix}, EPath g x w → w = x ∨ 0 < degree g x := by
    intro w h
    induction h with
    | refl => exact .inl rfl
    | step _ ha ih =>
      rcases ih with rfl | hd
      · exact .inr (adjP_degree_pos ha)
      · exact .inr hd
  rcases key hp with heq | hd
  · have hi : incid e0 x = true := by unfold incid; simp [heq]
    exact lt_of_lt_of_le (contrib_pos_iff.mpr hi) (contrib_le_degree he0 x)
  · exact hd

theorem remDeg_nil (g : MG) (x : Pix) : remDeg g [] x = degree g x := by
  unfold remDeg degree
  simp

theorem remDeg_not_node {g : MG} (hwf : WFG g) {x : Pix} (hx : x ∉ g.nodes)
    (vis : List (Pix × Pix × Nat)) : remDeg g vis x = 0 := by
  unfold remDeg
  apply List.sum_eq_zero
  intro n hn
  obtain ⟨e, he, rfl⟩ := List.mem_map.mp hn
  obtain ⟨he', _⟩ := List.mem_filter.mp he
  have h1 : e.u ≠ x := fun h => hx (h ▸ (hwf.2.1 e he').1)
  have h2 : e.v ≠ x := fun h => hx (h ▸ (hwf.2.1 e he').2)
  simp [contrib, h1, h2]

theorem remDeg_zero_of_no_options {g : MG} {vis : List (Pix × Pix × Nat)}
    {m : Pix} (h : walkOptions g vis m = []) : remDeg g vis m = 0 := by
  unfold remDeg
  apply List.sum_eq_zero
  intro n hn
  obtain ⟨e, he, rfl⟩ := List.mem_map.mp hn
  obtain ⟨he', hnv⟩ := List.mem_filter.mp he
  by_cases hi : incid e m = true
  · exfalso
    have hmem := walkOptions_mem_rev he' hi (by simpa using hnv)
    rw [h] at hmem
    cases hmem
  · have hc : ¬ 0 < contrib e m := fun hpos => hi (contrib_pos_iff.mp hpos)
    omega

theorem segOK_endpoints {g : MG} (hwf : WFG g) {s : Seg} (h : SegOK g s) :
    s.a ∈ g.nodes ∧ s.b ∈ g.nodes := by
  obtain ⟨e, he, _, hor, _⟩ := h
  obtain ⟨hu, hv⟩ := hwf.2.1 e he
  rcases hor with ⟨h1, h2⟩ | ⟨h1, h2⟩
  · exact ⟨by rw [h1]; exact hu, by rw [h2]; exact hv⟩
  · exact ⟨by rw [h1]; exact hv, by rw [h2]; exact hu⟩

/-! ## Parity bookkeeping for committed walks -/

theorem ind_comm (a b : Pix) :
    (if a = b then (1 : Nat) else 0) = (if b = a then 1 else 0) := by
  by_cases h : a = b
  · simp [h]
  · simp [h, Ne.symm h]

theorem segContrib_eq (s : Seg) (x : Pix) :
    segContrib s x = (if s.a = x then 1 else 0) + (if s.b = x then 1 else 0) := by
  unfold segContrib
  by_cases h1 : s.a = x <;> by_cases h2 : s.b = x <;> simp [h1, h2]

theorem segDeg_cons (s : Seg) (r : List Seg) (x : Pix) :
    segDeg (s :: r) x = segContrib s x + segDeg r x := by
  unfold segDeg
  simp

theorem segDeg_parity {x : Pix} :
    ∀ {sub : List Seg} {n : Pix}, Chained n sub →
      segDeg sub x % 2 =
        ((if x = n then 1 else 0) + (if x = endOf n sub then 1 else 0)) % 2 := by
  intro sub
  induction sub with
  | nil =>
    intro n _
    by_cases h : x = n <;> simp [segDeg, endOf, h]
  | cons s r ih =>
    intro n hch
    obtain ⟨ha, hcr⟩ := hch
    subst ha
    have hr := ih hcr
    rw [segDeg_cons, segContrib_eq]
    show ((if s.a = x then 1 else 0) + (if s.b = x then 1 else 0) + segDeg r x) % 2 =
      ((if x = s.a then 1 else 0) + (if x = endOf s.b r then 1 else 0)) % 2
    rw [ind_comm x s.a, ind_comm x s.b] at *
    by_cases h1 : s.a = x <;> by_cases h2 : s.b = x <;>
      by_cases h3 : endOf s.b r = x <;> simp [h1, h2, h3] at hr ⊢ <;> omega

theorem sum_split_canon (x : Pix) (c : Pix × Pix × Nat)
    (vis : List (Pix × Pix × Nat)) :
    ∀ l : List E,
      ((l.filter (fun e => decide (canonE e ∉ c :: vis))).map
          (fun e => contrib e x)).sum
        + ((l.filter (fun e =>
              decide (canonE e = c) && decide (canonE e ∉ vis))).map
            (fun e => contrib e x)).sum
      = ((l.filter (fun e => decide (canonE e ∉ vis))).map
          (fun e => contrib e x)).sum := by
  intro l
  induction l with
  | nil => rfl
  | cons e r ih =>
    by_cases h1 : canonE e ∈ vis
    · have hA : decide (canonE e ∉ c :: vis) = false := by simp [h1]
      have hC : decide (canonE e ∉ vis) = false := by simp [h1]
      simp only [List.filter_cons, hA, hC, Bool.and_false, Bool.false_eq_true,
        if_false]
      exact ih
    · by_cases h2 : canonE e = c
      · have hA : decide (canonE e ∉ c :: vis) = false := by simp [h2]
        have hB : decide (canonE e = c) = true := by simp [h2]
        have hC : decide (canonE e ∉ vis) = true := by simp [h1]
        simp only [List.filter_cons, hA, hB, hC, Bool.and_true, Bool.true_and,
          Bool.and_self, Bool.false_eq_true, if_false, if_true, List.map_cons,
          List.sum_cons]
        omega
      · have hA : decide (canonE e ∉ c :: vis) = true := by simp [h1, h2]
        have hB : decide (canonE e = c) = false := by simp [h2]
        have hC : decide (canonE e ∉ vis) = true := by simp [h1]
        simp only [List.filter_cons, hA, hB, hC, Bool.false_and, Bool.and_true,
          Bool.false_eq_true, if_false, if_true, List.map_cons, List.sum_cons]
        omega

theorem filter_canonE_eq : ∀ {l : List E}, (l.map canonE).Nodup → ∀ {e : E},
    e ∈ l → l.filter (fun d => decide (canonE d = canonE e)) = [e] := by
  intro l
  induction l with
  | nil => intro _ e he; cases he
  | cons a r ih =>
    intro hnd e he
    rw [List.map_cons, List.nodup_cons] at hnd
    rcases List.mem_cons.mp he with rfl | hr
    · have htail : r.filter (fun d => decide (canonE d = canonE e)) = [] := by
        rw [List.filter_eq_nil_iff]
        intro d hd hcd
        rw [decide_eq_true_eq] at hcd
        exact hnd.1 (hcd ▸ List.mem_map_of_mem canonE hd)
      simp [List.filter_cons, htail]
    · have hne : ¬ (canonE a = canonE e) := by
        intro hc
        exact hnd.1 (hc ▸ List.mem_map_of_mem canonE hr)
      simp only [List.filter_cons, hne, decide_False, Bool.false_eq_true, if_false]
      exact ih hnd.2 hr

theorem remDeg_cons_eq {g : MG} (hnd : (g.edges.map canonE).Nodup) {e : E}
    (he : e ∈ g.edges) {vis : List (Pix × Pix × Nat)}
    (hnv : canonE e ∉ vis) (x : Pix) :
    remDeg g (canonE e :: vis) x + contrib e x = remDeg g vis x := by
  have hsplit := sum_split_canon x (canonE e) vis g.edges
  have hmid : g.edges.filter
      (fun d => decide (canonE d = canonE e) && decide (canonE d ∉ vis)) = [e] := by
    rw [← filter_canonE_eq hnd he]
    apply List.filter_congr
    intro d _
    by_cases hc : canonE d = canonE e
    · simp [hc, hnv]
    · simp [hc]
  rw [hmid] at hsplit
  unfold remDeg
  simpa using hsplit

theorem segContrib_eq_contrib {s : Seg} {e : E} (h : canonSeg s = canonE e)
    (x : Pix) : segContrib s x = contrib e x := by
  have h' : canonKey s.a s.b s.key = canonKey e.u e.v e.key := h
  obtain ⟨_, hor⟩ := canonKey_inj h'
  unfold segContrib contrib
  rcases hor with ⟨h1, h2⟩ | ⟨h1, h2⟩
  · rw [h1, h2]
  · rw [h1, h2]
    by_cases hu : e.u = x <;> by_cases hv : e.v = x <;> simp [hu, hv]

theorem remDeg_walk {g : MG} (hnd : (g.edges.map canonE).Nodup) :
    ∀ (sub : List Seg) (vis : List (Pix × Pix × Nat)) (x : Pix),
      (∀ s ∈ sub, SegOK g s) → (∀ c ∈ sub.map canonSeg, c ∉ vis) →
      (sub.map canonSeg).Nodup →
      remDeg g ((sub.map canonSeg).reverse ++ vis) x + segDeg sub x
        = remDeg g vis x := by
  intro sub
  induction sub with
  | nil => intro vis x _ _ _; simp [segDeg]
  | cons s r ih =>
    intro vis x hok hfr hnodup
    obtain ⟨e, he, hce, _, _⟩ := hok s (List.mem_cons_self s r)
    have hlist : ((s :: r).map canonSeg).reverse ++ vis
        = (r.map canonSeg).reverse ++ (canonSeg s :: vis) := by
      simp [List.map_cons, List.reverse_cons, List.append_assoc]
    rw [hlist]
    rw [List.map_cons, List.nodup_cons] at hnodup
    have hfr' : ∀ c ∈ r.map canonSeg, c ∉ (canonSeg s :: vis) := by
      intro c hc
      simp only [List.mem_cons]
      rintro (rfl | hv)
      · exact hnodup.1 hc
      · exact hfr c (by simp [hc]) hv
    have hrec := ih (canonSeg s :: vis) x
      (fun t ht => hok t (List.mem_cons_of_mem _ ht)) hfr' hnodup.2
    have hsnv : canonE e ∉ vis := by
      rw [← hce]
      exact hfr (canonSeg s) (by simp)
    have hcons : remDeg g (canonSeg s :: vis) x + contrib e x = remDeg g vis x := by
      rw [hce]
      exact remDeg_cons_eq hnd he hsnv x
    have hstot : segDeg (s :: r) x = segContrib s x + segDeg r x := segDeg_cons s r x
    have hcontr : segContrib s x = contrib e x := segContrib_eq_contrib hce x
    omega

/-! ## Unvisited-canon bookkeeping for the splice loop -/

theorem unvisCanons_le (g : MG) (vis : List (Pix × Pix × Nat)) :
    (unvisCanons g vis).length ≤ g.edges.length := by
  unfold unvisCanons
  calc ((g.edges.map canonE).filter _).length
      ≤ (g.edges.map canonE).length := List.length_filter_le _ _
    _ = g.edges.length := List.length_map _ _

theorem unvisCanons_append (g : MG) (A vis : List (Pix × Pix × Nat)) :
    unvisCanons g (A ++ vis)
      = (unvisCanons g vis).filter (fun c => decide (c ∉ A)) := by
  unfold unvisCanons
  rw [List.filter_filter]
  apply List.filter_congr
  intro c _
  by_cases h1 : c ∈ A <;> by_cases h2 : c ∈ vis <;> simp [h1, h2]

theorem unvisCanons_shrink_append {g : MG} {vis A : List (Pix × Pix × Nat)}
    {c : Pix × Pix × Nat} (hc : c ∈ unvisCanons g vis) (hcA : c ∈ A) :
    (unvisCanons g (A ++ vis)).length < (unvisCanons g vis).length := by
  rw [unvisCanons_append, List.length_filter_lt_length_iff_exists]
  exact ⟨c, hc, by simp [hcA]⟩

/-! ## Splice-loop reduction and progress -/

theorem spliceLoop_succ_red (g : MG) (f : Nat) (tour : List Seg)
    (vis : List (Pix × Pix × Nat)) :
    spliceLoop g (f + 1) tour vis =
      (if vis.length < g.edges.length then
        match tour.getLast? with
        | none => .emptyTourCrash
        | some lastSeg =>
          match scanCands g vis (spliceCandidates tour lastSeg) with
          | none => .noCandidate tour vis
          | some (idx, spliceNode) =>
            match greedy_walk g (g.edges.length + 1) spliceNode none vis with
            | none => .chainCrash
            | some (sub, vis') =>
              if sub.isEmpty then .emptySub tour vis
              else spliceLoop g f (spliceAt tour sub idx) vis'
      else .done tour vis) := rfl

theorem spliceAt_ne_nil {tour sub : List Seg} (h : tour ≠ []) (idx : Nat) :
    spliceAt tour sub idx ≠ [] := by
  have hlt : 0 < tour.length := List.length_pos.mpr h
  intro hc
  have hlen := congrArg List.length hc
  unfold spliceAt at hlen
  by_cases hi : idx ≥ tour.length
  · rw [if_pos hi] at hlen
    rw [List.length_append] at hlen
    simp only [List.length_nil] at hlen
    omega
  · rw [if_neg hi] at hlen
    rw [List.length_append, List.length_append, List.length_take,
      List.length_drop] at hlen
    simp only [List.length_nil] at hlen
    omega

theorem spliceLoop_ne_crash {g : MG} :
    ∀ (fuel : Nat) (tour : List Seg) (vis : List (Pix × Pix × Nat)),
      tour ≠ [] → spliceLoop g fuel tour vis ≠ .emptyTourCrash := by
  intro fuel
  induction fuel with
  | zero =>
    intro tour vis _ hc
    unfold spliceLoop at hc
    by_cases hvl : vis.length < g.edges.length
    · rw [if_pos hvl] at hc; cases hc
    · rw [if_neg hvl] at hc; cases hc
  | succ f ih =>
    intro tour vis htne hc
    rw [spliceLoop_succ_red] at hc
    by_cases hvl : vis.length < g.edges.length
    · rw [if_pos hvl] at hc
      cases hl : tour.getLast? with
      | none =>
        exact htne (List.getLast?_eq_none_iff.mp hl)
      | some last =>
        simp only [hl] at hc
        cases hscan : scanCands g vis (spliceCandidates tour last) with
        | none => simp only [hscan] at hc; cases hc
        | some p =>
          obtain ⟨idx, n⟩ := p
          simp only [hscan] at hc
          cases hgw : greedy_walk g (g.edges.length + 1) n none vis with
          | none => simp only [hgw] at hc; cases hc
          | some sv =>
            obtain ⟨sub, vis2⟩ := sv
            simp only [hgw] at hc
            cases hse : sub.isEmpty with
            | true => simp only [hse] at hc; cases hc
            | false =>
              simp only [hse] at hc
              exact ih (spliceAt tour sub idx) vis2 (spliceAt_ne_nil htne idx) hc
    · rw [if_neg hvl] at hc; cases hc

theorem epath_progress {g : MG} (hwf : WFG g) {vis : List (Pix × Pix × Nat)}
    {tour : List Seg} (hTv : ∀ c ∈ vis, c ∈ tour.map canonSeg) :
    ∀ {y z : Pix}, EPath g y z → Touched tour y →
      Touched tour z ∨ ∃ w, Touched tour w ∧ has_unused_edges g vis w = true := by
  intro y z hp hy
  induction hp with
  | refl => exact .inl hy
  | step hprev ha ih =>
    rename_i m w
    rcases ih with hm | hex
    · obtain ⟨e, he, hor⟩ := ha
      by_cases hv : canonE e ∈ vis
      · obtain ⟨s, hs, hcse⟩ := List.mem_map.mp (hTv _ hv)
        left
        have h' : canonKey s.a s.b s.key = canonKey e.u e.v e.key := hcse
        obtain ⟨_, hpair⟩ := canonKey_inj h'
        refine ⟨s, hs, ?_⟩
        have hw : w = e.u ∨ w = e.v := by
          rcases hor with ⟨h1, h2⟩ | ⟨h1, h2⟩
          · exact .inr h2.symm
          · exact .inl h1.symm
        rcases hpair with ⟨hp1, hp2⟩ | ⟨hp1, hp2⟩ <;> rcases hw with hz | hz
        · exact .inl (hz.trans hp1.symm)
        · exact .inr (hz.trans hp2.symm)
        · exact .inr (hz.trans hp2.symm)
        · exact .inl (hz.trans hp1.symm)
      · right
        refine ⟨_, hm, ?_⟩
        rw [has_unused_edges_iff hwf]
        refine ⟨e, he, ?_, hv⟩
        unfold incid
        rcases hor with ⟨h1, _⟩ | ⟨_, h2⟩
        · simp [h1]
        · simp [h2]
    · exact .inr hex

theorem splice_progress {g : MG} (hwf : WFG g) (hconn : connectedB g = true)
    {tour : List Seg} {vis : List (Pix × Pix × Nat)} (hbi : BasicInv g tour vis)
    {x0 : Pix} (hch : Chained x0 tour) (htne : tour ≠ [])
    (hlt : vis.length < g.edges.length) {last : Seg}
    (hl : tour.getLast? = some last) :
    ∃ n ∈ spliceCandidates tour last, has_unused_edges g vis n = true := by
  obtain ⟨hperm, hnd, hsub, hok⟩ := hbi
  have hex : ∃ e ∈ g.edges, canonE e ∉ vis := by
    by_contra hcon
    push_neg at hcon
    have hsub2 : g.edges.map canonE ⊆ vis := by
      intro c hcm
      obtain ⟨e, he, rfl⟩ := List.mem_map.mp hcm
      exact hcon e he
    have hle := (hwf.2.2.subperm hsub2).length_le
    rw [List.length_map] at hle
    omega
  obtain ⟨e, he, hnv⟩ := hex
  obtain ⟨s1, hs1, ha1⟩ : ∃ s ∈ tour, s.a = x0 := by
    cases ht : tour with
    | nil => exact absurd ht htne
    | cons s r =>
      rw [ht] at hch
      exact ⟨s, List.mem_cons_self s r, hch.1⟩
  have hty : Touched tour x0 := ⟨s1, hs1, .inl ha1.symm⟩
  have hx0n : x0 ∈ g.nodes := by
    rw [← ha1]
    exact (segOK_endpoints hwf (hok s1 hs1)).1
  have heun : e.u ∈ g.nodes := (hwf.2.1 e he).1
  have hpath : EPath g x0 e.u := connectedB_EPath hconn hx0n heun
  have hTv : ∀ c ∈ vis, c ∈ tour.map canonSeg := fun c hc => hperm.mem_iff.mpr hc
  rcases epath_progress hwf hTv hpath hty with htz | ⟨w, hw, hu⟩
  · refine ⟨e.u, Chained_touched_mem hch hl htz, ?_⟩
    rw [has_unused_edges_iff hwf]
    exact ⟨e, he, by unfold incid; simp, hnv⟩
  · exact ⟨w, Chained_touched_mem hch hl hw, hu⟩

theorem spliceAt_perm (tour sub : List Seg) (idx : Nat) :
    (spliceAt tour sub idx).Perm (tour ++ sub) := by
  unfold spliceAt
  by_cases hige : idx ≥ tour.length
  · rw [if_pos hige]
  · rw [if_neg hige]
    have h2 : (tour.take idx ++ (sub ++ tour.drop idx)).Perm
        (tour.take idx ++ (tour.drop idx ++ sub)) :=
      List.Perm.append_left _ List.perm_append_comm
    have h3 : tour.take idx ++ (tour.drop idx ++ sub)
        = tour.take idx ++ tour.drop idx ++ sub := by rw [List.append_assoc]
    have h4 : tour.take idx ++ tour.drop idx ++ sub = tour ++ sub := by
      rw [List.take_append_drop]
    rw [List.append_assoc, ← h4, ← h3]
    exact h2

theorem spliceLoop_main {g : MG} (hwf : WFG g) (hgood : chainsGoodB g = true)
    (hconn : connectedB g = true) {x0 : Pix} :
    ∀ (fuel : Nat) (tour : List Seg) (vis : List (Pix × Pix × Nat)),
      BasicInv g tour vis → ParityInv g vis → Chained x0 tour → tour ≠ [] →
      (unvisCanons g vis).length < fuel →
      ∃ tour' vis', spliceLoop g fuel tour vis = .done tour' vis' ∧
        BasicInv g tour' vis' ∧ g.edges.length ≤ vis'.length := by
  intro fuel
  induction fuel with
  | zero => intro tour vis _ _ _ _ hf; omega
  | succ f ih =>
    intro tour vis hbi hpar hch htne hf
    obtain ⟨hperm, hnd, hsubv, hok⟩ := hbi
    by_cases hvl : vis.length < g.edges.length
    · cases hl : tour.getLast? with
      | none => exact absurd (List.getLast?_eq_none_iff.mp hl) htne
      | some last =>
        obtain ⟨n0, hn0mem, hn0u⟩ :=
          splice_progress hwf hconn ⟨hperm, hnd, hsubv, hok⟩ hch htne hvl hl
        cases hscan : scanCands g vis (spliceCandidates tour last) with
        | none =>
          exact absurd (scanCands_none hscan n0 hn0mem) (by simp [hn0u])
        | some p =>
          obtain ⟨idx, n⟩ := p
          obtain ⟨hidxlt, hidxget, hnu⟩ := scanCands_some hscan
          obtain ⟨hnn, hwo⟩ := has_unused_mem_nodes hnu
          obtain ⟨sub, vis2, hgw, hv2, hchs, hoks, hnds, hfrs, hemp⟩ :=
            greedy_walk_spec hgood (g.edges.length + 1) n none vis
          have hsubne : sub ≠ [] := by
            intro hc
            rcases hemp hc with h | h | h
            · omega
            · exact h hnn
            · exact hwo h
          have hse : sub.isEmpty = false := by
            cases hs : sub with
            | nil => exact absurd hs hsubne
            | cons a r => rfl
          have hred : spliceLoop g (f + 1) tour vis
              = spliceLoop g f (spliceAt tour sub idx) vis2 := by
            rw [spliceLoop_succ_red, if_pos hvl]
            simp only [hl]
            simp only [hscan]
            simp only [hgw]
            simp only [hse]
            rfl
          have hmnode : endOf n sub ∈ g.nodes := by
            cases hls : sub.getLast? with
            | none => exact absurd (List.getLast?_eq_none_iff.mp hls) hsubne
            | some sl =>
              rw [Chained_endOf_last hchs hls]
              exact (segOK_endpoints hwf
                (hoks sl (List.mem_of_mem_getLast? hls))).2
          have hstuck := greedy_walk_stuck (g.edges.length + 1) n none vis sub
            vis2 hgw (lt_of_le_of_lt (unvisCanons_le g vis) (Nat.lt_succ_self _))
          have hwo2 : walkOptions g vis2 (endOf n sub) = [] := by
            rcases hstuck with h | h
            · exact absurd hmnode h
            · exact h
          have hrd0 : remDeg g vis2 (endOf n sub) = 0 :=
            remDeg_zero_of_no_options hwo2
          have hwalkM := remDeg_walk hwf.2.2 sub vis (endOf n sub) hoks hfrs hnds
          rw [← hv2] at hwalkM
          have hparM := hpar (endOf n sub)
          have hspM : segDeg sub (endOf n sub) % 2 =
              ((if endOf n sub = n then 1 else 0)
                + (if endOf n sub = endOf n sub then 1 else 0)) % 2 :=
            segDeg_parity hchs
          have hclose : endOf n sub = n := by
            by_cases hmn : endOf n sub = n
            · exact hmn
            · exfalso
              rw [if_neg hmn, if_pos rfl] at hspM
              omega
          have hpar2 : ParityInv g vis2 := by
            intro x
            have hwx := remDeg_walk hwf.2.2 sub vis x hoks hfrs hnds
            rw [← hv2] at hwx
            have hspx : segDeg sub x % 2 =
                ((if x = n then 1 else 0)
                  + (if x = endOf n sub then 1 else 0)) % 2 :=
              segDeg_parity hchs
            rw [hclose] at hspx
            have hpx := hpar x
            by_cases hxn : x = n
            · rw [if_pos hxn] at hspx
              omega
            · rw [if_neg hxn] at hspx
              omega
          have hchT : Chained x0 (spliceAt tour sub idx) := by
            by_cases hige : idx ≥ tour.length
            · have hclen : (spliceCandidates tour last).length = tour.length + 1 := by
                simp [spliceCandidates]
              have hidxeq : idx = tour.length := by omega
              have hn : n = last.b := by
                have hg : (spliceCandidates tour last).get? idx = some last.b := by
                  unfold spliceCandidates
                  rw [List.get?_append_right (by simp [hidxeq])]
                  simp [hidxeq]
                rw [hg] at hidxget
                injection hidxget with h
                exact h.symm
              unfold spliceAt
              rw [if_pos hige, Chained_append]
              refine ⟨hch, ?_⟩
              rw [Chained_endOf_last hch hl, ← hn]
              exact hchs
            · push_neg at hige
              have hget : tour.get? idx = some (tour.get ⟨idx, hige⟩) :=
                List.get?_eq_get hige
              have hn : n = (tour.get ⟨idx, hige⟩).a := by
                have hg : (spliceCandidates tour last).get? idx
                    = some ((tour.get ⟨idx, hige⟩).a) := by
                  unfold spliceCandidates
                  rw [List.get?_append (by simpa using hige)]
                  rw [List.get?_map, hget]
                  rfl
                rw [hg] at hidxget
                injection hidxget with h
                exact h.symm
              have hsplit := List.take_append_drop idx tour
              have hchsplit := (Chained_append (tour.take idx) x0
                (tour.drop idx)).mp (by rw [hsplit]; exact hch)
              have hdropeq : tour.drop idx
                  = tour.get ⟨idx, hige⟩ :: tour.drop (idx + 1) :=
                List.drop_eq_get_cons hige
              have hend : endOf x0 (tour.take idx) = n := by
                rw [hn]
                have h2 := hchsplit.2
                rw [hdropeq] at h2
                exact h2.1.symm
              unfold spliceAt
              rw [if_neg (by omega), Chained_append]
              constructor
              · rw [Chained_append]
                exact ⟨hchsplit.1, by rw [hend]; exact hchs⟩
              · rw [endOf_append, hend, hclose, ← hend]
                exact hchsplit.2
          have hpermT := spliceAt_perm tour sub idx
          have hpermC : ((spliceAt tour sub idx).map canonSeg).Perm vis2 := by
            have h1 : ((spliceAt tour sub idx).map canonSeg).Perm
                (tour.map canonSeg ++ sub.map canonSeg) := by
              have h0 := hpermT.map canonSeg
              rwa [List.map_append] at h0
            have h2 : (tour.map canonSeg ++ sub.map canonSeg).Perm
                (vis ++ sub.map canonSeg) := hperm.append_right _
            have h3 : (vis ++ sub.map canonSeg).Perm (sub.map canonSeg ++ vis) :=
              List.perm_append_comm
            have h4 : (sub.map canonSeg ++ vis).Perm
                ((sub.map canonSeg).reverse ++ vis) :=
              ((sub.map canonSeg).reverse_perm.symm).append_right _
            rw [hv2]
            exact ((h1.trans h2).trans h3).trans h4
          have hndC : ((spliceAt tour sub idx).map canonSeg).Nodup := by
            have h1 : ((spliceAt tour sub idx).map canonSeg).Perm
                (tour.map canonSeg ++ sub.map canonSeg) := by
              have h0 := hpermT.map canonSeg
              rwa [List.map_append] at h0
            rw [h1.nodup_iff, List.nodup_append]
            refine ⟨hnd, hnds, ?_⟩
            intro c hc1 hc2
            exact hfrs c hc2 (hperm.mem_iff.mp hc1)
          have hsubv2 : ∀ c ∈ vis2, c ∈ g.edges.map canonE := by
            intro c hc
            rw [hv2] at hc
            rcases List.mem_append.mp hc with h | h
            · rw [List.mem_reverse] at h
              obtain ⟨s, hsm, rfl⟩ := List.mem_map.mp h
              obtain ⟨e, he, hce, _, _⟩ := hoks s hsm
              rw [hce]
              exact List.mem_map_of_mem canonE he
            · exact hsubv c h
          have hokT : ∀ s ∈ spliceAt tour sub idx, SegOK g s := by
            intro s hs
            rcases List.mem_append.mp (hpermT.mem_iff.mp hs) with h | h
            · exact hok s h
            · exact hoks s h
          obtain ⟨s1, hs1⟩ := List.exists_mem_of_ne_nil sub hsubne
          have hc1 : canonSeg s1 ∈ unvisCanons g vis := by
            unfold unvisCanons
            rw [List.mem_filter]
            obtain ⟨e, he, hce, _, _⟩ := hoks s1 hs1
            refine ⟨by rw [hce]; exact List.mem_map_of_mem canonE he, ?_⟩
            simp only [decide_eq_true_eq]
            exact hfrs _ (List.mem_map_of_mem canonSeg hs1)
          have hfuel2 : (unvisCanons g vis2).length < f := by
            have hsh := unvisCanons_shrink_append hc1
              (by rw [List.mem_reverse]; exact List.mem_map_of_mem canonSeg hs1)
            rw [← hv2] at hsh
            omega
          rw [hred]
          exact ih (spliceAt tour sub idx) vis2 ⟨hpermC, hndC, hsubv2, hokT⟩
            hpar2 hchT (spliceAt_ne_nil htne idx) hfuel2
    · refine ⟨tour, vis, ?_, ⟨hperm, hnd, hsubv, hok⟩, by omega⟩
      rw [spliceLoop_succ_red, if_neg hvl]

theorem spliceLoop_noCand {g : MG} (hgood : chainsGoodB g = true) :
    ∀ (fuel : Nat) (tour : List Seg) (vis : List (Pix × Pix × Nat)),
      (∀ s ∈ tour, SegOK g s) →
      ∀ {tour' : List Seg} {vis' : List (Pix × Pix × Nat)},
      spliceLoop g fuel tour vis = .noCandidate tour' vis' →
      (∀ s ∈ tour', SegOK g s) ∧ vis'.length < g.edges.length ∧
      (∀ last, tour'.getLast? = some last →
        ∀ n ∈ spliceCandidates tour' last,
          has_unused_edges g vis' n = false) := by
  intro fuel
  induction fuel with
  | zero =>
    intro tour vis _ tour' vis' hc
    unfold spliceLoop at hc
    by_cases hvl : vis.length < g.edges.length
    · rw [if_pos hvl] at hc; cases hc
    · rw [if_neg hvl] at hc; cases hc
  | succ f ih =>
    intro tour vis hok tour' vis' hc
    rw [spliceLoop_succ_red] at hc
    by_cases hvl : vis.length < g.edges.length
    · rw [if_pos hvl] at hc
      cases hl : tour.getLast? with
      | none => simp only [hl] at hc; cases hc
      | some last =>
        simp only [hl] at hc
        cases hscan : scanCands g vis (spliceCandidates tour last) with
        | none =>
          simp only [hscan] at hc
          injection hc with h1 h2
          subst h1
          subst h2
          refine ⟨hok, hvl, ?_⟩
          intro last' hl' nn hnn
          rw [hl] at hl'
          injection hl' with h3
          subst h3
          exact scanCands_none hscan nn hnn
        | some p =>
          obtain ⟨idx, n⟩ := p
          simp only [hscan] at hc
          cases hgw : greedy_walk g (g.edges.length + 1) n none vis with
          | none => simp only [hgw] at hc; cases hc
          | some sv =>
            obtain ⟨sub, vis2⟩ := sv
            simp only [hgw] at hc
            cases hse : sub.isEmpty with
            | true => simp only [hse] at hc; cases hc
            | false =>
              simp only [hse] at hc
              obtain ⟨sub', vis2', hgw', _, _, hoks', _, _, _⟩ :=
                greedy_walk_spec hgood (g.edges.length + 1) n none vis
              rw [hgw] at hgw'
              injection hgw' with h5
              injection h5 with h6 h7
              subst h6
              subst h7
              have hokT : ∀ s ∈ spliceAt tour sub idx, SegOK g s := by
                intro s hs
                rcases List.mem_append.mp
                    ((spliceAt_perm tour sub idx).mem_iff.mp hs) with h | h
                · exact hok s h
                · exact hoks' s h
              exact ih (spliceAt tour sub idx) vis2 hokT hc
    · rw [if_neg hvl] at hc; cases hc

theorem startNodeOf_mem {g : MG} {s : Pix} (h : startNodeOf g = some s) :
    s ∈ g.nodes := by
  unfold startNodeOf at h
  cases hf : g.nodes.filter (fun v => degree g v % 2 = 1) with
  | nil =>
    simp only [hf] at h
    exact List.mem_of_mem_head? h
  | cons o r =>
    simp only [hf] at h
    injection h with h1
    subst h1
    have hm : o ∈ g.nodes.filter (fun v => degree g v % 2 = 1) := by
      rw [hf]
      exact List.mem_cons_self _ _
    exact (List.mem_filter.mp hm).1

theorem initial_state_inv {g : MG} (hwf : WFG g) (hgood : chainsGoodB g = true)
    (hconn : connectedB g = true) (hene : g.edges ≠ [])
    {s0 : Pix} (hs0 : startNodeOf g = some s0)
    (hodd : (count_odd_nodes g).1 = 0 ∨ (count_odd_nodes g).1 = 2) :
    ∃ tour vis, greedy_walk g (g.edges.length + 1) s0 none [] = some (tour, vis) ∧
      tour ≠ [] ∧ BasicInv g tour vis ∧ ParityInv g vis ∧ Chained s0 tour := by
  obtain ⟨tour, vis, hgw, hv, hch, hoks, hnds, hfrs, hemp⟩ :=
    greedy_walk_spec hgood (g.edges.length + 1) s0 none []
  have hs0n : s0 ∈ g.nodes := startNodeOf_mem hs0
  obtain ⟨e0, he0⟩ := List.exists_mem_of_ne_nil g.edges hene
  have hdeg : 0 < degree g s0 := connected_degree_pos hwf hconn hs0n he0
  have hwo : walkOptions g [] s0 ≠ [] := by
    have hex : ∃ e ∈ g.edges, incid e s0 = true := by
      by_contra hcon
      push_neg at hcon
      have hdz : degree g s0 = 0 := by
        unfold degree
        apply List.sum_eq_zero
        intro m hm
        obtain ⟨e, he, rfl⟩ := List.mem_map.mp hm
        have hni := hcon e he
        have hnp : ¬ 0 < contrib e s0 := fun hp => hni (contrib_pos_iff.mp hp)
        omega
      omega
    obtain ⟨e, he, hi⟩ := hex
    intro hnil
    have hmem := walkOptions_mem_rev he hi (List.not_mem_nil _)
    rw [hnil] at hmem
    cases hmem
  have htne : tour ≠ [] := by
    intro hc
    rcases hemp hc with h | h | h
    · omega
    · exact h hs0n
    · exact hwo h
  have hbi : BasicInv g tour vis := by
    refine ⟨?_, hnds, ?_, hoks⟩
    · rw [hv, List.append_nil]
      exact ((tour.map canonSeg).reverse_perm).symm
    · intro c hc
      rw [hv, List.append_nil, List.mem_reverse] at hc
      obtain ⟨s, hsm, rfl⟩ := List.mem_map.mp hc
      obtain ⟨e, he, hce, _, _⟩ := hoks s hsm
      rw [hce]
      exact List.mem_map_of_mem canonE he
  have hmnode : endOf s0 tour ∈ g.nodes := by
    cases hls : tour.getLast? with
    | none => exact absurd (List.getLast?_eq_none_iff.mp hls) htne
    | some sl =>
      rw [Chained_endOf_last hch hls]
      exact (segOK_endpoints hwf (hoks sl (List.mem_of_mem_getLast? hls))).2
  have hstuck := greedy_walk_stuck (g.edges.length + 1) s0 none [] tour vis hgw
    (lt_of_le_of_lt (unvisCanons_le g []) (Nat.lt_succ_self _))
  have hwo2 : walkOptions g vis (endOf s0 tour) = [] := by
    rcases hstuck with h | h
    · exact absurd hmnode h
    · exact h
  have hrd0 : remDeg g vis (endOf s0 tour) = 0 := remDeg_zero_of_no_options hwo2
  have hwalk : ∀ x, remDeg g vis x + segDeg tour x = degree g x := by
    intro x
    have hwx := remDeg_walk hwf.2.2 tour [] x hoks hfrs hnds
    rw [← hv, remDeg_nil] at hwx
    exact hwx
  have hspM : segDeg tour (endOf s0 tour) % 2 =
      ((if endOf s0 tour = s0 then 1 else 0) + 1) % 2 := by
    have h : segDeg tour (endOf s0 tour) % 2 =
        ((if endOf s0 tour = s0 then 1 else 0)
          + (if endOf s0 tour = endOf s0 tour then 1 else 0)) % 2 :=
      segDeg_parity hch
    rwa [if_pos rfl] at h
  have hwalkM := hwalk (endOf s0 tour)
  have hpar : ParityInv g vis := by
    rcases hodd with hzero | htwo
    · -- circuit case: every node has even degree, so the walk closes at s0
      have hfnil : g.nodes.filter (fun v => degree g v % 2 = 1) = [] := by
        unfold count_odd_nodes at hzero
        exact List.length_eq_zero.mp hzero
      have hev : ∀ x ∈ g.nodes, degree g x % 2 = 0 := by
        intro x hx
        have := List.filter_eq_nil_iff.mp hfnil x hx
        simp only [decide_eq_true_eq] at this
        omega
      have hMev : degree g (endOf s0 tour) % 2 = 0 := hev _ hmnode
      have hMs0 : endOf s0 tour = s0 := by
        by_cases hmn : endOf s0 tour = s0
        · exact hmn
        · exfalso
          rw [if_neg hmn] at hspM
          omega
      intro x
      have hwx := hwalk x
      have hspx : segDeg tour x % 2 =
          ((if x = s0 then 1 else 0) + (if x = endOf s0 tour then 1 else 0)) % 2 :=
        segDeg_parity hch
      rw [hMs0] at hspx
      by_cases hxn : x ∈ g.nodes
      · have hdx := hev x hxn
        by_cases hxs : x = s0
        · rw [if_pos hxs] at hspx
          omega
        · rw [if_neg hxs] at hspx
          omega
      · rw [remDeg_not_node hwf hxn]
    · -- path case: the walk runs from the first odd node to the second
      have hflen : (g.nodes.filter (fun v => degree g v % 2 = 1)).length = 2 := by
        have := htwo
        unfold count_odd_nodes at this
        simpa using this
      obtain ⟨o1, o2, hfl⟩ : ∃ o1 o2,
          g.nodes.filter (fun v => degree g v % 2 = 1) = [o1, o2] := by
        cases hf : g.nodes.filter (fun v => degree g v % 2 = 1) with
        | nil => rw [hf] at hflen; simp at hflen
        | cons a r =>
          cases hr : r with
          | nil => rw [hf, hr] at hflen; simp at hflen
          | cons b r2 =>
            cases hr2 : r2 with
            | nil => exact ⟨a, b, rfl⟩
            | cons c r3 => rw [hf, hr, hr2] at hflen; simp at hflen
      have hs0o1 : s0 = o1 := by
        unfold startNodeOf at hs0
        simp only [hfl] at hs0
        injection hs0 with h1
        exact h1.symm
      have ho1 : o1 ∈ g.nodes ∧ degree g o1 % 2 = 1 := by
        have hm : o1 ∈ g.nodes.filter (fun v => degree g v % 2 = 1) := by
          rw [hfl]; simp
        obtain ⟨h1, h2⟩ := List.mem_filter.mp hm
        simp only [decide_eq_true_eq] at h2
        exact ⟨h1, h2⟩
      have ho2 : o2 ∈ g.nodes ∧ degree g o2 % 2 = 1 := by
        have hm : o2 ∈ g.nodes.filter (fun v => degree g v % 2 = 1) := by
          rw [hfl]; simp
        obtain ⟨h1, h2⟩ := List.mem_filter.mp hm
        simp only [decide_eq_true_eq] at h2
        exact ⟨h1, h2⟩
      have hoddiff : ∀ x ∈ g.nodes, degree g x % 2 = 1 → x = o1 ∨ x = o2 := by
        intro x hx hdx
        have hm : x ∈ g.nodes.filter (fun v => degree g v % 2 = 1) := by
          rw [List.mem_filter]
          exact ⟨hx, by simp [hdx]⟩
        rw [hfl] at hm
        simpa using hm
      have hMne : endOf s0 tour ≠ s0 := by
        intro hmn
        rw [if_pos hmn] at hspM
        have hds0 : degree g s0 % 2 = 1 := by rw [hs0o1]; exact ho1.2
        rw [hmn] at hwalkM hspM
        have hrds0 : remDeg g vis s0 = 0 := by rw [← hmn]; exact hrd0
        omega
      have hMo2 : endOf s0 tour = o2 := by
        rw [if_neg hMne] at hspM
        have hdM : degree g (endOf s0 tour) % 2 = 1 := by omega
        rcases hoddiff _ hmnode hdM with h | h
        · exact absurd (h.trans hs0o1.symm) hMne
        · exact h
      intro x
      have hwx := hwalk x
      have hspx : segDeg tour x % 2 =
          ((if x = s0 then 1 else 0) + (if x = endOf s0 tour then 1 else 0)) % 2 :=
        segDeg_parity hch
      rw [hMo2] at hspx
      by_cases hxn : x ∈ g.nodes
      · by_cases hx1 : x = s0
        · have hds0 : degree g x % 2 = 1 := by rw [hx1, hs0o1]; exact ho1.2
          have hxo2 : x ≠ o2 := by
            intro hc
            exact hMne (hMo2.trans (hc.symm.trans hx1))
          rw [if_pos hx1, if_neg hxo2] at hspx
          omega
        · by_cases hx2 : x = o2
          · have hdo2 : degree g x % 2 = 1 := by rw [hx2]; exact ho2.2
            rw [if_neg hx1, if_pos hx2] at hspx
            omega
          · have hdev : degree g x % 2 = 0 := by
              by_cases hdx : degree g x % 2 = 1
              · rcases hoddiff x hxn hdx with h | h
                · exact absurd (h.trans hs0o1.symm) hx1
                · exact absurd h hx2
              · omega
            rw [if_neg hx1, if_neg hx2] at hspx
            omega
      · rw [remDeg_not_node hwf hxn]
  exact ⟨tour, vis, hgw, htne, hbi, hpar, hch⟩

theorem walkOptions_nil_of_deg_pos {g : MG} {x : Pix} (hdeg : 0 < degree g x) :
    walkOptions g [] x ≠ [] := by
  have hex : ∃ e ∈ g.edges, incid e x = true := by
    by_contra hcon
    push_neg at hcon
    have hdz : degree g x = 0 := by
      unfold degree
      apply List.sum_eq_zero
      intro m hm
      obtain ⟨e, he, rfl⟩ := List.mem_map.mp hm
      have hni := hcon e he
      have hnp : ¬ 0 < contrib e x := fun hp => hni (contrib_pos_iff.mp hp)
      omega
    omega
  obtain ⟨e, he, hi⟩ := hex
  intro hnil
  have hmem := walkOptions_mem_rev he hi (List.not_mem_nil _)
  rw [hnil] at hmem
  cases hmem

/-- C1: for every well-formed, connected, Eulerian or semi-Eulerian
multigraph (zero or two odd-degree nodes) with at least one edge, the
Angular Walker's splice loop terminates normally, the canonical edge
identities of its tour segments form a permutation of — a bijection onto —
the graph's canonical edge identities (each edge is walked exactly once),
and the assembled pixel sequence it returns has length at least the number
of edges. -/
theorem find_path_eulerian_cover {g : MG} (hwf : WFG g)
    (hgood : chainsGoodB g = true) (hconn : connectedB g = true)
    (hene : g.edges ≠ [])
    (hodd : (count_odd_nodes g).1 = 0 ∨ (count_odd_nodes g).1 = 2) :
    ∃ tour vis p, findPathCore g = .done tour vis ∧
      (tour.map canonSeg).Perm (g.edges.map canonE) ∧
      find_path g = some p ∧ g.edges.length ≤ p.length := by
  have hnodes : g.nodes ≠ [] := by
    obtain ⟨e0, he0⟩ := List.exists_mem_of_ne_nil g.edges hene
    intro hc
    have hm := (hwf.2.1 e0 he0).1
    rw [hc] at hm
    cases hm
  obtain ⟨s0, hs0⟩ : ∃ s0, startNodeOf g = some s0 := by
    unfold startNodeOf
    cases hf : g.nodes.filter (fun v => degree g v % 2 = 1) with
    | nil =>
      cases hn : g.nodes with
      | nil => exact absurd hn hnodes
      | cons a r => exact ⟨a, rfl⟩
    | cons o r => exact ⟨o, rfl⟩
  obtain ⟨tour0, vis0, hgw, htne, hbi, hpar, hch⟩ :=
    initial_state_inv hwf hgood hconn hene hs0 hodd
  have hfu : (unvisCanons g vis0).length < g.edges.length + 1 :=
    lt_of_le_of_lt (unvisCanons_le g vis0) (Nat.lt_succ_self _)
  obtain ⟨tour, vis, hloop, hbi', hlen⟩ :=
    spliceLoop_main hwf hgood hconn (g.edges.length + 1) tour0 vis0 hbi hpar
      hch htne hfu
  obtain ⟨hperm, hnd, hsubv, hok⟩ := hbi'
  have hvnd : vis.Nodup := (hperm.nodup_iff).mp hnd
  have hsubp : vis.Subperm (g.edges.map canonE) := hvnd.subperm hsubv
  have hpermE : vis.Perm (g.edges.map canonE) :=
    hsubp.perm_of_length_le (by rw [List.length_map]; exact hlen)
  have hcover : (tour.map canonSeg).Perm (g.edges.map canonE) :=
    hperm.trans hpermE
  have hcore : findPathCore g = .done tour vis := by
    unfold findPathCore
    simp only [hs0]
    simp only [hgw]
    exact hloop
  obtain ⟨p, hp, hplen⟩ := assembleTour_spec
    (fun s hs => segOK_len hgood (hok s hs))
  have htlen : tour.length = g.edges.length := by
    have h1 := hcover.length_eq
    rw [List.length_map, List.length_map] at h1
    exact h1
  refine ⟨tour, vis, p, hcore, hcover, ?_, by omega⟩
  unfold find_path
  simp only [hcore]
  exact hp

theorem find_path_eulerian_cover_witness :
    ∃ tour vis p, findPathCore exTri = .done tour vis ∧
      (tour.map canonSeg).Perm (exTri.edges.map canonE) ∧
      find_path exTri = some p ∧ exTri.edges.length ≤ p.length :=
  find_path_eulerian_cover (by decide) (by decide) (by decide) (by decide)
    (.inl (by decide))

/-- C8: whenever the splice loop ends in the `noCandidate` state — it
scanned every segment start node plus the last segment's end node and none
had an unused incident edge although unvisited edges remain — `find_path`
does not raise: unvisited edges indeed remain, every scanned candidate
reports no unused edges, and the function returns the pixel path assembled
from the partial tour. -/
theorem find_path_noCandidate_stops {g : MG} (hgood : chainsGoodB g = true)
    {tour : List Seg} {vis : List (Pix × Pix × Nat)}
    (h : findPathCore g = .noCandidate tour vis) :
    vis.length < g.edges.length ∧
    (∀ last, tour.getLast? = some last →
      ∀ n ∈ spliceCandidates tour last, has_unused_edges g vis n = false) ∧
    ∃ p, find_path g = some p := by
  have hcore := h
  unfold findPathCore at h
  cases hs0 : startNodeOf g with
  | none => simp only [hs0] at h; cases h
  | some s0 =>
    simp only [hs0] at h
    cases hgw : greedy_walk g (g.edges.length + 1) s0 none [] with
    | none => simp only [hgw] at h; cases h
    | some tv =>
      obtain ⟨tour0, vis0⟩ := tv
      simp only [hgw] at h
      obtain ⟨tour0', vis0', hgw', _, _, hoks0, _, _, _⟩ :=
        greedy_walk_spec hgood (g.edges.length + 1) s0 none []
      rw [hgw] at hgw'
      injection hgw' with h5
      injection h5 with h6 h7
      subst h6
      subst h7
      obtain ⟨hok', hlt, hscan⟩ := spliceLoop_noCand hgood
        (g.edges.length + 1) tour0 vis0 hoks0 h
      refine ⟨hlt, hscan, ?_⟩
      obtain ⟨p, hp, _⟩ := assembleTour_spec
        (fun s hs => segOK_len hgood (hok' s hs))
      refine ⟨p, ?_⟩
      unfold find_path
      simp only [hcore]
      exact hp

theorem find_path_noCandidate_stops_witness :
    ∃ p, find_path exTri2 = some p := by
  have h := @find_path_noCandidate_stops exTri2 (by decide)
    [⟨(0, 0), (0, 2), 0, [(0, 0), (0, 1), (0, 2)]⟩,
     ⟨(0, 2), (2, 0), 0, [(0, 2), (1, 1), (2, 0)]⟩,
     ⟨(2, 0), (0, 0), 0, [(2, 0), (1, 0), (0, 0)]⟩]
    [((0, 0), (2, 0), 0), ((0, 2), (2, 0), 0), ((0, 0), (0, 2), 0)]
    (by decide)
  exact h.2.2

/-- C10: whenever the start node `find_path` selects has an incident edge —
in particular on every well-formed connected graph with at least one edge —
the initial greedy walk returns a non-empty tour and the splice loop's
`tour[-1]` access never hits an empty tour; conversely on `exIso`, a graph
with edges whose selected start node is isolated, the initial tour is empty,
the `tour[-1]` access raises, and `find_path` fails instead of returning a
partial path. -/
theorem find_path_start_safety :
    (∀ (g : MG), WFG g → chainsGoodB g = true →
      ∀ s0, startNodeOf g = some s0 →
      (0 < degree g s0 ∨ (connectedB g = true ∧ g.edges ≠ [])) →
      ∃ tour vis,
        greedy_walk g (g.edges.length + 1) s0 none [] = some (tour, vis) ∧
        tour ≠ [] ∧ findPathCore g ≠ .emptyTourCrash) ∧
    (exIso.edges ≠ [] ∧ findPathCore exIso = .emptyTourCrash ∧
      find_path exIso = none) := by
  constructor
  · intro g hwf hgood s0 hs0 hd
    have hs0n : s0 ∈ g.nodes := startNodeOf_mem hs0
    have hdeg : 0 < degree g s0 := by
      rcases hd with h | ⟨hconn, hene⟩
      · exact h
      · obtain ⟨e0, he0⟩ := List.exists_mem_of_ne_nil g.edges hene
        exact connected_degree_pos hwf hconn hs0n he0
    obtain ⟨tour, vis, hgw, hv, hch, hoks, hnds, hfrs, hemp⟩ :=
      greedy_walk_spec hgood (g.edges.length + 1) s0 none []
    have hwo : walkOptions g [] s0 ≠ [] := walkOptions_nil_of_deg_pos hdeg
    have htne : tour ≠ [] := by
      intro hc
      rcases hemp hc with h | h | h
      · omega
      · exact h hs0n
      · exact hwo h
    refine ⟨tour, vis, hgw, htne, ?_⟩
    unfold findPathCore
    simp only [hs0]
    simp only [hgw]
    exact spliceLoop_ne_crash (g.edges.length + 1) tour vis htne
  · exact ⟨by decide, by decide, by decide⟩

/-! ## Graph-builder tracing: chain bookkeeping (claims C5 and C9) -/

theorem traceWalk_succ_red (m : Mask) (allN : List Pix) (fuel : Nat)
    (prev cur : Pix) (path vis : List Pix) :
    traceWalk m allN (fuel + 1) prev cur path vis =
      (if cur ∈ allN then (path, cur, vis)
      else
        match (get_neighbors m cur).filter (fun n => n ≠ prev) with
        | [] => (path, cur, cur :: vis)
        | nxt :: _ => traceWalk m allN fuel cur nxt (path ++ [nxt]) (cur :: vis)) :=
  rfl

theorem mem_interior_of_get {c : List Pix} {i : Nat} {y : Pix}
    (h1 : 1 ≤ i) (h2 : i + 1 < c.length) (hg : c.get? i = some y) :
    y ∈ c.tail.dropLast := by
  cases c with
  | nil => cases hg
  | cons a t =>
    cases i with
    | zero => omega
    | succ j =>
      simp only [List.length_cons] at h2
      have hgt : t.get? j = some y := hg
      show y ∈ t.dropLast
      rw [List.dropLast_eq_take]
      have hj : j < t.length - 1 := by omega
      exact List.get?_mem (by rw [List.get?_take hj]; exact hgt)

theorem traceWalk_spec (m : Mask) (allN : List Pix) :
    ∀ (fuel : Nat) (prev cur : Pix) (path vis : List Pix),
      path.getLast? = some cur →
      (∀ x ∈ path.tail.dropLast, x ∈ vis) →
      ∃ suf,
        (traceWalk m allN fuel prev cur path vis).1 = path ++ suf ∧
        (traceWalk m allN fuel prev cur path vis).1.getLast?
          = some (traceWalk m allN fuel prev cur path vis).2.1 ∧
        (∀ x ∈ vis, x ∈ (traceWalk m allN fuel prev cur path vis).2.2) ∧
        (∀ x ∈ (traceWalk m allN fuel prev cur path vis).1.tail.dropLast,
          x ∈ (traceWalk m allN fuel prev cur path vis).2.2) := by
  intro fuel
  induction fuel with
  | zero =>
    intro prev cur path vis hlast hint
    exact ⟨[], (List.append_nil path).symm, hlast, fun x h => h, hint⟩
  | succ f ih =>
    intro prev cur path vis hlast hint
    rw [traceWalk_succ_red]
    by_cases hcn : cur ∈ allN
    · rw [if_pos hcn]
      exact ⟨[], by rw [List.append_nil], hlast, fun x h => h, hint⟩
    · rw [if_neg hcn]
      cases hnb : (get_neighbors m cur).filter (fun n => n ≠ prev) with
      | nil =>
        exact ⟨[], by rw [List.append_nil], hlast,
          fun x h => List.mem_cons_of_mem _ h,
          fun x h => List.mem_cons_of_mem _ (hint x h)⟩
      | cons nxt t =>
        have hlast2 : (path ++ [nxt]).getLast? = some nxt := List.getLast?_concat _
        have hint2 : ∀ x ∈ (path ++ [nxt]).tail.dropLast, x ∈ cur :: vis := by
          intro x hx
          cases hp : path with
          | nil => rw [hp] at hlast; cases hlast
          | cons p0 pr =>
            rw [hp, List.cons_append] at hx
            simp only [List.tail_cons] at hx
            rw [List.dropLast_concat] at hx
            by_cases hpr : pr = []
            · rw [hpr] at hx; cases hx
            · have hdec := List.dropLast_append_getLast hpr
              rw [← hdec] at hx
              rcases List.mem_append.mp hx with h1 | h1
              · refine List.mem_cons_of_mem _ (hint x ?_)
                rw [hp]
                simpa using h1
              · have hpl : pr.getLast? = some cur := by
                  cases hq : pr with
                  | nil => exact absurd hq hpr
                  | cons q qr =>
                    have hl2 := hlast
                    rw [hp, hq, List.getLast?_cons_cons] at hl2
                    exact hl2
                rw [List.getLast?_eq_getLast pr hpr] at hpl
                injection hpl with h4
                simp only [List.mem_singleton] at h1
                rw [h1, h4]
                exact List.mem_cons_self _ _
        obtain ⟨suf, h1, h2, h3, h4⟩ := ih cur nxt (path ++ [nxt]) (cur :: vis)
          hlast2 hint2
        refine ⟨[nxt] ++ suf, ?_, h2, ?_, h4⟩
        · rw [← List.append_assoc]
          exact h1
        · intro x hx
          exact h3 x (List.mem_cons_of_mem _ hx)

theorem processPair_skip (m : Mask) (allN : List Pix) (st : BState)
    (pr : Pix × Pix) (h : pr.2 ∈ st.vis) : processPair m allN st pr = st := by
  unfold processPair
  rw [if_pos h]

theorem processPair_go (m : Mask) (allN : List Pix) (st : BState)
    (pr : Pix × Pix) (h : pr.2 ∉ st.vis) :
    processPair m allN st pr =
      (if (traceWalk m allN (buildFuel m) pr.1 pr.2 [pr.1, pr.2] st.vis).2.1
          ∈ allN then
        { vis := (traceWalk m allN (buildFuel m) pr.1 pr.2 [pr.1, pr.2] st.vis).2.2,
          g := nxAddEdge st.g pr.1
            (traceWalk m allN (buildFuel m) pr.1 pr.2 [pr.1, pr.2] st.vis).2.1
            ⟨some (((traceWalk m allN (buildFuel m) pr.1 pr.2 [pr.1, pr.2]
                st.vis).1.length : Int)),
              some (traceWalk m allN (buildFuel m) pr.1 pr.2 [pr.1, pr.2]
                st.vis).1, none⟩ }
      else { st with
        vis := (traceWalk m allN (buildFuel m) pr.1 pr.2 [pr.1, pr.2]
          st.vis).2.2 }) := by
  unfold processPair
  rw [if_neg h]

theorem processPair_chains (m : Mask) (allN : List Pix) (st : BState)
    (pr : Pix × Pix)
    (hCh : ∀ e ∈ st.g.edges, ∃ c, e.data.chain = some c ∧
      e.data.weight = some (c.length : Int) ∧ 2 ≤ c.length ∧
      (∀ x ∈ c.tail.dropLast, x ∈ st.vis))
    (hPw : st.g.edges.Pairwise (fun e1 e2 => ∀ c1 c2,
      e1.data.chain = some c1 → e2.data.chain = some c2 →
      3 ≤ c1.length → 3 ≤ c2.length → c1 ≠ c2 ∧ c1 ≠ c2.reverse)) :
    (∀ e ∈ (processPair m allN st pr).g.edges, ∃ c, e.data.chain = some c ∧
      e.data.weight = some (c.length : Int) ∧ 2 ≤ c.length ∧
      (∀ x ∈ c.tail.dropLast, x ∈ (processPair m allN st pr).vis)) ∧
    (processPair m allN st pr).g.edges.Pairwise (fun e1 e2 => ∀ c1 c2,
      e1.data.chain = some c1 → e2.data.chain = some c2 →
      3 ≤ c1.length → 3 ≤ c2.length → c1 ≠ c2 ∧ c1 ≠ c2.reverse) := by
  by_cases hv : pr.2 ∈ st.vis
  · rw [processPair_skip m allN st pr hv]
    exact ⟨hCh, hPw⟩
  · rw [processPair_go m allN st pr hv]
    obtain ⟨suf, hT1, hT2, hT3, hT4⟩ := traceWalk_spec m allN (buildFuel m)
      pr.1 pr.2 [pr.1, pr.2] st.vis rfl (by intro x hx; cases hx)
    by_cases hend :
        (traceWalk m allN (buildFuel m) pr.1 pr.2 [pr.1, pr.2] st.vis).2.1 ∈ allN
    · rw [if_pos hend]
      simp only
      constructor
      · intro e he
        rw [nxAddEdge_edges] at he
        rcases List.mem_append.mp he with hold | hnew
        · obtain ⟨c, hc1, hc2, hc3, hc4⟩ := hCh e hold
          exact ⟨c, hc1, hc2, hc3, fun x hx => hT3 x (hc4 x hx)⟩
        · simp only [List.mem_singleton] at hnew
          subst hnew
          refine ⟨(traceWalk m allN (buildFuel m) pr.1 pr.2 [pr.1, pr.2]
            st.vis).1, rfl, rfl, ?_, hT4⟩
          rw [hT1]
          simp
      · rw [nxAddEdge_edges, List.pairwise_append]
        refine ⟨hPw, List.pairwise_singleton _ _, ?_⟩
        intro e1 he1 e2 he2
        simp only [List.mem_singleton] at he2
        subst he2
        intro c1 c2 hc1 hc2 h31 h32
        obtain ⟨c1', hc1', _, _, hint1⟩ := hCh e1 he1
        rw [hc1] at hc1'
        injection hc1' with hceq
        subst hceq
        have hc2eq : c2 = (traceWalk m allN (buildFuel m) pr.1 pr.2
            [pr.1, pr.2] st.vis).1 := by
          simp only at hc2
          injection hc2 with h
          exact h.symm
        have hg1 : c2.get? 1 = some pr.2 := by
          rw [hc2eq, hT1]
          rw [List.get?_append (by simp)]
          rfl
        constructor
        · intro hceq2
          rw [← hceq2] at hg1
          have hmem := mem_interior_of_get (by omega) (by omega) hg1
          exact hv (hint1 _ hmem)
        · intro hceq2
          have hrev : c2 = c1.reverse := by
            rw [hceq2, List.reverse_reverse]
          rw [hrev] at hg1
          rw [List.get?_reverse (by omega)] at hg1
          have hmem := mem_interior_of_get (by omega) (by omega) hg1
          exact hv (hint1 _ hmem)
    · rw [if_neg hend]
      simp only
      constructor
      · intro e he
        obtain ⟨c, hc1, hc2, hc3, hc4⟩ := hCh e he
        exact ⟨c, hc1, hc2, hc3, fun x hx => hT3 x (hc4 x hx)⟩
      · exact hPw

theorem builder_fold_chains (m : Mask) (allN : List Pix) :
    ∀ (prs : List (Pix × Pix)) (st : BState),
      (∀ e ∈ st.g.edges, ∃ c, e.data.chain = some c ∧
        e.data.weight = some (c.length : Int) ∧ 2 ≤ c.length ∧
        (∀ x ∈ c.tail.dropLast, x ∈ st.vis)) →
      st.g.edges.Pairwise (fun e1 e2 => ∀ c1 c2,
        e1.data.chain = some c1 → e2.data.chain = some c2 →
        3 ≤ c1.length → 3 ≤ c2.length → c1 ≠ c2 ∧ c1 ≠ c2.reverse) →
      (∀ e ∈ (prs.foldl (processPair m allN) st).g.edges, ∃ c,
        e.data.chain = some c ∧ e.data.weight = some (c.length : Int) ∧
        2 ≤ c.length ∧
        (∀ x ∈ c.tail.dropLast, x ∈ (prs.foldl (processPair m allN) st).vis)) ∧
      (prs.foldl (processPair m allN) st).g.edges.Pairwise (fun e1 e2 =>
        ∀ c1 c2, e1.data.chain = some c1 → e2.data.chain = some c2 →
        3 ≤ c1.length → 3 ≤ c2.length → c1 ≠ c2 ∧ c1 ≠ c2.reverse) := by
  intro prs
  induction prs with
  | nil => intro st h1 h2; exact ⟨h1, h2⟩
  | cons p r ihp =>
    intro st h1 h2
    obtain ⟨h1', h2'⟩ := processPair_chains m allN st p h1 h2
    exact ihp (processPair m allN st p) h1' h2'

/-- C5 (amended): every edge `build_graph` produces stores a pixel chain of
at least two pixels whose length is exactly the edge's weight; and no two
distinct edges whose chains have an interior pixel (three or more pixels)
carry chains that are equal to, or exact reverses of, one another.  (For
two-pixel node-to-node chains the skip logic does not fire, and the same
physical chain is recorded once from each direction — see the
counterexample.) -/
theorem build_graph_chain_spec (m : Mask) :
    (∀ e ∈ (build_graph m).edges, ∃ c, e.data.chain = some c ∧
      e.data.weight = some (c.length : Int) ∧ 2 ≤ c.length) ∧
    (build_graph m).edges.Pairwise (fun e1 e2 => ∀ c1 c2,
      e1.data.chain = some c1 → e2.data.chain = some c2 →
      3 ≤ c1.length → 3 ≤ c2.length → c1 ≠ c2 ∧ c1 ≠ c2.reverse) := by
  obtain ⟨h1, h2⟩ := builder_fold_chains m (builderAllNodes m)
    (builderPairs m (builderAllNodes m)) ⟨[], ⟨builderAllNodes m, []⟩⟩
    (by intro e he; cases he) List.Pairwise.nil
  exact ⟨fun e he => (h1 e he).imp (fun c hc => ⟨hc.1, hc.2.1, hc.2.2.1⟩), h2⟩

/-- Counterexample to C5 as stated: on a two-pixel skeleton both pixels are
endpoint nodes, the two traces are not blocked by the consumed-pixel set
(it only records interior pixels), and the same physical chain is recorded
twice, once in each direction — the second edge's chain is the exact
reverse of the first's. -/
theorem build_graph_reverse_counterexample :
    ((build_graph exMask12).edges.map (fun e => e.data.chain))
      = [some [(0, 0), (0, 1)], some [(0, 1), (0, 0)]] ∧
    [(0, 1), (0, 0)] = [(0, 0), (0, 1)].reverse := by decide

theorem build_graph_chain_spec_witness :
    (∀ e ∈ (build_graph exMask13).edges, ∃ c, e.data.chain = some c ∧
      e.data.weight = some (c.length : Int) ∧ 2 ≤ c.length) ∧
    (build_graph exMask13).edges.Pairwise (fun e1 e2 => ∀ c1 c2,
      e1.data.chain = some c1 → e2.data.chain = some c2 →
      3 ≤ c1.length → 3 ≤ c2.length → c1 ≠ c2 ∧ c1 ≠ c2.reverse) :=
  build_graph_chain_spec exMask13

/-! ## Geometry of the 8-neighbourhood (used for claim C9) -/

theorem nbhdOffsets_neg : ∀ d ∈ nbhdOffsets,
    ((-d.1, -d.2) : Int × Int) ∈ nbhdOffsets := by decide

theorem nbhdOffsets_ne_zero : ∀ d ∈ nbhdOffsets,
    d ≠ ((0 : Int), (0 : Int)) := by decide

theorem get_neighbors_mem {m : Mask} {p q : Pix} (h : q ∈ get_neighbors m p) :
    q ∈ m.fg ∧ 0 ≤ q.1 ∧ q.1 < (m.h : Int) ∧ 0 ≤ q.2 ∧ q.2 < (m.w : Int) ∧
      q ≠ p := by
  unfold get_neighbors at h
  obtain ⟨d, hd, hif⟩ := List.mem_filterMap.mp h
  dsimp only at hif
  split at hif
  case isTrue hc =>
    injection hif with hq
    subst hq
    obtain ⟨h1, h2, h3, h4, h5⟩ := hc
    refine ⟨h5, h1, h2, h3, h4, ?_⟩
    intro hqp
    apply nbhdOffsets_ne_zero d hd
    have e1 : p.1 + d.1 = p.1 := congrArg Prod.fst hqp
    have e2 : p.2 + d.2 = p.2 := congrArg Prod.snd hqp
    have hd1 : d.1 = 0 := by omega
    have hd2 : d.2 = 0 := by omega
    cases d
    simp only [Prod.mk.injEq]
    exact ⟨hd1, hd2⟩
  case isFalse => cases hif

theorem get_neighbors_symm {m : Mask} {p q : Pix} (hpfg : p ∈ m.fg)
    (hpb : 0 ≤ p.1 ∧ p.1 < (m.h : Int) ∧ 0 ≤ p.2 ∧ p.2 < (m.w : Int))
    (h : q ∈ get_neighbors m p) : p ∈ get_neighbors m q := by
  unfold get_neighbors at h ⊢
  obtain ⟨d, hd, hif⟩ := List.mem_filterMap.mp h
  dsimp only at hif
  split at hif
  case isTrue hc =>
    injection hif with hq
    have hpt : ((q.1 + -d.1, q.2 + -d.2) : Pix) = p := by
      rw [← hq]
      dsimp only
      rw [Prod.ext_iff]
      dsimp only
      constructor <;> omega
    apply List.mem_filterMap.mpr
    refine ⟨(-d.1, -d.2), nbhdOffsets_neg d hd, ?_⟩
    dsimp only
    obtain ⟨b1, b2, b3, b4⟩ := hpb
    have e1 : q.1 + -d.1 = p.1 := by simpa using congrArg Prod.fst hpt
    have e2 : q.2 + -d.2 = p.2 := by simpa using congrArg Prod.snd hpt
    have hcond : 0 ≤ q.1 + -d.1 ∧ q.1 + -d.1 < (m.h : Int) ∧ 0 ≤ q.2 + -d.2 ∧
        q.2 + -d.2 < (m.w : Int) ∧ ((q.1 + -d.1, q.2 + -d.2) : Pix) ∈ m.fg :=
      ⟨by omega, by omega, by omega, by omega, by rw [hpt]; exact hpfg⟩
    rw [if_pos hcond, hpt]
  case isFalse => cases hif

theorem get_neighbors_nodup (m : Mask) (p : Pix) :
    (get_neighbors m p).Nodup := by
  unfold get_neighbors
  apply List.Nodup.filterMap
  · intro a b q hqa hqb
    dsimp only at hqa hqb
    split at hqa
    case isTrue =>
      split at hqb
      case isTrue =>
        rw [Option.mem_def] at hqa hqb
        injection hqa with ha
        injection hqb with hb
        have e1 : p.1 + a.1 = p.1 + b.1 := by
          have := congrArg Prod.fst (ha.trans hb.symm)
          simpa using this
        have e2 : p.2 + a.2 = p.2 + b.2 := by
          have := congrArg Prod.snd (ha.trans hb.symm)
          simpa using this
        cases a
        cases b
        simp only [Prod.mk.injEq]
        constructor <;> omega
      case isFalse => cases hqb
    case isFalse => cases hqa
  · decide

theorem builderAllNodes_sub {m : Mask} : ∀ x ∈ builderAllNodes m, x ∈ m.fg := by
  intro x hx
  unfold builderAllNodes at hx
  rcases List.mem_append.mp hx with h | h
  · exact (List.mem_filter.mp h).1
  · split at h
    · exact List.mem_of_mem_take h
    · exact (List.mem_filter.mp h).1

theorem nonnode_neighbors {m : Mask} {p : Pix} (hp : p ∈ m.fg)
    (hn : p ∉ builderAllNodes m) :
    (get_neighbors m p).length ≠ 1 ∧ (get_neighbors m p).length ≤ 2 := by
  constructor
  · intro h1
    apply hn
    have hpe : p ∈ builderEndpoints m :=
      List.mem_filter.mpr ⟨hp, by simp [h1]⟩
    have hne : (builderEndpoints m).isEmpty = false := by
      cases he : builderEndpoints m with
      | nil => rw [he] at hpe; cases hpe
      | cons a t => rfl
    unfold builderAllNodes
    dsimp only
    rw [hne]
    simp only [Bool.and_false, Bool.false_and, Bool.false_eq_true, if_false]
    exact List.mem_append_right _ hpe
  · by_contra h2
    push_neg at h2
    apply hn
    have hpj : p ∈ builderJunctions m :=
      List.mem_filter.mpr ⟨hp, by simp; omega⟩
    unfold builderAllNodes
    dsimp only
    exact List.mem_append_left _ hpj

theorem filter_notmem_cons_lt {fg vis : List Pix} {c : Pix} (hc : c ∈ fg)
    (hnv : c ∉ vis) :
    (fg.filter (fun x => decide (x ∉ c :: vis))).length
      < (fg.filter (fun x => decide (x ∉ vis))).length := by
  have heq : fg.filter (fun x => decide (x ∉ c :: vis))
      = (fg.filter (fun x => decide (x ∉ vis))).filter
          (fun x => decide (x ≠ c)) := by
    rw [List.filter_filter]
    apply List.filter_congr
    intro x _
    by_cases h1 : x = c
    · subst h1
      simp [hnv]
    · by_cases h2 : x ∈ vis <;> simp [h1, h2]
  rw [heq, List.length_filter_lt_length_iff_exists]
  exact ⟨c, List.mem_filter.mpr ⟨hc, by simpa using hnv⟩, by simp⟩

theorem traceWalk_geo (m : Mask) (allN : List Pix)
    (hb : ∀ p ∈ m.fg, 0 ≤ p.1 ∧ p.1 < (m.h : Int) ∧ 0 ≤ p.2 ∧ p.2 < (m.w : Int))
    (hcnt : ∀ p ∈ m.fg, p ∉ allN →
      (get_neighbors m p).length ≠ 1 ∧ (get_neighbors m p).length ≤ 2) :
    ∀ (fuel : Nat) (prev cur : Pix) (path vis : List Pix),
      (m.fg.filter (fun x => decide (x ∉ vis))).length < fuel →
      cur ∈ m.fg → cur ∉ vis → prev ∈ get_neighbors m cur →
      (prev ∈ vis ∨ prev ∈ allN) →
      path.getLast? = some cur →
      (∀ v ∈ vis, v ∈ m.fg ∧ v ∉ allN ∧
        ∀ y ∈ get_neighbors m v, y ∈ vis ∨ y ∈ allN ∨ (v = prev ∧ y = cur)) →
      (traceWalk m allN fuel prev cur path vis).2.1 ∈ allN ∧
      (∀ v ∈ (traceWalk m allN fuel prev cur path vis).2.2, v ∈ m.fg ∧
        v ∉ allN ∧ ∀ y ∈ get_neighbors m v,
          y ∈ (traceWalk m allN fuel prev cur path vis).2.2 ∨ y ∈ allN) ∧
      (∀ x ∈ (traceWalk m allN fuel prev cur path vis).1.tail.dropLast,
        x ∈ path.tail.dropLast ∨ x ∉ vis) := by
  intro fuel
  induction fuel with
  | zero => intro prev cur path vis hf _ _ _ _ _ _; omega
  | succ f ih =>
    intro prev cur path vis hf hcf hcv hpn hpok hlast hVC
    rw [traceWalk_succ_red]
    by_cases hcn : cur ∈ allN
    · rw [if_pos hcn]
      refine ⟨hcn, ?_, fun x hx => .inl hx⟩
      intro v hv
      obtain ⟨h1, h2, h3⟩ := hVC v hv
      refine ⟨h1, h2, ?_⟩
      intro y hy
      rcases h3 y hy with h | h | ⟨_, rfl⟩
      · exact .inl h
      · exact .inr h
      · exact .inr hcn
    · rw [if_neg hcn]
      have hc2 := hcnt cur hcf hcn
      have hplen : 1 ≤ (get_neighbors m cur).length := by
        cases hnl : get_neighbors m cur with
        | nil => rw [hnl] at hpn; cases hpn
        | cons a t => simp
      have hlen2 : (get_neighbors m cur).length = 2 := by omega
      obtain ⟨a, b, hab⟩ : ∃ a b, get_neighbors m cur = [a, b] := by
        cases hnl : get_neighbors m cur with
        | nil => rw [hnl] at hlen2; cases hlen2
        | cons x t =>
          cases ht : t with
          | nil => rw [hnl, ht] at hlen2; cases hlen2
          | cons y t2 =>
            cases ht2 : t2 with
            | nil => exact ⟨x, y, rfl⟩
            | cons z t3 =>
              rw [hnl, ht, ht2] at hlen2
              simp at hlen2
      have hnd := get_neighbors_nodup m cur
      rw [hab] at hnd
      have habne : a ≠ b := by
        simp only [List.nodup_cons, List.mem_singleton] at hnd
        exact hnd.1
      have hprevm : prev ∈ [a, b] := by rw [← hab]; exact hpn
      -- the filtered next-step list is the single other neighbour
      obtain ⟨o, ho1, ho2, ho3, hall⟩ : ∃ o,
          (get_neighbors m cur).filter (fun n => n ≠ prev) = [o] ∧
          o ≠ prev ∧ o ∈ get_neighbors m cur ∧
          (∀ y ∈ get_neighbors m cur, y = prev ∨ y = o) := by
        rcases List.mem_pair.mp hprevm with rfl | rfl
        · refine ⟨b, ?_, Ne.symm habne, by rw [hab]; simp, ?_⟩
          · rw [hab]
            simp [habne.symm]
          · intro y hy
            rw [hab] at hy
            rcases List.mem_pair.mp hy with rfl | rfl
            · exact .inl rfl
            · exact .inr rfl
        · refine ⟨a, ?_, habne, by rw [hab]; simp, ?_⟩
          · rw [hab]
            simp [habne]
          · intro y hy
            rw [hab] at hy
            rcases List.mem_pair.mp hy with rfl | rfl
            · exact .inr rfl
            · exact .inl rfl
      rw [ho1]
      obtain ⟨hof, _, _, _, _, honc⟩ := get_neighbors_mem ho3
      have hco : cur ∈ get_neighbors m o :=
        get_neighbors_symm hcf (hb cur hcf) ho3
      have hov : o ∉ vis := by
        intro hovis
        obtain ⟨_, _, h3⟩ := hVC o hovis
        rcases h3 cur hco with h | h | ⟨h, _⟩
        · exact hcv h
        · exact hcn h
        · exact ho2 h
      have hf2 : (m.fg.filter (fun x => decide (x ∉ cur :: vis))).length < f := by
        have hlt := filter_notmem_cons_lt hcf hcv
        omega
      have hlast2 : (path ++ [o]).getLast? = some o := List.getLast?_concat _
      have hVC2 : ∀ v ∈ cur :: vis, v ∈ m.fg ∧ v ∉ allN ∧
          ∀ y ∈ get_neighbors m v,
            y ∈ cur :: vis ∨ y ∈ allN ∨ (v = cur ∧ y = o) := by
        intro v hv
        rcases List.mem_cons.mp hv with rfl | hvv
        · refine ⟨hcf, hcn, ?_⟩
          intro y hy
          rcases hall y hy with rfl | rfl
          · rcases hpok with h | h
            · exact .inl (List.mem_cons_of_mem _ h)
            · exact .inr (.inl h)
          · exact .inr (.inr ⟨rfl, rfl⟩)
        · obtain ⟨h1, h2, h3⟩ := hVC v hvv
          refine ⟨h1, h2, ?_⟩
          intro y hy
          rcases h3 y hy with h | h | ⟨_, rfl⟩
          · exact .inl (List.mem_cons_of_mem _ h)
          · exact .inr (.inl h)
          · exact .inl (List.mem_cons_self _ _)
      have hrec := ih cur o (path ++ [o]) (cur :: vis) hf2 hof
        (by simp [honc, hov]) hco (.inl (List.mem_cons_self _ _)) hlast2 hVC2
      obtain ⟨hA, hB, hC⟩ := hrec
      refine ⟨hA, hB, ?_⟩
      intro x hx
      rcases hC x hx with h | h
      · cases hp : path with
        | nil => rw [hp] at hlast; cases hlast
        | cons p0 pr =>
          rw [hp, List.cons_append] at h
          simp only [List.tail_cons] at h
          rw [List.dropLast_concat] at h
          by_cases hpr : pr = []
          · rw [hpr] at h; cases h
          · have hdec := List.dropLast_append_getLast hpr
            rw [← hdec] at h
            rcases List.mem_append.mp h with h1 | h1
            · left
              simpa using h1
            · right
              have hpl : pr.getLast? = some cur := by
                cases hq : pr with
                | nil => exact absurd hq hpr
                | cons q qr =>
                  have hl2 := hlast
                  rw [hp, hq, List.getLast?_cons_cons] at hl2
                  exact hl2
              rw [List.getLast?_eq_getLast pr hpr] at hpl
              injection hpl with h4
              simp only [List.mem_singleton] at h1
              rw [h1, h4]
              exact hcv
      · right
        intro hxv
        exact h (List.mem_cons_of_mem _ hxv)

theorem processPair_geo (m : Mask)
    (hb : ∀ p ∈ m.fg, 0 ≤ p.1 ∧ p.1 < (m.h : Int) ∧ 0 ≤ p.2 ∧ p.2 < (m.w : Int))
    (st : BState) (pr : Pix × Pix)
    (hpr1 : pr.1 ∈ builderAllNodes m) (hpr2 : pr.2 ∈ get_neighbors m pr.1)
    (hVC : ∀ v ∈ st.vis, v ∈ m.fg ∧ v ∉ builderAllNodes m ∧
      ∀ y ∈ get_neighbors m v, y ∈ st.vis ∨ y ∈ builderAllNodes m)
    (hE : ∀ e ∈ st.g.edges, ∃ c, e.data.chain = some c ∧
      c.head? = some e.u ∧ c.getLast? = some e.v ∧
      (∀ x ∈ c.tail.dropLast, x ∈ st.vis))
    (hPw : st.g.edges.Pairwise (fun e1 e2 => ∀ c1 c2,
      e1.data.chain = some c1 → e2.data.chain = some c2 →
      ∀ x ∈ c1.tail.dropLast, x ∉ c2.tail.dropLast)) :
    (∀ v ∈ (processPair m (builderAllNodes m) st pr).vis, v ∈ m.fg ∧
      v ∉ builderAllNodes m ∧ ∀ y ∈ get_neighbors m v,
        y ∈ (processPair m (builderAllNodes m) st pr).vis ∨
        y ∈ builderAllNodes m) ∧
    (∀ e ∈ (processPair m (builderAllNodes m) st pr).g.edges, ∃ c,
      e.data.chain = some c ∧ c.head? = some e.u ∧ c.getLast? = some e.v ∧
      (∀ x ∈ c.tail.dropLast,
        x ∈ (processPair m (builderAllNodes m) st pr).vis)) ∧
    (processPair m (builderAllNodes m) st pr).g.edges.Pairwise
      (fun e1 e2 => ∀ c1 c2,
        e1.data.chain = some c1 → e2.data.chain = some c2 →
        ∀ x ∈ c1.tail.dropLast, x ∉ c2.tail.dropLast) := by
  by_cases hv : pr.2 ∈ st.vis
  · rw [processPair_skip _ _ _ _ hv]
    exact ⟨hVC, hE, hPw⟩
  · rw [processPair_go _ _ _ _ hv]
    obtain ⟨suf, hT1, hT2, hT3, hT4⟩ := traceWalk_spec m (builderAllNodes m)
      (buildFuel m) pr.1 pr.2 [pr.1, pr.2] st.vis rfl (by intro x hx; cases hx)
    have hndfg : pr.1 ∈ m.fg := builderAllNodes_sub pr.1 hpr1
    obtain ⟨hnbf, _, _, _, _, _⟩ := get_neighbors_mem hpr2
    have hfuel : (m.fg.filter (fun x => decide (x ∉ st.vis))).length
        < buildFuel m := by
      unfold buildFuel
      have hle := List.length_filter_le (fun x => decide (x ∉ st.vis)) m.fg
      omega
    have hndnb : pr.1 ∈ get_neighbors m pr.2 :=
      get_neighbors_symm hndfg (hb pr.1 hndfg) hpr2
    obtain ⟨hA, hB, hC⟩ := traceWalk_geo m (builderAllNodes m) hb
      (fun p hp hn => nonnode_neighbors hp hn) (buildFuel m) pr.1 pr.2
      [pr.1, pr.2] st.vis hfuel hnbf hv hndnb (.inr hpr1) rfl
      (fun v hv2 => ⟨(hVC v hv2).1, (hVC v hv2).2.1, fun y hy =>
        match (hVC v hv2).2.2 y hy with
        | .inl h => .inl h
        | .inr h => .inr (.inl h)⟩)
    rw [if_pos hA]
    simp only
    refine ⟨hB, ?_, ?_⟩
    · intro e he
      rw [nxAddEdge_edges] at he
      rcases List.mem_append.mp he with hold | hnew
      · obtain ⟨c, h1, h2, h3, h4⟩ := hE e hold
        exact ⟨c, h1, h2, h3, fun x hx => hT3 x (h4 x hx)⟩
      · simp only [List.mem_singleton] at hnew
        subst hnew
        refine ⟨(traceWalk m (builderAllNodes m) (buildFuel m) pr.1 pr.2
          [pr.1, pr.2] st.vis).1, rfl, ?_, hT2, hT4⟩
        rw [hT1]
        rfl
    · rw [nxAddEdge_edges, List.pairwise_append]
      refine ⟨hPw, List.pairwise_singleton _ _, ?_⟩
      intro e1 he1 e2 he2
      simp only [List.mem_singleton] at he2
      subst he2
      intro c1 c2 hc1 hc2 x hx1 hx2
      obtain ⟨c1', hc1', _, _, hint1⟩ := hE e1 he1
      rw [hc1] at hc1'
      injection hc1' with hceq
      subst hceq
      have hc2eq : c2 = (traceWalk m (builderAllNodes m) (buildFuel m) pr.1
          pr.2 [pr.1, pr.2] st.vis).1 := by
        simp only at hc2
        injection hc2 with hh
        exact hh.symm
      rw [hc2eq] at hx2
      rcases hC x hx2 with h | h
      · cases h
      · exact h (hint1 x hx1)

theorem builder_fold_geo (m : Mask)
    (hb : ∀ p ∈ m.fg, 0 ≤ p.1 ∧ p.1 < (m.h : Int) ∧ 0 ≤ p.2 ∧ p.2 < (m.w : Int)) :
    ∀ (prs : List (Pix × Pix)) (st : BState),
      (∀ p ∈ prs, p.1 ∈ builderAllNodes m ∧ p.2 ∈ get_neighbors m p.1) →
      (∀ v ∈ st.vis, v ∈ m.fg ∧ v ∉ builderAllNodes m ∧
        ∀ y ∈ get_neighbors m v, y ∈ st.vis ∨ y ∈ builderAllNodes m) →
      (∀ e ∈ st.g.edges, ∃ c, e.data.chain = some c ∧
        c.head? = some e.u ∧ c.getLast? = some e.v ∧
        (∀ x ∈ c.tail.dropLast, x ∈ st.vis)) →
      st.g.edges.Pairwise (fun e1 e2 => ∀ c1 c2,
        e1.data.chain = some c1 → e2.data.chain = some c2 →
        ∀ x ∈ c1.tail.dropLast, x ∉ c2.tail.dropLast) →
      (∀ e ∈ (prs.foldl (processPair m (builderAllNodes m)) st).g.edges,
        ∃ c, e.data.chain = some c ∧ c.head? = some e.u ∧
          c.getLast? = some e.v) ∧
      (prs.foldl (processPair m (builderAllNodes m)) st).g.edges.Pairwise
        (fun e1 e2 => ∀ c1 c2,
          e1.data.chain = some c1 → e2.data.chain = some c2 →
          ∀ x ∈ c1.tail.dropLast, x ∉ c2.tail.dropLast) := by
  intro prs
  induction prs with
  | nil =>
    intro st _ _ hE hPw
    exact ⟨fun e he => (hE e he).imp (fun c hc => ⟨hc.1, hc.2.1, hc.2.2.1⟩), hPw⟩
  | cons p r ihp =>
    intro st hprs hVC hE hPw
    obtain ⟨h1, h2, h3⟩ := processPair_geo m hb st p
      (hprs p (List.mem_cons_self _ _)).1 (hprs p (List.mem_cons_self _ _)).2
      hVC hE hPw
    exact ihp (processPair m (builderAllNodes m) st p)
      (fun q hq => hprs q (List.mem_cons_of_mem _ hq)) h1 h2 h3

/-- C9: every graph `build_graph` produces satisfies the structural
invariant: each edge's stored pixel chain starts at the position of its
first endpoint node and ends at the position of its second, and the chains'
interior pixels (those strictly between the two endpoint nodes) are
pairwise disjoint across distinct edges — each skeleton pixel lies in the
interior of at most one edge's chain. -/
theorem build_graph_structure_spec (m : Mask)
    (hb : ∀ p ∈ m.fg, 0 ≤ p.1 ∧ p.1 < (m.h : Int) ∧ 0 ≤ p.2 ∧
      p.2 < (m.w : Int)) :
    (∀ e ∈ (build_graph m).edges, ∃ c, e.data.chain = some c ∧
      c.head? = some e.u ∧ c.getLast? = some e.v) ∧
    (build_graph m).edges.Pairwise (fun e1 e2 => ∀ c1 c2,
      e1.data.chain = some c1 → e2.data.chain = some c2 →
      ∀ x ∈ c1.tail.dropLast, x ∉ c2.tail.dropLast) := by
  have hprs : ∀ p ∈ builderPairs m (builderAllNodes m),
      p.1 ∈ builderAllNodes m ∧ p.2 ∈ get_neighbors m p.1 := by
    intro p hp
    unfold builderPairs at hp
    obtain ⟨nd, hnd, hmap⟩ := List.mem_flatMap.mp hp
    obtain ⟨nb, hnb, rfl⟩ := List.mem_map.mp hmap
    exact ⟨hnd, hnb⟩
  exact builder_fold_geo m hb (builderPairs m (builderAllNodes m))
    ⟨[], ⟨builderAllNodes m, []⟩⟩ hprs (by intro v hv; cases hv)
    (by intro e he; cases he) List.Pairwise.nil

theorem build_graph_structure_spec_witness :
    (∀ e ∈ (build_graph exMask13).edges, ∃ c, e.data.chain = some c ∧
      c.head? = some e.u ∧ c.getLast? = some e.v) ∧
    (build_graph exMask13).edges.Pairwise (fun e1 e2 => ∀ c1 c2,
      e1.data.chain = some c1 → e2.data.chain = some c2 →
      ∀ x ∈ c1.tail.dropLast, x ∉ c2.tail.dropLast) :=
  build_graph_structure_spec exMask13 (by decide)
